import Mathlib

/-!
# gocache: tag-indexed stores

A shallow embedding of the `store` package of `fmyxyz/gocache`
(`options.go`, `invalidate_options.go`, `interface.go`, `go_cache.go`,
`memcache.go`, `ristretto.go`, `redis.go`) together with theorems about
option resolution, the tag index protocol, tag invalidation and the
store operations.  The statistics wrapper of `codec/codec.go` and the
key derivation of `cache/cache.go`, two files that are not among the
sources, are modelled from the specification in the namespaces `codec`
and `cache`.

Conventions of the embedding.

* A Go `string` and a Go `[]byte` are both byte sequences; they are
  embedded as Lean `String`s, and the dynamic type is kept by the
  constructors of `Value`.
* A backend client is an interface value in Go.  It is embedded as a
  record of transition functions over an abstract client state `σ`:
  every method takes the state before the call and returns its Go
  results paired with the state after the call.
* A Go `error` is embedded as `Option Error`, `none` being `nil`.
* The store methods are embedded on the strings every caller of the
  package passes as keys, and on a byte slice as the value given to
  `MemcacheStore.Set`; the unchecked assertions `key.(string)` and
  `value.([]byte)` are put in front of them in the namespace `dyn`.
* The marshaler of `marshaler/marshaler.go` is embedded in the
  namespace `marshaler`, over a cache given as a record of transition
  functions and a msgpack codec given by its two functions.
* The `float64` arithmetic of `time.Duration.Seconds` is embedded
  exactly, on dyadic rationals rounded to 53 significant bits.
* A Go map is kept by value in `Value`.  The go-cache tag step adds the
  key to the map object it has read; this is embedded once more in the
  namespace `byref`, with the map objects in a heap, for the theorems
  that speak of a second holder of such an object.
* All definitions come first; the theorems start at the section
  "Option resolution".
-/

namespace store

/-! ## Basic types -/

/-- A Go `error` value, identified by its message. -/
abbrev Error := String

/-- A `time.Duration`, in nanoseconds. -/
abbrev Duration := Int

/-- The constant `time.Second`. -/
def Second : Duration := 1000000000

/-- The constant `time.Hour`. -/
def Hour : Duration := 3600 * Second

/-- A non-nil `context.Context`: the background context or some other
context, identified by a number. -/
inductive Context where
  | background
  | named (id : Nat)
  deriving DecidableEq, Repr

/-- A dynamically typed Go value (`interface{}`), restricted to the
dynamic types the stores distinguish.  A `map[string]struct{}` is
embedded by value as the list of its keys, in iteration order. -/
inductive Value where
  | nil
  | str (s : String)
  | bytes (b : String)
  | keySet (m : List String)
  | other (n : Nat)
  deriving DecidableEq, Repr

/-! ## options.go -/

/-- The struct `Options` of `options.go`. -/
structure Options where
  Cost : Int := 0
  Expiration : Duration := 0
  Tags : List String := []
  Ctx : Option Context := none
  deriving DecidableEq, Repr

/-- The method `Options.CostValue`. -/
def Options.CostValue (o : Options) : Int := o.Cost

/-- The method `Options.ExpirationValue`. -/
def Options.ExpirationValue (o : Options) : Duration := o.Expiration

/-- The method `Options.TagsValue`. -/
def Options.TagsValue (o : Options) : List String := o.Tags

/-- The method `Options.CtxValue`. -/
def Options.CtxValue (o : Options) : Option Context := o.Ctx

/-- The type `Option` of `options.go`, `func(o *Options)`: a mutator of
the record it is given. -/
abbrev StoreOption := Options → Options

/-- The mutator built by `Cost(cost)`. -/
def Cost (cost : Int) : StoreOption := fun o => { o with Cost := cost }

/-- The mutator built by `Expiration(expiration)`. -/
def Expiration (expiration : Duration) : StoreOption :=
  fun o => { o with Expiration := expiration }

/-- The mutator built by `Tags(tags...)`. -/
def Tags (tags : List String) : StoreOption := fun o => { o with Tags := tags }

/-- The mutator built by `Ctx(ctx)`; `ctx` may be nil. -/
def Ctx (ctx : Option Context) : StoreOption := fun o => { o with Ctx := ctx }

/-- The loop `for _, opt := range opts { opt(options) }`. -/
def applyOptions (options : Options) (opts : List StoreOption) : Options :=
  opts.foldl (fun o opt => opt o) options

/-- The head of every `Set`:
`options := &Options{}; if len(opts) == 0 { options = s.options }`
followed by the loop applying `opts`. -/
def resolveOptions (defaults : Options) (opts : List StoreOption) : Options :=
  applyOptions (if opts.length = 0 then defaults else {}) opts

/-! ## invalidate_options.go -/

/-- The struct `InvalidateOptions`. -/
structure InvalidateOptions where
  Tags : List String := []
  deriving DecidableEq, Repr

/-- The method `InvalidateOptions.TagsValue`. -/
def InvalidateOptions.TagsValue (o : InvalidateOptions) : List String := o.Tags

/-- The type `InvalidateOption`, `func(o *InvalidateOptions)`. -/
abbrev InvalidateOption := InvalidateOptions → InvalidateOptions

/-- The mutator built by `InvalidateTags(tags...)`. -/
def InvalidateTags (tags : List String) : InvalidateOption :=
  fun o => { o with Tags := tags }

/-! ## Tag keys and the delimited member list -/

/-- The call `fmt.Sprintf("gocache_tag_%s", tag)`; the four stores use
the same pattern (`GoCacheTagPattern`, `MemcacheTagPattern`,
`RistrettoTagPattern`, `RedisTagPattern`). -/
def tagKey (tag : String) : String := "gocache_tag_" ++ tag

/-- Splitting of a character list on `','`, as `strings.Split(s, ",")`
does: the pieces between consecutive separators, of which there is
always at least one. -/
def splitChars : List Char → List (List Char)
  | [] => [[]]
  | c :: cs =>
    if c = ',' then [] :: splitChars cs
    else
      match splitChars cs with
      | [] => [[c]]
      | p :: ps => (c :: p) :: ps

/-- The call `strings.Split(s, ",")`. -/
def split (s : String) : List String := (splitChars s.data).map String.mk

/-- The call `strings.Join(elems, ",")` on character lists. -/
def joinChars : List (List Char) → List Char
  | [] => []
  | [p] => p
  | p :: q :: ps => p ++ ',' :: joinChars (q :: ps)

/-- The call `strings.Join(elems, ",")`. -/
def join (elems : List String) : String := String.mk (joinChars (elems.map String.data))

/-! ## go_cache.go -/

/-- The interface `GoCacheClientInterface`.  `GetWithExpiration`
returns the expiry instant as a number. -/
structure GoCacheClientInterface (σ : Type) where
  Get : σ → String → (Value × Bool) × σ
  GetWithExpiration : σ → String → (Value × Int × Bool) × σ
  Set : σ → String → Value → Duration → σ
  Delete : σ → String → σ
  Flush : σ → σ

/-- The struct `GoCacheStore`. -/
structure GoCacheStore (σ : Type) where
  client : GoCacheClientInterface σ
  options : Options

/-- The constructor `NewGoCache`. -/
def NewGoCache {σ : Type} (client : GoCacheClientInterface σ)
    (options : List StoreOption) : GoCacheStore σ :=
  { client := client, options := applyOptions {} options }

/-- The method `GoCacheStore.Get`. -/
def GoCacheStore.Get {σ : Type} (s : GoCacheStore σ) (st : σ) (key : String) :
    (Value × Option Error) × σ :=
  let r := s.client.Get st key
  ((r.1.1, if r.1.2 then none else some "Value not found in GoCache store"), r.2)

/-- The method `GoCacheStore.Delete`. -/
def GoCacheStore.Delete {σ : Type} (s : GoCacheStore σ) (st : σ) (key : String) :
    Option Error × σ :=
  (none, s.client.Delete st key)

/-- The comma-ok assertion `result.(map[string]struct{})`, yielding the
nil map when it fails. -/
def asKeySet : Value → List String
  | Value.keySet m => m
  | _ => []

/-- One iteration of the loop of `GoCacheStore.setTags`.  The map is
kept by value here: the key set handed to the client is the one read
with the key added, which is what a reader of the index entry finds.
The source adds the key to the map object it has read; what a second
holder of that object then sees is embedded in the namespace `byref`. -/
def GoCacheStore.setTag {σ : Type} (s : GoCacheStore σ) (key : String) (st : σ)
    (tag : String) : σ :=
  let r := s.Get st (tagKey tag)
  let cacheKeys : List String := if r.1.2 = none then asKeySet r.1.1 else []
  if key ∈ cacheKeys then r.2
  else s.client.Set r.2 (tagKey tag) (Value.keySet (cacheKeys ++ [key])) (720 * Hour)

/-- The method `GoCacheStore.setTags`. -/
def GoCacheStore.setTags {σ : Type} (s : GoCacheStore σ) (st : σ) (key : String)
    (tags : List String) : σ :=
  tags.foldl (s.setTag key) st

/-- The method `GoCacheStore.Set`. -/
def GoCacheStore.Set {σ : Type} (s : GoCacheStore σ) (st : σ) (key : String)
    (value : Value) (opts : List StoreOption) : Option Error × σ :=
  let options := resolveOptions s.options opts
  let st1 := s.client.Set st key value options.ExpirationValue
  if options.TagsValue.length > 0 then (none, s.setTags st1 key options.TagsValue)
  else (none, st1)

/-- The body of the loop `for _, tag := range tags` of
`GoCacheStore.Invalidate`; the `return nil` on a failed read ends the
whole loop. -/
def GoCacheStore.invalidateTags {σ : Type} (s : GoCacheStore σ) :
    List String → σ → Option Error × σ
  | [], st => (none, st)
  | tag :: rest, st =>
    let r := s.Get st (tagKey tag)
    if r.1.2 ≠ none then (none, r.2)
    else
      let cacheKeys := asKeySet r.1.1
      let st1 := cacheKeys.foldl (fun st cacheKey => (s.Delete st cacheKey).2) r.2
      GoCacheStore.invalidateTags s rest st1

/-- The method `GoCacheStore.Invalidate`. -/
def GoCacheStore.Invalidate {σ : Type} (s : GoCacheStore σ) (st : σ)
    (options : InvalidateOptions) : Option Error × σ :=
  if options.TagsValue.length > 0 then s.invalidateTags options.TagsValue st
  else (none, st)

/-! ## memcache.go -/

/-- The struct `memcache.Item`, restricted to the fields the store
reads and writes. -/
structure Item where
  Key : String
  Value : String
  Expiration : Int
  deriving DecidableEq, Repr

/-- The interface `MemcacheClientInterface`; a nil `*memcache.Item` is
`none`. -/
structure MemcacheClientInterface (σ : Type) where
  Get : σ → String → (Option Item × Option Error) × σ
  Set : σ → Item → Option Error × σ
  Delete : σ → String → Option Error × σ
  FlushAll : σ → Option Error × σ

/-- The struct `MemcacheStore`. -/
structure MemcacheStore (σ : Type) where
  client : MemcacheClientInterface σ
  options : Options

/-- The constructor `NewMemcache`. -/
def NewMemcache {σ : Type} (client : MemcacheClientInterface σ)
    (options : List StoreOption) : MemcacheStore σ :=
  { client := client, options := applyOptions {} options }

/-! ### The conversion `int32(d.Seconds())`

`MemcacheStore.Set` writes `int32(options.ExpirationValue().Seconds())`.
The method `time.Duration.Seconds` of the Go library is

    sec := d / Second
    nsec := d % Second
    return float64(sec) + float64(nsec)/1e9

so the number of seconds passes through `float64`.  A finite `float64`
is a dyadic rational; it is embedded by its value `m / 2^k`, and every
operation rounds its exact result to the nearest rational with 53
significant binary digits, the even one of two equally near.  The
overflow and the subnormal range of `float64` lie beyond what the two
parts of a duration reach and are not embedded. -/

/-- A finite `float64`: the dyadic rational `m / 2^k`. -/
structure float64 where
  m : Int
  k : Nat
  deriving DecidableEq, Repr

/-- The search for the leading binary digit of `n`, at most `fuel`
halvings. -/
def log2Fuel : Nat → Nat → Nat
  | 0, _ => 0
  | fuel + 1, n => if n < 2 then 0 else log2Fuel fuel (n / 2) + 1

/-- The position of the leading binary digit of `n`. -/
def log2 (n : Nat) : Nat := log2Fuel n n

/-- The binary exponent of the positive rational `n / d`: the `e` with
`2^e ≤ n / d < 2^(e+1)`. -/
def exponent (n d : Nat) : Int :=
  let k : Int := (log2 n : Int) - (log2 d : Int)
  if d * 2 ^ k.toNat ≤ n * 2 ^ (-k).toNat then k else k - 1

/-- The integer nearest to `n / d`, the even one of two equally near. -/
def divRoundEven (n d : Nat) : Nat :=
  if 2 * (n % d) < d then n / d
  else if d < 2 * (n % d) then n / d + 1
  else n / d + (n / d) % 2

/-- The `float64` nearest to the rational `n / d`: the quotient is
scaled by the power of two that brings it into `[2^52, 2^53)` and
rounded to an integer there. -/
def float64.round (n : Int) (d : Nat) : float64 :=
  if n = 0 then ⟨0, 0⟩
  else
    let e := exponent n.natAbs d - 52
    ⟨n.sign * (divRoundEven (n.natAbs * 2 ^ (-e).toNat) (d * 2 ^ e.toNat) * 2 ^ e.toNat),
      (-e).toNat⟩

/-- The conversion `float64(i)` of an integer, exact below `2^53`. -/
def float64.ofInt (i : Int) : float64 :=
  if i.natAbs < 2 ^ 53 then ⟨i, 0⟩ else float64.round i 1

/-- The sum `x + y` of two `float64`. -/
def float64.add (x y : float64) : float64 :=
  float64.round (x.m * 2 ^ y.k + y.m * 2 ^ x.k) (2 ^ (x.k + y.k))

/-- The quotient `x / y` of two `float64`, `y` not zero. -/
def float64.div (x y : float64) : float64 :=
  float64.round (y.m.sign * x.m * 2 ^ y.k) (y.m.natAbs * 2 ^ x.k)

/-- The method `time.Duration.Seconds`. -/
def Seconds (d : Duration) : float64 :=
  let sec := Int.tdiv d Second
  let nsec := Int.tmod d Second
  float64.add (float64.ofInt sec) (float64.div (float64.ofInt nsec) ⟨1000000000, 0⟩)

/-- The conversion `int32(x)` of a `float64`: the fraction is
discarded.  For a value outside the range of `int32` the Go
specification leaves the result to the implementation; the embedding
takes the least `int32`, which is what the conversion instruction of
amd64 yields. -/
def int32 (x : float64) : Int :=
  let t := Int.tdiv x.m (2 ^ x.k)
  if -2147483648 ≤ t ∧ t < 2147483648 then t else -2147483648

/-- The conversion `int32(d.Seconds())` of `MemcacheStore.Set`. -/
def int32Seconds (d : Duration) : Int :=
  int32 (Seconds d)

/-- The method `MemcacheStore.Get`. -/
def MemcacheStore.Get {σ : Type} (s : MemcacheStore σ) (st : σ) (key : String) :
    (Value × Option Error) × σ :=
  let r := s.client.Get st key
  match r.1.2, r.1.1 with
  | some err, _ => ((Value.nil, some err), r.2)
  | none, none => ((Value.nil, some "Unable to retrieve data from memcache"), r.2)
  | none, some item => ((Value.bytes item.Value, none), r.2)

/-- The method `MemcacheStore.Delete`. -/
def MemcacheStore.Delete {σ : Type} (s : MemcacheStore σ) (st : σ) (key : String) :
    Option Error × σ :=
  s.client.Delete st key

/-- The body of `MemcacheStore.Set`, with the tag step it runs after a
successful write taken as the argument `tagStep`. -/
def MemcacheStore.setWith {σ : Type} (s : MemcacheStore σ)
    (tagStep : σ → String → List String → σ) (st : σ) (key : String)
    (value : String) (opts : List StoreOption) : Option Error × σ :=
  let options := resolveOptions s.options opts
  let item : Item :=
    { Key := key, Value := value, Expiration := int32Seconds options.ExpirationValue }
  let r := s.client.Set st item
  match r.1 with
  | some err => (some err, r.2)
  | none =>
    if options.TagsValue.length > 0 then (none, tagStep r.2 key options.TagsValue)
    else (none, r.2)

/-- The comma-ok assertion `result.([]byte)` followed by
`strings.Split(string(bytes), ",")`, yielding the empty list when the
assertion fails. -/
def asMembers : Value → List String
  | Value.bytes b => split b
  | _ => []

/-- The member list after the search loop and the conditional `append`
of `setTags`. -/
def addMember (cacheKeys : List String) (key : String) : List String :=
  if key ∈ cacheKeys then cacheKeys else cacheKeys ++ [key]

/-- One iteration of the loop of `MemcacheStore.setTags`.  The nested
call `s.Set(tagKey, ..., Expiration(720*time.Hour))` resolves an empty
tag list, so its own tag step is never entered
(`memcache_setWith_expiration`). -/
def MemcacheStore.setTag {σ : Type} (s : MemcacheStore σ) (key : String) (st : σ)
    (tag : String) : σ :=
  let r := s.Get st (tagKey tag)
  let cacheKeys : List String := if r.1.2 = none then asMembers r.1.1 else []
  (s.setWith (fun st _ _ => st) r.2 (tagKey tag) (join (addMember cacheKeys key))
    [Expiration (720 * Hour)]).2

/-- The method `MemcacheStore.setTags`. -/
def MemcacheStore.setTags {σ : Type} (s : MemcacheStore σ) (st : σ) (key : String)
    (tags : List String) : σ :=
  tags.foldl (s.setTag key) st

/-- The method `MemcacheStore.Set`. -/
def MemcacheStore.Set {σ : Type} (s : MemcacheStore σ) (st : σ) (key : String)
    (value : String) (opts : List StoreOption) : Option Error × σ :=
  s.setWith s.setTags st key value opts

/-- The body of the loop `for _, tag := range tags` of
`MemcacheStore.Invalidate`; the `return nil` on a failed read ends the
whole loop. -/
def MemcacheStore.invalidateTags {σ : Type} (s : MemcacheStore σ) :
    List String → σ → Option Error × σ
  | [], st => (none, st)
  | tag :: rest, st =>
    let r := s.Get st (tagKey tag)
    if r.1.2 ≠ none then (none, r.2)
    else
      let cacheKeys := asMembers r.1.1
      let st1 := cacheKeys.foldl (fun st cacheKey => (s.Delete st cacheKey).2) r.2
      MemcacheStore.invalidateTags s rest st1

/-- The method `MemcacheStore.Invalidate`. -/
def MemcacheStore.Invalidate {σ : Type} (s : MemcacheStore σ) (st : σ)
    (options : InvalidateOptions) : Option Error × σ :=
  if options.TagsValue.length > 0 then s.invalidateTags options.TagsValue st
  else (none, st)

/-! ## ristretto.go -/

/-- The interface `RistrettoClientInterface`. -/
structure RistrettoClientInterface (σ : Type) where
  Get : σ → String → (Value × Bool) × σ
  SetWithTTL : σ → String → Value → Int → Duration → Bool × σ
  Del : σ → String → σ
  Clear : σ → σ

/-- The struct `RistrettoStore`. -/
structure RistrettoStore (σ : Type) where
  client : RistrettoClientInterface σ
  options : Options

/-- The constructor `NewRistretto`. -/
def NewRistretto {σ : Type} (client : RistrettoClientInterface σ)
    (options : List StoreOption) : RistrettoStore σ :=
  { client := client, options := applyOptions {} options }

/-- The method `RistrettoStore.Get`. -/
def RistrettoStore.Get {σ : Type} (s : RistrettoStore σ) (st : σ) (key : String) :
    (Value × Option Error) × σ :=
  let r := s.client.Get st key
  ((r.1.1, if r.1.2 then none else some "Value not found in Ristretto store"), r.2)

/-- The method `RistrettoStore.Delete`. -/
def RistrettoStore.Delete {σ : Type} (s : RistrettoStore σ) (st : σ) (key : String) :
    Option Error × σ :=
  (none, s.client.Del st key)

/-- The body of `RistrettoStore.Set`, with the tag step it runs after a
successful write taken as the argument `tagStep`.  The error message,
which Go formats with the value and the key, is cut at the value. -/
def RistrettoStore.setWith {σ : Type} (s : RistrettoStore σ)
    (tagStep : σ → String → List String → σ) (st : σ) (key : String)
    (value : Value) (opts : List StoreOption) : Option Error × σ :=
  let options := resolveOptions s.options opts
  let r := s.client.SetWithTTL st key value options.CostValue options.ExpirationValue
  if !r.1 then (some "An error has occurred while setting value", r.2)
  else if options.TagsValue.length > 0 then (none, tagStep r.2 key options.TagsValue)
  else (none, r.2)

/-- One iteration of the loop of `RistrettoStore.setTags`.  The nested
call `s.Set(tagKey, ..., Expiration(720*time.Hour))` resolves an empty
tag list, so its own tag step is never entered
(`ristretto_setWith_expiration`). -/
def RistrettoStore.setTag {σ : Type} (s : RistrettoStore σ) (key : String) (st : σ)
    (tag : String) : σ :=
  let r := s.Get st (tagKey tag)
  let cacheKeys : List String := if r.1.2 = none then asMembers r.1.1 else []
  (s.setWith (fun st _ _ => st) r.2 (tagKey tag)
    (Value.bytes (join (addMember cacheKeys key))) [Expiration (720 * Hour)]).2

/-- The method `RistrettoStore.setTags`. -/
def RistrettoStore.setTags {σ : Type} (s : RistrettoStore σ) (st : σ) (key : String)
    (tags : List String) : σ :=
  tags.foldl (s.setTag key) st

/-- The method `RistrettoStore.Set`. -/
def RistrettoStore.Set {σ : Type} (s : RistrettoStore σ) (st : σ) (key : String)
    (value : Value) (opts : List StoreOption) : Option Error × σ :=
  s.setWith s.setTags st key value opts

/-- The body of the loop `for _, tag := range tags` of
`RistrettoStore.Invalidate`; the `return nil` on a failed read ends the
whole loop. -/
def RistrettoStore.invalidateTags {σ : Type} (s : RistrettoStore σ) :
    List String → σ → Option Error × σ
  | [], st => (none, st)
  | tag :: rest, st =>
    let r := s.Get st (tagKey tag)
    if r.1.2 ≠ none then (none, r.2)
    else
      let cacheKeys := asMembers r.1.1
      let st1 := cacheKeys.foldl (fun st cacheKey => (s.Delete st cacheKey).2) r.2
      RistrettoStore.invalidateTags s rest st1

/-- The method `RistrettoStore.Invalidate`. -/
def RistrettoStore.Invalidate {σ : Type} (s : RistrettoStore σ) (st : σ)
    (options : InvalidateOptions) : Option Error × σ :=
  if options.TagsValue.length > 0 then s.invalidateTags options.TagsValue st
  else (none, st)

/-! ## redis.go -/

/-- The interface `RedisClientInterface`.  Each method returns what
`Result()` (or `Err()`) of the command object gives. -/
structure RedisClientInterface (σ : Type) where
  Get : σ → Option Context → String → (String × Option Error) × σ
  TTL : σ → Option Context → String → (Duration × Option Error) × σ
  Expire : σ → Option Context → String → Duration → (Bool × Option Error) × σ
  Set : σ → Option Context → String → Value → Duration → Option Error × σ
  Del : σ → Option Context → List String → (Int × Option Error) × σ
  FlushAll : σ → Option Context → Option Error × σ
  SAdd : σ → Option Context → String → List String → (Int × Option Error) × σ
  SMembers : σ → Option Context → String → (List String × Option Error) × σ

/-- The struct `RedisStore`. -/
structure RedisStore (σ : Type) where
  client : RedisClientInterface σ
  options : Options

/-- The assignment
`if opts.Ctx == nil { opts.Ctx = context.Background() }`. -/
def defaultCtx (o : Options) : Options :=
  if o.Ctx = none then { o with Ctx := some Context.background } else o

/-- The constructor `NewRedis`. -/
def NewRedis {σ : Type} (client : RedisClientInterface σ)
    (options : List StoreOption) : RedisStore σ :=
  { client := client, options := defaultCtx (applyOptions {} options) }

/-- The method `RedisStore.Get`. -/
def RedisStore.Get {σ : Type} (s : RedisStore σ) (st : σ) (key : String) :
    (String × Option Error) × σ :=
  s.client.Get st s.options.Ctx key

/-- The method `RedisStore.Delete`. -/
def RedisStore.Delete {σ : Type} (s : RedisStore σ) (st : σ) (key : String) :
    Option Error × σ :=
  let r := s.client.Del st s.options.Ctx [key]
  (r.1.2, r.2)

/-- One iteration of the loop of `RedisStore.setTags`. -/
def RedisStore.setTag {σ : Type} (s : RedisStore σ) (key : String) (st : σ)
    (tag : String) : σ :=
  let st1 := (s.client.SAdd st s.options.Ctx (tagKey tag) [key]).2
  (s.client.Expire st1 s.options.Ctx (tagKey tag) (720 * Hour)).2

/-- The method `RedisStore.setTags`. -/
def RedisStore.setTags {σ : Type} (s : RedisStore σ) (st : σ) (key : String)
    (tags : List String) : σ :=
  tags.foldl (s.setTag key) st

/-- The method `RedisStore.Set`.  When no call-site option is given
`options` aliases the store's record, so the assignment of the
background context is made to the store itself; the store after the
call is the first component of the result. -/
def RedisStore.Set {σ : Type} (s : RedisStore σ) (st : σ) (key : String)
    (value : Value) (opts : List StoreOption) : RedisStore σ × Option Error × σ :=
  let options := defaultCtx (resolveOptions s.options opts)
  let s1 : RedisStore σ := if opts.length = 0 then { s with options := options } else s
  let r := s1.client.Set st options.Ctx key value options.ExpirationValue
  match r.1 with
  | some err => (s1, some err, r.2)
  | none =>
    if options.TagsValue.length > 0 then (s1, none, s1.setTags r.2 key options.TagsValue)
    else (s1, none, r.2)

/-- The body of the loop `for _, tag := range tags` of
`RedisStore.Invalidate`; a failed `SMembers` continues with the next
tag. -/
def RedisStore.invalidateTags {σ : Type} (s : RedisStore σ) :
    List String → σ → Option Error × σ
  | [], st => (none, st)
  | tag :: rest, st =>
    let r := s.client.SMembers st s.options.Ctx (tagKey tag)
    if r.1.2 ≠ none then RedisStore.invalidateTags s rest r.2
    else
      let st1 := r.1.1.foldl (fun st cacheKey => (s.Delete st cacheKey).2) r.2
      let st2 := (s.Delete st1 (tagKey tag)).2
      RedisStore.invalidateTags s rest st2

/-- The method `RedisStore.Invalidate`. -/
def RedisStore.Invalidate {σ : Type} (s : RedisStore σ) (st : σ)
    (options : InvalidateOptions) : Option Error × σ :=
  if options.TagsValue.length > 0 then s.invalidateTags options.TagsValue st
  else (none, st)

/-! ## Clients

The clients are external to the package.  Two kinds are used below:
the key-value maps the properties about stored entries are stated
over, and wrappers that record the calls a store makes on an arbitrary
client. -/

/-- The content of a key-value backend: the entry stored under each
key, if any. -/
abbrev KV (α : Type) := String → Option α

/-- The backend with no entry. -/
def KV.empty {α : Type} : KV α := fun _ => none

/-- The backend after storing `v` under `k`. -/
def KV.put {α : Type} (m : KV α) (k : String) (v : α) : KV α :=
  fun k' => if k' = k then some v else m k'

/-- The backend after removing the entry under `k`. -/
def KV.del {α : Type} (m : KV α) (k : String) : KV α :=
  fun k' => if k' = k then none else m k'

/-- A go-cache client that behaves as a key-value map: `Set` stores,
`Delete` removes, `Get` reports what is stored, nothing expires. -/
def mapGoCache : GoCacheClientInterface (KV Value) where
  Get st k := (match st k with
    | some v => (v, true)
    | none => (Value.nil, false), st)
  GetWithExpiration st k := (match st k with
    | some v => (v, 0, true)
    | none => (Value.nil, 0, false), st)
  Set st k x _ := st.put k x
  Delete st k := st.del k
  Flush _ := KV.empty

/-- A memcache client that behaves as a key-value map; a missing key
makes `Get` and `Delete` fail with `memcache.ErrCacheMiss`. -/
def mapMemcache : MemcacheClientInterface (KV Item) where
  Get st k := (match st k with
    | some item => (some item, none)
    | none => (none, some "memcache: cache miss"), st)
  Set st item := (none, st.put item.Key item)
  Delete st k := (match st k with
    | some _ => none
    | none => some "memcache: cache miss", st.del k)
  FlushAll _ := (none, KV.empty)

/-- A ristretto client that behaves as a key-value map and admits every
write. -/
def mapRistretto : RistrettoClientInterface (KV Value) where
  Get st k := (match st k with
    | some v => (v, true)
    | none => (Value.nil, false), st)
  SetWithTTL st k v _ _ := (true, st.put k v)
  Del st k := st.del k
  Clear _ := KV.empty

/-- A call on a memcache client. -/
inductive MemcacheCall where
  | Get (key : String)
  | Set (item : Item)
  | Delete (key : String)
  | FlushAll
  deriving DecidableEq, Repr

/-- The client `c` with every call appended to a log kept beside its
state. -/
def MemcacheClientInterface.recording {σ : Type} (c : MemcacheClientInterface σ) :
    MemcacheClientInterface (σ × List MemcacheCall) where
  Get st k := ((c.Get st.1 k).1, ((c.Get st.1 k).2, st.2 ++ [MemcacheCall.Get k]))
  Set st item := ((c.Set st.1 item).1, ((c.Set st.1 item).2, st.2 ++ [MemcacheCall.Set item]))
  Delete st k := ((c.Delete st.1 k).1, ((c.Delete st.1 k).2, st.2 ++ [MemcacheCall.Delete k]))
  FlushAll st := ((c.FlushAll st.1).1, ((c.FlushAll st.1).2, st.2 ++ [MemcacheCall.FlushAll]))

/-- A call on a Redis client. -/
inductive RedisCall where
  | Get (ctx : Option Context) (key : String)
  | TTL (ctx : Option Context) (key : String)
  | Expire (ctx : Option Context) (key : String) (expiration : Duration)
  | Set (ctx : Option Context) (key : String) (value : Value) (expiration : Duration)
  | Del (ctx : Option Context) (keys : List String)
  | FlushAll (ctx : Option Context)
  | SAdd (ctx : Option Context) (key : String) (members : List String)
  | SMembers (ctx : Option Context) (key : String)
  deriving DecidableEq, Repr

/-- The client `c` with every call appended to a log kept beside its
state. -/
def RedisClientInterface.recording {σ : Type} (c : RedisClientInterface σ) :
    RedisClientInterface (σ × List RedisCall) where
  Get st ctx k := ((c.Get st.1 ctx k).1, ((c.Get st.1 ctx k).2, st.2 ++ [RedisCall.Get ctx k]))
  TTL st ctx k := ((c.TTL st.1 ctx k).1, ((c.TTL st.1 ctx k).2, st.2 ++ [RedisCall.TTL ctx k]))
  Expire st ctx k d :=
    ((c.Expire st.1 ctx k d).1, ((c.Expire st.1 ctx k d).2, st.2 ++ [RedisCall.Expire ctx k d]))
  Set st ctx k v d :=
    ((c.Set st.1 ctx k v d).1, ((c.Set st.1 ctx k v d).2, st.2 ++ [RedisCall.Set ctx k v d]))
  Del st ctx ks := ((c.Del st.1 ctx ks).1, ((c.Del st.1 ctx ks).2, st.2 ++ [RedisCall.Del ctx ks]))
  FlushAll st ctx :=
    ((c.FlushAll st.1 ctx).1, ((c.FlushAll st.1 ctx).2, st.2 ++ [RedisCall.FlushAll ctx]))
  SAdd st ctx k ms :=
    ((c.SAdd st.1 ctx k ms).1, ((c.SAdd st.1 ctx k ms).2, st.2 ++ [RedisCall.SAdd ctx k ms]))
  SMembers st ctx k :=
    ((c.SMembers st.1 ctx k).1, ((c.SMembers st.1 ctx k).2, st.2 ++ [RedisCall.SMembers ctx k]))

/-- A Redis client without state whose every command succeeds with the
zero result. -/
def okRedis : RedisClientInterface Unit where
  Get _ _ _ := (("", none), ())
  TTL _ _ _ := ((0, none), ())
  Expire _ _ _ _ := ((true, none), ())
  Set _ _ _ _ _ := (none, ())
  Del _ _ _ := ((0, none), ())
  FlushAll _ _ := (none, ())
  SAdd _ _ _ _ := ((0, none), ())
  SMembers _ _ _ := (([], none), ())

/-- The calls the specification prescribes for invalidating `tags` on a
native-set backend, with the client state they leave: for each tag in
order `SMembers` on its tag key; when that fails nothing more for the
tag; when it succeeds one `Del` per returned member, in order, then one
`Del` of the tag key; the result of a `Del` is never looked at. -/
def nativeSetInvalidation {σ : Type} (c : RedisClientInterface σ) (ctx : Option Context) :
    List String → σ → List RedisCall × σ
  | [], st => ([], st)
  | tag :: rest, st =>
    let r := c.SMembers st ctx (tagKey tag)
    match r.1.2 with
    | some _ =>
      let t := nativeSetInvalidation c ctx rest r.2
      (RedisCall.SMembers ctx (tagKey tag) :: t.1, t.2)
    | none =>
      let keys := r.1.1 ++ [tagKey tag]
      let t := nativeSetInvalidation c ctx rest
        (keys.foldl (fun st k => (c.Del st ctx [k]).2) r.2)
      (RedisCall.SMembers ctx (tagKey tag) :: (keys.map fun k => RedisCall.Del ctx [k]) ++ t.1,
        t.2)

/-- The member list the go-cache store reads from the index entry of
`tag` in the backend content `st`: the key set stored under the tag
key, empty when there is no entry or the entry is not a key set. -/
def keySetMembers (st : KV Value) (tag : String) : List String :=
  match st (tagKey tag) with
  | some v => asKeySet v
  | none => []

/-- The member list the memcache store reads from the index entry of
`tag` in the backend content `st`: the pieces of the stored bytes,
empty when there is no entry. -/
def itemMembers (st : KV Item) (tag : String) : List String :=
  match st (tagKey tag) with
  | some item => split item.Value
  | none => []

/-- The member list the ristretto store reads from the index entry of
`tag` in the backend content `st`: the pieces of the stored bytes,
empty when there is no entry or the entry is not a byte slice. -/
def bytesMembers (st : KV Value) (tag : String) : List String :=
  match st (tagKey tag) with
  | some v => asMembers v
  | none => []

/-! ## GetWithTTL and Clear -/

/-- The method `Time.Sub` on instants counted in nanoseconds: the
difference, kept within the range of a `Duration`. -/
def timeSub (t u : Int) : Duration :=
  max (-9223372036854775808) (min 9223372036854775807 (t - u))

/-- The method `GoCacheStore.GetWithTTL`; `now` is the value of
`time.Now()`. -/
def GoCacheStore.GetWithTTL {σ : Type} (s : GoCacheStore σ) (now : Int) (st : σ)
    (key : String) : (Value × Duration × Option Error) × σ :=
  let r := s.client.GetWithExpiration st key
  if !r.1.2.2 then ((r.1.1, 0, some "Value not found in GoCache store"), r.2)
  else ((r.1.1, timeSub r.1.2.1 now, none), r.2)

/-- The method `GoCacheStore.Clear`. -/
def GoCacheStore.Clear {σ : Type} (s : GoCacheStore σ) (st : σ) : Option Error × σ :=
  (none, s.client.Flush st)

/-- The method `MemcacheStore.GetWithTTL`. -/
def MemcacheStore.GetWithTTL {σ : Type} (s : MemcacheStore σ) (st : σ) (key : String) :
    (Value × Duration × Option Error) × σ :=
  let r := s.client.Get st key
  match r.1.2, r.1.1 with
  | some err, _ => ((Value.nil, 0, some err), r.2)
  | none, none => ((Value.nil, 0, some "Unable to retrieve data from memcache"), r.2)
  | none, some item => ((Value.bytes item.Value, item.Expiration * Second, none), r.2)

/-- The method `MemcacheStore.Clear`. -/
def MemcacheStore.Clear {σ : Type} (s : MemcacheStore σ) (st : σ) : Option Error × σ :=
  s.client.FlushAll st

/-- The method `RistrettoStore.GetWithTTL`. -/
def RistrettoStore.GetWithTTL {σ : Type} (s : RistrettoStore σ) (st : σ) (key : String) :
    (Value × Duration × Option Error) × σ :=
  let r := s.Get st key
  ((r.1.1, 0, r.1.2), r.2)

/-- The method `RistrettoStore.Clear`. -/
def RistrettoStore.Clear {σ : Type} (s : RistrettoStore σ) (st : σ) : Option Error × σ :=
  (none, s.client.Clear st)

/-- The method `RedisStore.GetWithTTL`; the string it returns on
success is boxed as `Value.str`. -/
def RedisStore.GetWithTTL {σ : Type} (s : RedisStore σ) (st : σ) (key : String) :
    (Value × Duration × Option Error) × σ :=
  let r := s.client.Get st s.options.Ctx key
  match r.1.2 with
  | some err => ((Value.nil, 0, some err), r.2)
  | none =>
    let r1 := s.client.TTL r.2 s.options.Ctx key
    match r1.1.2 with
    | some err => ((Value.nil, 0, some err), r1.2)
    | none => ((Value.str r.1.1, r1.1.1, none), r1.2)

/-- The method `RedisStore.Clear`. -/
def RedisStore.Clear {σ : Type} (s : RedisStore σ) (st : σ) : Option Error × σ :=
  s.client.FlushAll st s.options.Ctx

/-! ## More clients -/

/-- A call on a go-cache client. -/
inductive GoCacheCall where
  | Get (k : String)
  | GetWithExpiration (k : String)
  | Set (k : String) (x : Value) (d : Duration)
  | Delete (k : String)
  | Flush
  deriving DecidableEq, Repr

/-- The client `c` with every call appended to a log kept beside its
state. -/
def GoCacheClientInterface.recording {σ : Type} (c : GoCacheClientInterface σ) :
    GoCacheClientInterface (σ × List GoCacheCall) where
  Get st k := ((c.Get st.1 k).1, ((c.Get st.1 k).2, st.2 ++ [GoCacheCall.Get k]))
  GetWithExpiration st k :=
    ((c.GetWithExpiration st.1 k).1,
      ((c.GetWithExpiration st.1 k).2, st.2 ++ [GoCacheCall.GetWithExpiration k]))
  Set st k x d := (c.Set st.1 k x d, st.2 ++ [GoCacheCall.Set k x d])
  Delete st k := (c.Delete st.1 k, st.2 ++ [GoCacheCall.Delete k])
  Flush st := (c.Flush st.1, st.2 ++ [GoCacheCall.Flush])

/-- A call on a ristretto client. -/
inductive RistrettoCall where
  | Get (key : String)
  | SetWithTTL (key : String) (value : Value) (cost : Int) (ttl : Duration)
  | Del (key : String)
  | Clear
  deriving DecidableEq, Repr

/-- The client `c` with every call appended to a log kept beside its
state. -/
def RistrettoClientInterface.recording {σ : Type} (c : RistrettoClientInterface σ) :
    RistrettoClientInterface (σ × List RistrettoCall) where
  Get st k := ((c.Get st.1 k).1, ((c.Get st.1 k).2, st.2 ++ [RistrettoCall.Get k]))
  SetWithTTL st k v cost ttl :=
    ((c.SetWithTTL st.1 k v cost ttl).1,
      ((c.SetWithTTL st.1 k v cost ttl).2, st.2 ++ [RistrettoCall.SetWithTTL k v cost ttl]))
  Del st k := (c.Del st.1 k, st.2 ++ [RistrettoCall.Del k])
  Clear st := (c.Clear st.1, st.2 ++ [RistrettoCall.Clear])

/-- A memcache client without state whose every command fails. -/
def downMemcache : MemcacheClientInterface Unit where
  Get _ _ := ((none, some "connection refused"), ())
  Set _ _ := (some "connection refused", ())
  Delete _ _ := (some "connection refused", ())
  FlushAll _ := (some "connection refused", ())

/-- A ristretto client without state that drops every write and holds
nothing. -/
def downRistretto : RistrettoClientInterface Unit where
  Get _ _ := ((Value.nil, false), ())
  SetWithTTL _ _ _ _ _ := (false, ())
  Del _ _ := ()
  Clear _ := ()

/-- A Redis client without state whose every command fails. -/
def downRedis : RedisClientInterface Unit where
  Get _ _ _ := (("", some "connection refused"), ())
  TTL _ _ _ := ((0, some "connection refused"), ())
  Expire _ _ _ _ := ((false, some "connection refused"), ())
  Set _ _ _ _ _ := (some "connection refused", ())
  Del _ _ _ := ((0, some "connection refused"), ())
  FlushAll _ _ := (some "connection refused", ())
  SAdd _ _ _ _ := ((0, some "connection refused"), ())
  SMembers _ _ _ := (([], some "connection refused"), ())

/-- A Redis client without state whose `Get` succeeds and whose `TTL`
fails. -/
def ttlDownRedis : RedisClientInterface Unit where
  Get _ _ _ := (("v", none), ())
  TTL _ _ _ := ((0, some "i/o timeout"), ())
  Expire _ _ _ _ := ((true, none), ())
  Set _ _ _ _ _ := (none, ())
  Del _ _ _ := ((0, none), ())
  FlushAll _ _ := (none, ())
  SAdd _ _ _ _ := ((0, none), ())
  SMembers _ _ _ := (([], none), ())

/-! ## store/interface.go -/

/-- The interface `StoreInterface` of `store/interface.go`. -/
structure StoreInterface (σ : Type) where
  Get : σ → String → (Value × Option Error) × σ
  GetWithTTL : σ → String → (Value × Duration × Option Error) × σ
  Set : σ → String → Value → List StoreOption → Option Error × σ
  Delete : σ → String → Option Error × σ
  Invalidate : σ → List InvalidateOption → Option Error × σ
  Clear : σ → Option Error × σ
  GetType : String

/-- A store without state whose every operation succeeds. -/
def okStore : StoreInterface Unit where
  Get _ _ := ((Value.str "value", none), ())
  GetWithTTL _ _ := ((Value.str "value", Second, none), ())
  Set _ _ _ _ := (none, ())
  Delete _ _ := (none, ())
  Invalidate _ _ := (none, ())
  Clear _ := (none, ())
  GetType := "ok"

/-- A store without state whose every operation fails. -/
def downStore : StoreInterface Unit where
  Get _ _ := ((Value.nil, some "Unable to find in store"), ())
  GetWithTTL _ _ := ((Value.nil, 0, some "Unable to find in store"), ())
  Set _ _ _ _ := (some "Unable to set value in store", ())
  Delete _ _ := (some "Unable to delete key", ())
  Invalidate _ _ := (some "Unexpected error when invalidating data", ())
  Clear _ := (some "Unexpected error when clearing cache", ())
  GetType := "down"

end store

namespace codec

open store

/-! ## codec/codec.go -/

/-- Modelled from the spec: the struct `Stats` of `codec/codec.go`, a
file that is not among the sources.  It holds the counters of section 3
of the specification (hits, misses, and a success and an error counter
for each of set, delete, invalidate and clear), under the ten names the
tests of `codec_test.go` read. -/
structure Stats where
  Hits : Nat := 0
  Miss : Nat := 0
  SetSuccess : Nat := 0
  SetError : Nat := 0
  DeleteSuccess : Nat := 0
  DeleteError : Nat := 0
  InvalidateSuccess : Nat := 0
  InvalidateError : Nat := 0
  ClearSuccess : Nat := 0
  ClearError : Nat := 0
  deriving DecidableEq, Repr

/-- Modelled from the spec: the struct `Codec` of `codec/codec.go`, the
statistics-instrumented wrapper of section 4.5: a wrapped store and one
counter vector. -/
structure Codec (σ : Type) where
  store : StoreInterface σ
  stats : Stats

/-- Modelled from the spec: the constructor `New` of `codec/codec.go`;
the counters are created zero-valued at construction. -/
def New {σ : Type} (store : StoreInterface σ) : Codec σ :=
  { store := store, stats := {} }

/-- Modelled from the spec: the method `Codec.Get`; success increments
hits, an error increments misses, value and error pass through
unchanged. -/
def Codec.Get {σ : Type} (c : Codec σ) (st : σ) (key : String) :
    (Value × Option Error) × Codec σ × σ :=
  let r := c.store.Get st key
  (r.1,
    (if r.1.2 = none then { c with stats := { c.stats with Hits := c.stats.Hits + 1 } }
      else { c with stats := { c.stats with Miss := c.stats.Miss + 1 } }),
    r.2)

/-- Modelled from the spec: the method `Codec.GetWithTTL`; the same
hit and miss rule as `Get`. -/
def Codec.GetWithTTL {σ : Type} (c : Codec σ) (st : σ) (key : String) :
    (Value × Duration × Option Error) × Codec σ × σ :=
  let r := c.store.GetWithTTL st key
  (r.1,
    (if r.1.2.2 = none then { c with stats := { c.stats with Hits := c.stats.Hits + 1 } }
      else { c with stats := { c.stats with Miss := c.stats.Miss + 1 } }),
    r.2)

/-- Modelled from the spec: the method `Codec.Set`; success increments
set-success, an error increments set-error. -/
def Codec.Set {σ : Type} (c : Codec σ) (st : σ) (key : String) (value : Value)
    (options : List StoreOption) : Option Error × Codec σ × σ :=
  let r := c.store.Set st key value options
  (r.1,
    (if r.1 = none then
        { c with stats := { c.stats with SetSuccess := c.stats.SetSuccess + 1 } }
      else { c with stats := { c.stats with SetError := c.stats.SetError + 1 } }),
    r.2)

/-- Modelled from the spec: the method `Codec.Delete`; success
increments delete-success, an error increments delete-error. -/
def Codec.Delete {σ : Type} (c : Codec σ) (st : σ) (key : String) :
    Option Error × Codec σ × σ :=
  let r := c.store.Delete st key
  (r.1,
    (if r.1 = none then
        { c with stats := { c.stats with DeleteSuccess := c.stats.DeleteSuccess + 1 } }
      else { c with stats := { c.stats with DeleteError := c.stats.DeleteError + 1 } }),
    r.2)

/-- Modelled from the spec: the method `Codec.Invalidate`; success
increments invalidate-success, an error increments invalidate-error. -/
def Codec.Invalidate {σ : Type} (c : Codec σ) (st : σ) (options : List InvalidateOption) :
    Option Error × Codec σ × σ :=
  let r := c.store.Invalidate st options
  (r.1,
    (if r.1 = none then
        { c with stats := { c.stats with InvalidateSuccess := c.stats.InvalidateSuccess + 1 } }
      else { c with stats := { c.stats with InvalidateError := c.stats.InvalidateError + 1 } }),
    r.2)

/-- Modelled from the spec: the method `Codec.Clear`; success
increments clear-success, an error increments clear-error. -/
def Codec.Clear {σ : Type} (c : Codec σ) (st : σ) : Option Error × Codec σ × σ :=
  let r := c.store.Clear st
  (r.1,
    (if r.1 = none then
        { c with stats := { c.stats with ClearSuccess := c.stats.ClearSuccess + 1 } }
      else { c with stats := { c.stats with ClearError := c.stats.ClearError + 1 } }),
    r.2)

/-- Modelled from the spec: the method `Codec.GetStore`, the reference
to the wrapped store. -/
def Codec.GetStore {σ : Type} (c : Codec σ) : StoreInterface σ := c.store

/-- Modelled from the spec: the method `Codec.GetStats`, the read-only
snapshot of the counters. -/
def Codec.GetStats {σ : Type} (c : Codec σ) : Stats := c.stats

/-- The codec and store state after `Get` on each key of `keys` in
turn. -/
def getAll {σ : Type} (keys : List String) (c : Codec σ) (st : σ) : Codec σ × σ :=
  keys.foldl (fun cs key => (cs.1.Get cs.2 key).2) (c, st)

end codec

namespace cache

open store

/-! ## cache/cache.go -/

/-- Modelled from the spec: the method `Cache.getCacheKey` of
`cache/cache.go`, a file that is not among the sources.  A key that is
already a string is returned unchanged; any other key is serialised
and hashed into a hexadecimal digest, taken here as the parameter
`checksum`. -/
def getCacheKey (checksum : Value → String) (key : Value) : String :=
  match key with
  | Value.str s => s
  | other => checksum other

end cache

namespace store

end store

namespace cache

open store

/-! ## cache/interface.go -/

/-- The interface `CacheInterface` of `cache/interface.go`; keys and
objects are dynamically typed. -/
structure CacheInterface (σ : Type) where
  Get : σ → Value → (Value × Option Error) × σ
  Set : σ → Value → Value → List StoreOption → Option Error × σ
  Delete : σ → Value → Option Error × σ
  Invalidate : σ → List InvalidateOption → Option Error × σ
  Clear : σ → Option Error × σ
  GetType : String

/-- A call on a cache. -/
inductive CacheCall where
  | Get (key : Value)
  | Set (key : Value) (object : Value) (options : List StoreOption)
  | Delete (key : Value)
  | Invalidate (options : List InvalidateOption)
  | Clear

/-- The cache `c` with every call appended to a log kept beside its
state. -/
def CacheInterface.recording {σ : Type} (c : CacheInterface σ) :
    CacheInterface (σ × List CacheCall) where
  Get st k := ((c.Get st.1 k).1, ((c.Get st.1 k).2, st.2 ++ [CacheCall.Get k]))
  Set st k o opts :=
    ((c.Set st.1 k o opts).1, ((c.Set st.1 k o opts).2, st.2 ++ [CacheCall.Set k o opts]))
  Delete st k := ((c.Delete st.1 k).1, ((c.Delete st.1 k).2, st.2 ++ [CacheCall.Delete k]))
  Invalidate st opts :=
    ((c.Invalidate st.1 opts).1, ((c.Invalidate st.1 opts).2, st.2 ++ [CacheCall.Invalidate opts]))
  Clear st := ((c.Clear st.1).1, ((c.Clear st.1).2, st.2 ++ [CacheCall.Clear]))
  GetType := c.GetType

/-- A cache that holds one object, returned by every `Get`, and whose
`Set` replaces it. -/
def cellCache : CacheInterface Value where
  Get st _ := ((st, none), st)
  Set _ _ o _ := (none, o)
  Delete st _ := (none, st)
  Invalidate st _ := (none, st)
  Clear st := (none, st)
  GetType := "cell"

/-- A cache without state whose every operation fails. -/
def downCache : CacheInterface Unit where
  Get _ _ := ((Value.nil, some "Unable to find item in store"), ())
  Set _ _ _ _ := (some "An unexpected error occurred", ())
  Delete _ _ := (some "Unable to delete key", ())
  Invalidate _ _ := (some "Unexpected error when invalidating data", ())
  Clear _ := (some "Unexpected error when clearing cache", ())
  GetType := "down"

end cache

namespace marshaler

open store

/-! ## marshaler/marshaler.go -/

/-- The two functions of the package `msgpack` the marshaler calls,
which are external to the repository.  `Marshal` returns the bytes and
an error; `Unmarshal` is given the bytes and the object its target
points to and returns an error and the object the target points to
after the call. -/
structure Msgpack where
  Marshal : Value → String × Option Error
  Unmarshal : String → Value → Option Error × Value

/-- The struct `Marshaler`; `returnObj` is the object the return target
points to, `Value.nil` when the target is nil. -/
structure Marshaler (σ : Type) where
  CacheInterface : cache.CacheInterface σ
  returnObj : Value

/-- The constructor `New`. -/
def New {σ : Type} (cache : cache.CacheInterface σ) : Marshaler σ :=
  { CacheInterface := cache, returnObj := Value.nil }

/-- The method `Marshaler.ReturnObj`. -/
def Marshaler.ReturnObj {σ : Type} (c : Marshaler σ) (returnObj : Value) : Marshaler σ :=
  { CacheInterface := c.CacheInterface, returnObj := returnObj }

/-- The method `Marshaler.Get`.  `Unmarshal` writes through the return
target, so the marshaler after the call is part of the result. -/
def Marshaler.Get {σ : Type} (mp : Msgpack) (c : Marshaler σ) (st : σ) (key : Value) :
    (Value × Option Error) × Marshaler σ × σ :=
  let r := c.CacheInterface.Get st key
  match r.1.2 with
  | some err => ((Value.nil, some err), c, r.2)
  | none =>
    let u : Option Error × Value :=
      match r.1.1 with
      | Value.bytes v => mp.Unmarshal v c.returnObj
      | Value.str v => mp.Unmarshal v c.returnObj
      | _ => (none, c.returnObj)
    match u.1 with
    | some err => ((Value.nil, some err), { c with returnObj := u.2 }, r.2)
    | none => ((u.2, none), { c with returnObj := u.2 }, r.2)

/-- The method `Marshaler.Set`. -/
def Marshaler.Set {σ : Type} (mp : Msgpack) (c : Marshaler σ) (st : σ) (key : Value)
    (object : Value) (options : List StoreOption) : Option Error × σ :=
  let m := mp.Marshal object
  match m.2 with
  | some err => (some err, st)
  | none => c.CacheInterface.Set st key (Value.bytes m.1) options

/-- A stand-in for `msgpack` used in examples: strings and byte slices
are encoded as their bytes and nothing else can be encoded; decoding
needs a non-nil target and non-empty bytes and yields the bytes as a
string. -/
def plainMsgpack : Msgpack where
  Marshal o :=
    match o with
    | Value.str s => (s, none)
    | Value.bytes b => (b, none)
    | _ => ("", some "msgpack: unsupported value")
  Unmarshal b target :=
    if target = Value.nil then (some "msgpack: Decode(nil)", target)
    else if b = "" then (some "EOF", target)
    else (none, Value.str b)

end marshaler

namespace store

/-- The content of a key-value backend after the invalidation loop of
the go-cache, memcache and ristretto stores over `tags`, where
`members` reads a member list out of an index entry: the loop ends at
the first tag without an entry, and otherwise removes the entry under
every member before it goes on. -/
def mapInvalidation {α : Type} (members : α → List String) : List String → KV α → KV α
  | [], st => st
  | tag :: rest, st =>
    match st (tagKey tag) with
    | none => st
    | some v => mapInvalidation members rest ((members v).foldl KV.del st)

/-! ## Sequences of calls on a store -/

/-- A call of a method of a store; `β` is the type of the values given
to `Set`, and `now` is the instant `time.Now()` returns during a
`GetWithTTL` (read by the go-cache store only). -/
inductive StoreCall (β : Type) where
  | Get (key : String)
  | GetWithTTL (key : String) (now : Int)
  | Set (key : String) (value : β) (opts : List StoreOption)
  | Delete (key : String)
  | Invalidate (options : InvalidateOptions)
  | Clear

/-- The store's own record after the head of a `Set`: the loop
`for _, opt := range opts { opt(options) }` writes through `options`,
which points to the store's record exactly when `len(opts) == 0`. -/
def recordAfterSet (defaults : Options) (opts : List StoreOption) : Options :=
  if opts.length = 0 then applyOptions defaults opts else defaults

/-- The receiver of `GoCacheStore.Set` after the call. -/
def GoCacheStore.afterSet {σ : Type} (s : GoCacheStore σ) (opts : List StoreOption) :
    GoCacheStore σ :=
  { s with options := recordAfterSet s.options opts }

/-- The receiver of `MemcacheStore.Set` after the call; the nested
calls of the tag step are given an option and so write to a fresh
record. -/
def MemcacheStore.afterSet {σ : Type} (s : MemcacheStore σ) (opts : List StoreOption) :
    MemcacheStore σ :=
  { s with options := recordAfterSet s.options opts }

/-- The receiver of `RistrettoStore.Set` after the call; the nested
calls of the tag step are given an option and so write to a fresh
record. -/
def RistrettoStore.afterSet {σ : Type} (s : RistrettoStore σ) (opts : List StoreOption) :
    RistrettoStore σ :=
  { s with options := recordAfterSet s.options opts }

/-- One call on a go-cache store: the store and the client state after
it.  Only `Set` touches the store's record. -/
def GoCacheStore.step {σ : Type} (s : GoCacheStore σ) (st : σ) :
    StoreCall Value → GoCacheStore σ × σ
  | StoreCall.Get key => (s, (s.Get st key).2)
  | StoreCall.GetWithTTL key now => (s, (s.GetWithTTL now st key).2)
  | StoreCall.Set key value opts => (s.afterSet opts, (s.Set st key value opts).2)
  | StoreCall.Delete key => (s, (s.Delete st key).2)
  | StoreCall.Invalidate options => (s, (s.Invalidate st options).2)
  | StoreCall.Clear => (s, (s.Clear st).2)

/-- A sequence of calls on a go-cache store. -/
def GoCacheStore.run {σ : Type} (s : GoCacheStore σ) (st : σ)
    (calls : List (StoreCall Value)) : GoCacheStore σ × σ :=
  calls.foldl (fun p call => p.1.step p.2 call) (s, st)

/-- One call on a memcache store. -/
def MemcacheStore.step {σ : Type} (s : MemcacheStore σ) (st : σ) :
    StoreCall String → MemcacheStore σ × σ
  | StoreCall.Get key => (s, (s.Get st key).2)
  | StoreCall.GetWithTTL key _ => (s, (s.GetWithTTL st key).2)
  | StoreCall.Set key value opts => (s.afterSet opts, (s.Set st key value opts).2)
  | StoreCall.Delete key => (s, (s.Delete st key).2)
  | StoreCall.Invalidate options => (s, (s.Invalidate st options).2)
  | StoreCall.Clear => (s, (s.Clear st).2)

/-- A sequence of calls on a memcache store. -/
def MemcacheStore.run {σ : Type} (s : MemcacheStore σ) (st : σ)
    (calls : List (StoreCall String)) : MemcacheStore σ × σ :=
  calls.foldl (fun p call => p.1.step p.2 call) (s, st)

/-- One call on a ristretto store. -/
def RistrettoStore.step {σ : Type} (s : RistrettoStore σ) (st : σ) :
    StoreCall Value → RistrettoStore σ × σ
  | StoreCall.Get key => (s, (s.Get st key).2)
  | StoreCall.GetWithTTL key _ => (s, (s.GetWithTTL st key).2)
  | StoreCall.Set key value opts => (s.afterSet opts, (s.Set st key value opts).2)
  | StoreCall.Delete key => (s, (s.Delete st key).2)
  | StoreCall.Invalidate options => (s, (s.Invalidate st options).2)
  | StoreCall.Clear => (s, (s.Clear st).2)

/-- A sequence of calls on a ristretto store. -/
def RistrettoStore.run {σ : Type} (s : RistrettoStore σ) (st : σ)
    (calls : List (StoreCall Value)) : RistrettoStore σ × σ :=
  calls.foldl (fun p call => p.1.step p.2 call) (s, st)

/-- One call on a Redis store; the store after `Set` is the one
`RedisStore.Set` returns. -/
def RedisStore.step {σ : Type} (s : RedisStore σ) (st : σ) :
    StoreCall Value → RedisStore σ × σ
  | StoreCall.Get key => (s, (s.Get st key).2)
  | StoreCall.GetWithTTL key _ => (s, (s.GetWithTTL st key).2)
  | StoreCall.Set key value opts => ((s.Set st key value opts).1, (s.Set st key value opts).2.2)
  | StoreCall.Delete key => (s, (s.Delete st key).2)
  | StoreCall.Invalidate options => (s, (s.Invalidate st options).2)
  | StoreCall.Clear => (s, (s.Clear st).2)

/-- A sequence of calls on a Redis store. -/
def RedisStore.run {σ : Type} (s : RedisStore σ) (st : σ)
    (calls : List (StoreCall Value)) : RedisStore σ × σ :=
  calls.foldl (fun p call => p.1.step p.2 call) (s, st)

/-! ## Type assertions

The methods of the stores take their key as `interface{}` and open
with the unchecked assertion `key.(string)`; `MemcacheStore.Set` also
asserts `value.([]byte)`.  The definitions of the namespace `dyn` put
these assertions in front of the methods embedded above; `none` is the
run-time panic of a failed assertion.  The assertions on what a client
returns are the comma-ok forms embedded by `asKeySet` and `asMembers`,
which cannot fail. -/

/-- The assertion `key.(string)`. -/
def assertString : Value → Option String
  | Value.str s => some s
  | _ => none

/-- The assertion `value.([]byte)`. -/
def assertBytes : Value → Option String
  | Value.bytes b => some b
  | _ => none

namespace dyn

/-- The method `GoCacheStore.Get` on a dynamically typed key. -/
def GoCacheStore.Get {σ : Type} (s : GoCacheStore σ) (st : σ) (key : Value) :
    Option ((Value × Option Error) × σ) :=
  (assertString key).map fun k => store.GoCacheStore.Get s st k

/-- The method `GoCacheStore.GetWithTTL` on a dynamically typed key. -/
def GoCacheStore.GetWithTTL {σ : Type} (s : GoCacheStore σ) (now : Int) (st : σ)
    (key : Value) : Option ((Value × Duration × Option Error) × σ) :=
  (assertString key).map fun k => store.GoCacheStore.GetWithTTL s now st k

/-- The method `GoCacheStore.Set` on a dynamically typed key; the
assertion comes with the first use of the key, the client write, and
is repeated on the same key in the tag step. -/
def GoCacheStore.Set {σ : Type} (s : GoCacheStore σ) (st : σ) (key value : Value)
    (opts : List StoreOption) : Option (Option Error × σ) :=
  (assertString key).map fun k => store.GoCacheStore.Set s st k value opts

/-- The method `GoCacheStore.Delete` on a dynamically typed key. -/
def GoCacheStore.Delete {σ : Type} (s : GoCacheStore σ) (st : σ) (key : Value) :
    Option (Option Error × σ) :=
  (assertString key).map fun k => store.GoCacheStore.Delete s st k

/-- The method `MemcacheStore.Get` on a dynamically typed key. -/
def MemcacheStore.Get {σ : Type} (s : MemcacheStore σ) (st : σ) (key : Value) :
    Option ((Value × Option Error) × σ) :=
  (assertString key).map fun k => store.MemcacheStore.Get s st k

/-- The method `MemcacheStore.GetWithTTL` on a dynamically typed key. -/
def MemcacheStore.GetWithTTL {σ : Type} (s : MemcacheStore σ) (st : σ) (key : Value) :
    Option ((Value × Duration × Option Error) × σ) :=
  (assertString key).map fun k => store.MemcacheStore.GetWithTTL s st k

/-- The method `MemcacheStore.Set` on a dynamically typed key and
value: the item is built from `key.(string)` and `value.([]byte)`
before the client is called. -/
def MemcacheStore.Set {σ : Type} (s : MemcacheStore σ) (st : σ) (key value : Value)
    (opts : List StoreOption) : Option (Option Error × σ) :=
  (assertString key).bind fun k =>
    (assertBytes value).map fun b => store.MemcacheStore.Set s st k b opts

/-- The method `MemcacheStore.Delete` on a dynamically typed key. -/
def MemcacheStore.Delete {σ : Type} (s : MemcacheStore σ) (st : σ) (key : Value) :
    Option (Option Error × σ) :=
  (assertString key).map fun k => store.MemcacheStore.Delete s st k

/-- The method `RedisStore.Get` on a dynamically typed key. -/
def RedisStore.Get {σ : Type} (s : RedisStore σ) (st : σ) (key : Value) :
    Option ((String × Option Error) × σ) :=
  (assertString key).map fun k => store.RedisStore.Get s st k

/-- The method `RedisStore.GetWithTTL` on a dynamically typed key. -/
def RedisStore.GetWithTTL {σ : Type} (s : RedisStore σ) (st : σ) (key : Value) :
    Option ((Value × Duration × Option Error) × σ) :=
  (assertString key).map fun k => store.RedisStore.GetWithTTL s st k

/-- The method `RedisStore.Set` on a dynamically typed key. -/
def RedisStore.Set {σ : Type} (s : RedisStore σ) (st : σ) (key value : Value)
    (opts : List StoreOption) : Option (RedisStore σ × Option Error × σ) :=
  (assertString key).map fun k => store.RedisStore.Set s st k value opts

/-- The method `RedisStore.Delete` on a dynamically typed key. -/
def RedisStore.Delete {σ : Type} (s : RedisStore σ) (st : σ) (key : Value) :
    Option (Option Error × σ) :=
  (assertString key).map fun k => store.RedisStore.Delete s st k

/-- The method `RistrettoStore.setTags` on a dynamically typed key, the
one place where the ristretto store asserts `key.(string)`: the
assertion stands in the body of the loop over the tags, so it is not
reached when there is no tag. -/
def RistrettoStore.setTags {σ : Type} (s : RistrettoStore σ) (st : σ) (key : Value)
    (tags : List String) : Option σ :=
  match tags with
  | [] => some st
  | _ :: _ => (assertString key).map fun k => store.RistrettoStore.setTags s st k tags

end dyn

/-! ## go_cache.go, with maps held by reference

A Go `map[string]struct{}` is a reference to a map object, and
`GoCacheStore.setTags` inserts the key into the very object it has read
from the client before it hands that object back to the client.  The
embedding of go_cache.go above keeps a map by value, which is what a
reader of the index entry sees, but which does not show the insertion
to a second holder of the object.  The namespace `byref` embeds `Get`,
`Set` and `setTags` once more, with the map objects kept in a heap
beside the state of the client. -/

namespace byref

/-- A dynamically typed Go value as a go-cache client holds it: a
non-nil `map[string]struct{}` is the address of a map object. -/
inductive GoValue where
  | nil
  | str (s : String)
  | bytes (b : String)
  | nilMap
  | mapRef (a : Nat)
  | other (n : Nat)
  deriving DecidableEq, Repr

/-- The map objects of the program: the keys of the object at each
address, in the order of their insertion, and the address the next
`make` returns. -/
structure Heap where
  maps : Nat → List String
  next : Nat

/-- The value a reader of `v` sees while the heap is `h`. -/
def view (h : Heap) : GoValue → Value
  | GoValue.nil => Value.nil
  | GoValue.str s => Value.str s
  | GoValue.bytes b => Value.bytes b
  | GoValue.nilMap => Value.keySet []
  | GoValue.mapRef a => Value.keySet (h.maps a)
  | GoValue.other n => Value.other n

/-- The call `make(map[string]struct{})`: the address of the new,
empty map object and the heap holding it. -/
def Heap.make (h : Heap) : Nat × Heap :=
  (h.next, { maps := fun b => if b = h.next then [] else h.maps b, next := h.next + 1 })

/-- The statement `cacheKeys[key] = struct{}{}` on the map object at
the address `a`. -/
def Heap.insert (h : Heap) (a : Nat) (key : String) : Heap :=
  { h with maps := fun b =>
      if b = a then (if key ∈ h.maps a then h.maps a else h.maps a ++ [key]) else h.maps b }

/-- The interface `GoCacheClientInterface`. -/
structure GoCacheClientInterface (σ : Type) where
  Get : σ → String → (GoValue × Bool) × σ
  GetWithExpiration : σ → String → (GoValue × Int × Bool) × σ
  Set : σ → String → GoValue → Duration → σ
  Delete : σ → String → σ
  Flush : σ → σ

/-- The struct `GoCacheStore`. -/
structure GoCacheStore (σ : Type) where
  client : GoCacheClientInterface σ
  options : Options

/-- The method `GoCacheStore.Get`. -/
def GoCacheStore.Get {σ : Type} (s : GoCacheStore σ) (st : σ) (key : String) :
    (GoValue × Option Error) × σ :=
  let r := s.client.Get st key
  ((r.1.1, if r.1.2 then none else some "Value not found in GoCache store"), r.2)

/-- The comma-ok assertion `result.(map[string]struct{})`: the address
of the map object, and `none` for the nil map, which is also what
`cacheKeys` is left as when the assertion fails. -/
def asMap : GoValue → Option Nat
  | GoValue.mapRef a => some a
  | _ => none

/-- One iteration of the loop of `GoCacheStore.setTags`. -/
def GoCacheStore.setTag {σ : Type} (s : GoCacheStore σ) (key : String) (p : σ × Heap)
    (tag : String) : σ × Heap :=
  let r := s.Get p.1 (tagKey tag)
  let cacheKeys : Option Nat := if r.1.2 = none then asMap r.1.1 else none
  match cacheKeys with
  | some a =>
    if key ∈ p.2.maps a then (r.2, p.2)
    else (s.client.Set r.2 (tagKey tag) (GoValue.mapRef a) (720 * Hour), p.2.insert a key)
  | none =>
    (s.client.Set r.2 (tagKey tag) (GoValue.mapRef p.2.make.1) (720 * Hour),
      p.2.make.2.insert p.2.make.1 key)

/-- The method `GoCacheStore.setTags`. -/
def GoCacheStore.setTags {σ : Type} (s : GoCacheStore σ) (p : σ × Heap) (key : String)
    (tags : List String) : σ × Heap :=
  tags.foldl (s.setTag key) p

/-- The method `GoCacheStore.Set`. -/
def GoCacheStore.Set {σ : Type} (s : GoCacheStore σ) (p : σ × Heap) (key : String)
    (value : GoValue) (opts : List StoreOption) : Option Error × σ × Heap :=
  let options := resolveOptions s.options opts
  let st1 := s.client.Set p.1 key value options.ExpirationValue
  if options.TagsValue.length > 0 then (none, s.setTags (st1, p.2) key options.TagsValue)
  else (none, st1, p.2)

/-- A go-cache client that behaves as a key-value map holding the
values it is given, a map by its address. -/
def mapGoCache : GoCacheClientInterface (KV GoValue) where
  Get st k := (match st k with
    | some v => (v, true)
    | none => (GoValue.nil, false), st)
  GetWithExpiration st k := (match st k with
    | some v => (v, 0, true)
    | none => (GoValue.nil, 0, false), st)
  Set st k x _ := st.put k x
  Delete st k := st.del k
  Flush _ := KV.empty

end byref

/-! ## Option resolution -/

theorem applyOptions_nil (o : Options) : applyOptions o [] = o := rfl

theorem resolveOptions_nil (d : Options) : resolveOptions d [] = d := rfl

theorem resolveOptions_of_ne_nil (d : Options) (opts : List StoreOption) (h : opts ≠ []) :
    resolveOptions d opts = applyOptions {} opts := by
  cases opts with
  | nil => exact absurd rfl h
  | cons a as => rfl

/-- C6. Last-write-wins option fold: applying a field's mutator with `a`
and then the same field's mutator with `b` gives the record obtained by
applying only the mutator with `b`, and that record is `o` with the
field set to `b` and every other field as in `o`, for `Expiration`,
`Cost`, `Ctx` and `Tags` on `Options` (the tag list becomes `b`, not a
concatenation) and for `InvalidateTags` on `InvalidateOptions`. -/
theorem option_fold_last_write_wins (o : Options) (io : InvalidateOptions) :
    (∀ a b : Duration,
      applyOptions o [Expiration a, Expiration b] = applyOptions o [Expiration b]
        ∧ applyOptions o [Expiration a, Expiration b] = { o with Expiration := b }
        ∧ (applyOptions o [Expiration a, Expiration b]).ExpirationValue = b)
    ∧ (∀ a b : Int,
      applyOptions o [Cost a, Cost b] = applyOptions o [Cost b]
        ∧ applyOptions o [Cost a, Cost b] = { o with Cost := b }
        ∧ (applyOptions o [Cost a, Cost b]).CostValue = b)
    ∧ (∀ a b : Option Context,
      applyOptions o [Ctx a, Ctx b] = applyOptions o [Ctx b]
        ∧ applyOptions o [Ctx a, Ctx b] = { o with Ctx := b }
        ∧ (applyOptions o [Ctx a, Ctx b]).Ctx = b)
    ∧ (∀ a b : List String,
      applyOptions o [Tags a, Tags b] = applyOptions o [Tags b]
        ∧ applyOptions o [Tags a, Tags b] = { o with Tags := b }
        ∧ (applyOptions o [Tags a, Tags b]).TagsValue = b)
    ∧ (∀ a b : List String,
      InvalidateTags b (InvalidateTags a io) = InvalidateTags b io
        ∧ InvalidateTags b (InvalidateTags a io) = { io with Tags := b }
        ∧ (InvalidateTags b (InvalidateTags a io)).TagsValue = b) := by
  refine ⟨fun _ _ => ⟨rfl, rfl, rfl⟩, fun _ _ => ⟨rfl, rfl, rfl⟩, fun _ _ => ⟨rfl, rfl, rfl⟩,
    fun _ _ => ⟨rfl, rfl, rfl⟩, fun _ _ => ⟨rfl, rfl, rfl⟩⟩

theorem memcache_setWith_expiration {σ : Type} (s : MemcacheStore σ)
    (f g : σ → String → List String → σ) (st : σ) (key value : String) (d : Duration) :
    s.setWith f st key value [Expiration d] = s.setWith g st key value [Expiration d] := by
  simp [MemcacheStore.setWith, resolveOptions, applyOptions, Expiration, Options.TagsValue]

theorem ristretto_setWith_expiration {σ : Type} (s : RistrettoStore σ)
    (f g : σ → String → List String → σ) (st : σ) (key : String) (value : Value)
    (d : Duration) :
    s.setWith f st key value [Expiration d] = s.setWith g st key value [Expiration d] := by
  simp [RistrettoStore.setWith, resolveOptions, applyOptions, Expiration, Options.TagsValue]

/-- C4. Default options with zero call-site mutators: on each of the
four stores built with mutators `ds`, `Set(K,V)` without call-site
options makes the backend write with the expiration (and, on
ristretto, the cost) of the fold `d` of `ds` over the zero record, and
runs the tag step with the tags of `d`; a Redis store built with
`Expiration(6s)` sends `6s` to the client. -/
theorem set_without_options_uses_defaults {σ : Type} (ds : List StoreOption)
    (st : σ) (key : String) :
    (∀ (c : GoCacheClientInterface σ) (value : Value),
      (NewGoCache c ds).Set st key value [] =
        (none,
          if (applyOptions {} ds).Tags.length > 0 then
            (NewGoCache c ds).setTags (c.Set st key value (applyOptions {} ds).Expiration)
              key (applyOptions {} ds).Tags
          else c.Set st key value (applyOptions {} ds).Expiration))
    ∧ (∀ (c : MemcacheClientInterface σ) (value : String),
      (NewMemcache c ds).Set st key value [] =
        match (c.Set st ⟨key, value, int32Seconds (applyOptions {} ds).Expiration⟩).1 with
        | some err =>
          (some err, (c.Set st ⟨key, value, int32Seconds (applyOptions {} ds).Expiration⟩).2)
        | none =>
          (none,
            if (applyOptions {} ds).Tags.length > 0 then
              (NewMemcache c ds).setTags
                (c.Set st ⟨key, value, int32Seconds (applyOptions {} ds).Expiration⟩).2
                key (applyOptions {} ds).Tags
            else (c.Set st ⟨key, value, int32Seconds (applyOptions {} ds).Expiration⟩).2))
    ∧ (∀ (c : RistrettoClientInterface σ) (value : Value),
      (NewRistretto c ds).Set st key value [] =
        if (c.SetWithTTL st key value (applyOptions {} ds).Cost
            (applyOptions {} ds).Expiration).1 = false then
          (some "An error has occurred while setting value",
            (c.SetWithTTL st key value (applyOptions {} ds).Cost
              (applyOptions {} ds).Expiration).2)
        else
          (none,
            if (applyOptions {} ds).Tags.length > 0 then
              (NewRistretto c ds).setTags
                (c.SetWithTTL st key value (applyOptions {} ds).Cost
                  (applyOptions {} ds).Expiration).2
                key (applyOptions {} ds).Tags
            else
              (c.SetWithTTL st key value (applyOptions {} ds).Cost
                (applyOptions {} ds).Expiration).2))
    ∧ (∀ (c : RedisClientInterface σ) (value : Value),
      (NewRedis c ds).Set st key value [] =
        match (c.Set st (defaultCtx (applyOptions {} ds)).Ctx key value
            (applyOptions {} ds).Expiration).1 with
        | some err =>
          (NewRedis c ds, some err,
            (c.Set st (defaultCtx (applyOptions {} ds)).Ctx key value
              (applyOptions {} ds).Expiration).2)
        | none =>
          (NewRedis c ds, none,
            if (applyOptions {} ds).Tags.length > 0 then
              (NewRedis c ds).setTags
                (c.Set st (defaultCtx (applyOptions {} ds)).Ctx key value
                  (applyOptions {} ds).Expiration).2
                key (applyOptions {} ds).Tags
            else
              (c.Set st (defaultCtx (applyOptions {} ds)).Ctx key value
                (applyOptions {} ds).Expiration).2))
    ∧ (∀ value : Value,
      ((NewRedis okRedis.recording [Expiration (6 * Second)]).Set ((), []) "k" value []).2.2.2 =
        [RedisCall.Set (some Context.background) "k" value (6 * Second)]) := by
  refine ⟨?_, ?_, ?_, ?_, ?_⟩
  · intro c value
    simp only [GoCacheStore.Set, NewGoCache, resolveOptions_nil, Options.TagsValue,
      Options.ExpirationValue]
    split <;> rfl
  · intro c value
    simp only [MemcacheStore.Set, MemcacheStore.setWith, NewMemcache, resolveOptions_nil,
      Options.TagsValue, Options.ExpirationValue]
    split <;> (try split) <;> rfl
  · intro c value
    simp only [RistrettoStore.Set, RistrettoStore.setWith, NewRistretto, resolveOptions_nil,
      Options.TagsValue, Options.ExpirationValue, Options.CostValue]
    cases h : (c.SetWithTTL st key value (applyOptions {} ds).Cost
      (applyOptions {} ds).Expiration).1
    · simp
    · simp only [Bool.not_true, Bool.false_eq_true, if_false]
      split <;> rfl
  · intro c value
    have hd : defaultCtx (defaultCtx (applyOptions {} ds)) = defaultCtx (applyOptions {} ds) := by
      unfold defaultCtx
      split <;> simp_all
    have hE : (defaultCtx (applyOptions {} ds)).Expiration = (applyOptions {} ds).Expiration := by
      unfold defaultCtx
      split <;> rfl
    have hT : (defaultCtx (applyOptions {} ds)).Tags = (applyOptions {} ds).Tags := by
      unfold defaultCtx
      split <;> rfl
    simp only [RedisStore.Set, NewRedis, resolveOptions_nil, Options.TagsValue,
      Options.ExpirationValue, hd, hE, hT, List.length_nil, if_true]
    split <;> (try split) <;> simp_all
  · intro value
    rfl

theorem gocache_setTags_options {σ : Type} (c : GoCacheClientInterface σ)
    (d d' : Options) (st : σ) (key : String) (tags : List String) :
    (GoCacheStore.mk c d).setTags st key tags = (GoCacheStore.mk c d').setTags st key tags :=
  rfl

theorem memcache_setTags_options {σ : Type} (c : MemcacheClientInterface σ)
    (d d' : Options) (st : σ) (key : String) (tags : List String) :
    (MemcacheStore.mk c d).setTags st key tags = (MemcacheStore.mk c d').setTags st key tags :=
  rfl

theorem ristretto_setTags_options {σ : Type} (c : RistrettoClientInterface σ)
    (d d' : Options) (st : σ) (key : String) (tags : List String) :
    (RistrettoStore.mk c d).setTags st key tags = (RistrettoStore.mk c d').setTags st key tags :=
  rfl

theorem redis_setTags_options {σ : Type} (c : RedisClientInterface σ)
    (d : Options) (st : σ) (key : String) (tags : List String) :
    (RedisStore.mk c d).setTags st key tags =
      (RedisStore.mk c { Ctx := d.Ctx }).setTags st key tags :=
  rfl

/-- C5. On Redis a field of the store's default record is used by a
`Set` with call-site options: on a store built with `Ctx(c1)` the call
`Set("k","v",Tags("t"))` issues the primary write with the context
resolved from the call-site options, the background context, but `SAdd`
and `Expire` with `c1`, the context of the default record, so two
stores that differ only in that record make different client calls. -/
theorem set_with_options_redis_default_ctx_used :
    ((NewRedis okRedis.recording [Ctx (some (Context.named 1))]).Set ((), []) "k"
        (Value.str "v") [Tags ["t"]]).2.2.2 =
      [RedisCall.Set (some Context.background) "k" (Value.str "v") 0,
        RedisCall.SAdd (some (Context.named 1)) "gocache_tag_t" ["k"],
        RedisCall.Expire (some (Context.named 1)) "gocache_tag_t" (720 * Hour)]
    ∧ ((NewRedis okRedis.recording [Ctx (some (Context.named 1))]).Set ((), []) "k"
        (Value.str "v") [Tags ["t"]]).2.2.2 ≠
      ((NewRedis okRedis.recording []).Set ((), []) "k" (Value.str "v") [Tags ["t"]]).2.2.2 := by
  constructor
  · rfl
  · decide

/-- Replacement of the defaults by call-site options, apart from the
context of the Redis tag step: with a non-empty list `opts` of
call-site mutators, the expiration, cost and tag list used by `Set` are
those of the fold of `opts` over the zero record.  On the go-cache,
memcache and ristretto stores the whole call is the same for every
default record `d`; on Redis the primary write is the same for every
`d`, and the call depends on `d` at most through its `Ctx` field. -/
theorem set_with_options_replaces_defaults {σ : Type} (opts : List StoreOption)
    (h : opts ≠ []) (d : Options) (st : σ) (key : String) :
    (∀ (c : GoCacheClientInterface σ) (value : Value),
      (GoCacheStore.mk c d).Set st key value opts =
        (none,
          if (applyOptions {} opts).Tags.length > 0 then
            (GoCacheStore.mk c {}).setTags (c.Set st key value (applyOptions {} opts).Expiration)
              key (applyOptions {} opts).Tags
          else c.Set st key value (applyOptions {} opts).Expiration))
    ∧ (∀ (c : MemcacheClientInterface σ) (value : String),
      (MemcacheStore.mk c d).Set st key value opts =
        match (c.Set st ⟨key, value, int32Seconds (applyOptions {} opts).Expiration⟩).1 with
        | some err =>
          (some err, (c.Set st ⟨key, value, int32Seconds (applyOptions {} opts).Expiration⟩).2)
        | none =>
          (none,
            if (applyOptions {} opts).Tags.length > 0 then
              (MemcacheStore.mk c {}).setTags
                (c.Set st ⟨key, value, int32Seconds (applyOptions {} opts).Expiration⟩).2
                key (applyOptions {} opts).Tags
            else (c.Set st ⟨key, value, int32Seconds (applyOptions {} opts).Expiration⟩).2))
    ∧ (∀ (c : RistrettoClientInterface σ) (value : Value),
      (RistrettoStore.mk c d).Set st key value opts =
        if (c.SetWithTTL st key value (applyOptions {} opts).Cost
            (applyOptions {} opts).Expiration).1 = false then
          (some "An error has occurred while setting value",
            (c.SetWithTTL st key value (applyOptions {} opts).Cost
              (applyOptions {} opts).Expiration).2)
        else
          (none,
            if (applyOptions {} opts).Tags.length > 0 then
              (RistrettoStore.mk c {}).setTags
                (c.SetWithTTL st key value (applyOptions {} opts).Cost
                  (applyOptions {} opts).Expiration).2
                key (applyOptions {} opts).Tags
            else
              (c.SetWithTTL st key value (applyOptions {} opts).Cost
                (applyOptions {} opts).Expiration).2))
    ∧ (∀ (c : RedisClientInterface σ) (value : Value),
      (RedisStore.mk c d).Set st key value opts =
        match (c.Set st (defaultCtx (applyOptions {} opts)).Ctx key value
            (applyOptions {} opts).Expiration).1 with
        | some err =>
          (RedisStore.mk c d, some err,
            (c.Set st (defaultCtx (applyOptions {} opts)).Ctx key value
              (applyOptions {} opts).Expiration).2)
        | none =>
          (RedisStore.mk c d, none,
            if (applyOptions {} opts).Tags.length > 0 then
              (RedisStore.mk c { Ctx := d.Ctx }).setTags
                (c.Set st (defaultCtx (applyOptions {} opts)).Ctx key value
                  (applyOptions {} opts).Expiration).2
                key (applyOptions {} opts).Tags
            else
              (c.Set st (defaultCtx (applyOptions {} opts)).Ctx key value
                (applyOptions {} opts).Expiration).2)) := by
  have hlen : ¬ opts.length = 0 := by
    cases opts with
    | nil => exact absurd rfl h
    | cons a as => simp
  refine ⟨?_, ?_, ?_, ?_⟩
  · intro c value
    simp only [GoCacheStore.Set, resolveOptions_of_ne_nil d opts h, Options.TagsValue,
      Options.ExpirationValue]
    split <;> rfl
  · intro c value
    simp only [MemcacheStore.Set, MemcacheStore.setWith, resolveOptions_of_ne_nil d opts h,
      Options.TagsValue, Options.ExpirationValue]
    split <;> (try split) <;> rfl
  · intro c value
    simp only [RistrettoStore.Set, RistrettoStore.setWith, resolveOptions_of_ne_nil d opts h,
      Options.TagsValue, Options.ExpirationValue, Options.CostValue]
    cases hw : (c.SetWithTTL st key value (applyOptions {} opts).Cost
      (applyOptions {} opts).Expiration).1
    · simp
    · simp only [Bool.not_true, Bool.false_eq_true, if_false]
      split <;> rfl
  · intro c value
    have hE : (defaultCtx (applyOptions {} opts)).Expiration =
        (applyOptions {} opts).Expiration := by
      unfold defaultCtx
      split <;> rfl
    have hT : (defaultCtx (applyOptions {} opts)).Tags = (applyOptions {} opts).Tags := by
      unfold defaultCtx
      split <;> rfl
    simp only [RedisStore.Set, resolveOptions_of_ne_nil d opts h, Options.TagsValue,
      Options.ExpirationValue, hE, hT, hlen, if_false]
    split <;> (try split) <;> rfl

theorem set_with_options_replaces_defaults_witness :
    ([Expiration (5 * Second)] : List StoreOption) ≠ []
    ∧ (RedisStore.mk okRedis.recording (applyOptions {} [Expiration (6 * Second)])).Set
        ((), []) "k" (Value.str "v") [Expiration (5 * Second)] =
      (RedisStore.mk okRedis.recording (applyOptions {} [Expiration (6 * Second)]), none,
        ((), [RedisCall.Set (some Context.background) "k" (Value.str "v") (5 * Second)])) :=
  ⟨by simp, (set_with_options_replaces_defaults [Expiration (5 * Second)] (by simp)
    (applyOptions {} [Expiration (6 * Second)]) ((), []) "k").2.2.2 okRedis.recording
      (Value.str "v")⟩

theorem redis_Invalidate_eq {σ : Type} (s : RedisStore σ) (st : σ) (tags : List String) :
    s.Invalidate st ⟨tags⟩ = s.invalidateTags tags st := by
  cases tags <;> simp [RedisStore.Invalidate, InvalidateOptions.TagsValue,
    RedisStore.invalidateTags]

theorem redis_recording_deletes {σ : Type} (c : RedisClientInterface σ) (d : Options)
    (keys : List String) (st : σ) (log : List RedisCall) :
    keys.foldl (fun st k => ((RedisStore.mk c.recording d).Delete st k).2) (st, log) =
      (keys.foldl (fun st k => (c.Del st d.Ctx [k]).2) st,
        log ++ keys.map fun k => RedisCall.Del d.Ctx [k]) := by
  induction keys generalizing st log with
  | nil => simp
  | cons k ks ih =>
    simp only [List.foldl_cons, List.map_cons]
    rw [show ((RedisStore.mk c.recording d).Delete (st, log) k).2 =
      ((c.Del st d.Ctx [k]).2, log ++ [RedisCall.Del d.Ctx [k]]) from rfl, ih]
    simp

theorem redis_invalidateTags_eq {σ : Type} (c : RedisClientInterface σ) (d : Options)
    (tags : List String) (st : σ) :
    (RedisStore.mk c d).invalidateTags tags st =
      (none, (nativeSetInvalidation c d.Ctx tags st).2) := by
  induction tags generalizing st with
  | nil => rfl
  | cons tag rest ih =>
    rw [RedisStore.invalidateTags, nativeSetInvalidation]
    cases h : (c.SMembers st d.Ctx (tagKey tag)).1.2 with
    | some err =>
      simp only [h, ne_eq, reduceCtorEq, not_false_eq_true, if_true]
      rw [ih]
    | none =>
      simp only [h, ne_eq, not_true_eq_false, if_false]
      rw [ih, List.foldl_append]
      rfl

theorem redis_recording_invalidateTags {σ : Type} (c : RedisClientInterface σ)
    (d : Options) (tags : List String) (st : σ) (log : List RedisCall) :
    (RedisStore.mk c.recording d).invalidateTags tags (st, log) =
      (none, (nativeSetInvalidation c d.Ctx tags st).2,
        log ++ (nativeSetInvalidation c d.Ctx tags st).1) := by
  induction tags generalizing st log with
  | nil => simp [RedisStore.invalidateTags, nativeSetInvalidation]
  | cons tag rest ih =>
    have hS : c.recording.SMembers (st, log) d.Ctx (tagKey tag) =
        ((c.SMembers st d.Ctx (tagKey tag)).1, (c.SMembers st d.Ctx (tagKey tag)).2,
          log ++ [RedisCall.SMembers d.Ctx (tagKey tag)]) := rfl
    have hD : ∀ (x : σ × List RedisCall),
        ((RedisStore.mk c.recording d).Delete x (tagKey tag)).2 =
          ((c.Del x.1 d.Ctx [tagKey tag]).2, x.2 ++ [RedisCall.Del d.Ctx [tagKey tag]]) :=
      fun _ => rfl
    rw [RedisStore.invalidateTags, nativeSetInvalidation]
    simp only [hS]
    cases h : (c.SMembers st d.Ctx (tagKey tag)).1.2 with
    | some err =>
      simp only [ne_eq, reduceCtorEq, not_false_eq_true, if_true]
      rw [ih]
      simp
    | none =>
      simp only [ne_eq, not_true_eq_false, if_false]
      rw [redis_recording_deletes, hD, ih]
      simp [List.foldl_append]

/-- C9. Native-set invalidation on Redis: for every client, store
context, tag list and client state, `RedisStore.Invalidate` returns nil
and makes exactly the calls of `nativeSetInvalidation`: per tag, in
order, `SMembers` on `gocache_tag_<tag>`; on success one `Del` per
returned member and then `Del` of the tag key, whatever the `Del`s
return; on failure nothing more for that tag, and the next tag is
processed. -/
theorem redis_invalidate_native_set {σ : Type} (c : RedisClientInterface σ) (d : Options)
    (tags : List String) (st : σ) (log : List RedisCall) :
    (RedisStore.mk c d).Invalidate st ⟨tags⟩ =
      (none, (nativeSetInvalidation c d.Ctx tags st).2)
    ∧ (RedisStore.mk c.recording d).Invalidate (st, log) ⟨tags⟩ =
      (none, (nativeSetInvalidation c d.Ctx tags st).2,
        log ++ (nativeSetInvalidation c d.Ctx tags st).1) := by
  rw [redis_Invalidate_eq, redis_Invalidate_eq, redis_recording_invalidateTags]
  exact ⟨redis_invalidateTags_eq c d tags st, rfl⟩

theorem memcache_Invalidate_eq {σ : Type} (s : MemcacheStore σ) (st : σ)
    (tags : List String) : s.Invalidate st ⟨tags⟩ = s.invalidateTags tags st := by
  cases tags <;> simp [MemcacheStore.Invalidate, InvalidateOptions.TagsValue,
    MemcacheStore.invalidateTags]

theorem memcache_invalidateTags_nil_error {σ : Type} (s : MemcacheStore σ)
    (tags : List String) (st : σ) : (s.invalidateTags tags st).1 = none := by
  induction tags generalizing st with
  | nil => rfl
  | cons tag rest ih =>
    rw [MemcacheStore.invalidateTags]
    split
    · rfl
    · exact ih _

theorem memcache_recording_deletes {σ : Type} (c : MemcacheClientInterface σ)
    (d : Options) (keys : List String) (st : σ) (log : List MemcacheCall) :
    keys.foldl (fun st k => ((MemcacheStore.mk c.recording d).Delete st k).2) (st, log) =
      (keys.foldl (fun st k => (c.Delete st k).2) st, log ++ keys.map MemcacheCall.Delete) := by
  induction keys generalizing st log with
  | nil => simp
  | cons k ks ih =>
    simp only [List.foldl_cons, List.map_cons]
    rw [show ((MemcacheStore.mk c.recording d).Delete (st, log) k).2 =
      ((c.Delete st k).2, log ++ [MemcacheCall.Delete k]) from rfl, ih]
    simp

/-- Per-member deletion failures are swallowed at a tag the loop
reaches: on every memcache
client, when the read of the index entry of `tag` succeeds with `item`,
`MemcacheStore.Invalidate` calls `Get` on the tag key and then `Delete`
once for every element of the list `split item.Value`, in list order
and whatever each `Delete` returns, before it goes on with the
remaining tags; and `Invalidate` returns nil. -/
theorem memcache_invalidate_swallows_delete_errors {σ : Type}
    (c : MemcacheClientInterface σ) (d : Options) (tag : String) (rest : List String)
    (st : σ) (log : List MemcacheCall) (item : Item)
    (h : (c.Get st (tagKey tag)).1 = (some item, none)) :
    (MemcacheStore.mk c.recording d).Invalidate (st, log) ⟨tag :: rest⟩ =
      (MemcacheStore.mk c.recording d).Invalidate
        ((split item.Value).foldl (fun st k => (c.Delete st k).2) (c.Get st (tagKey tag)).2,
          log ++ MemcacheCall.Get (tagKey tag) :: (split item.Value).map MemcacheCall.Delete)
        ⟨rest⟩
    ∧ ((MemcacheStore.mk c.recording d).Invalidate (st, log) ⟨tag :: rest⟩).1 = none
    ∧ ((MemcacheStore.mk c d).Invalidate st ⟨tag :: rest⟩).1 = none := by
  refine ⟨?_, ?_, ?_⟩
  · rw [memcache_Invalidate_eq, memcache_Invalidate_eq, MemcacheStore.invalidateTags]
    have hG : (MemcacheStore.mk c.recording d).Get (st, log) (tagKey tag) =
        ((Value.bytes item.Value, none),
          ((c.Get st (tagKey tag)).2, log ++ [MemcacheCall.Get (tagKey tag)])) := by
      have h1 : (c.Get st (tagKey tag)).1.1 = some item := by rw [h]
      have h2 : (c.Get st (tagKey tag)).1.2 = none := by rw [h]
      simp only [MemcacheStore.Get, MemcacheClientInterface.recording, h1, h2]
    simp only [hG, ne_eq, not_true_eq_false, if_false, asMembers]
    rw [memcache_recording_deletes]
    simp
  · rw [memcache_Invalidate_eq]
    exact memcache_invalidateTags_nil_error _ _ _
  · rw [memcache_Invalidate_eq]
    exact memcache_invalidateTags_nil_error _ _ _

theorem memcache_invalidate_swallows_delete_errors_witness :
    (mapMemcache.Get
        ((KV.empty.put "gocache_tag_tag1" ⟨"gocache_tag_tag1", "a,b", 0⟩).put "b" ⟨"b", "v", 0⟩)
        (tagKey "tag1")).1 = (some ⟨"gocache_tag_tag1", "a,b", 0⟩, none)
    ∧ (mapMemcache.Delete
        ((KV.empty.put "gocache_tag_tag1" ⟨"gocache_tag_tag1", "a,b", 0⟩).put "b" ⟨"b", "v", 0⟩)
        "a").1 = some "memcache: cache miss"
    ∧ ((MemcacheStore.mk mapMemcache.recording {}).Invalidate
        (((KV.empty.put "gocache_tag_tag1" ⟨"gocache_tag_tag1", "a,b", 0⟩).put "b" ⟨"b", "v", 0⟩),
          []) ⟨["tag1"]⟩).2.2 =
      [MemcacheCall.Get "gocache_tag_tag1", MemcacheCall.Delete "a", MemcacheCall.Delete "b"]
    ∧ ((MemcacheStore.mk mapMemcache.recording {}).Invalidate
        (((KV.empty.put "gocache_tag_tag1" ⟨"gocache_tag_tag1", "a,b", 0⟩).put "b" ⟨"b", "v", 0⟩),
          []) ⟨["tag1"]⟩).1 = none :=
  ⟨by decide, by decide,
    congrArg (fun r => r.2.2) (memcache_invalidate_swallows_delete_errors mapMemcache {} "tag1" []
      ((KV.empty.put "gocache_tag_tag1" ⟨"gocache_tag_tag1", "a,b", 0⟩).put "b" ⟨"b", "v", 0⟩)
      [] ⟨"gocache_tag_tag1", "a,b", 0⟩ (by decide)).1,
    (memcache_invalidate_swallows_delete_errors mapMemcache {} "tag1" []
      ((KV.empty.put "gocache_tag_tag1" ⟨"gocache_tag_tag1", "a,b", 0⟩).put "b" ⟨"b", "v", 0⟩)
      [] ⟨"gocache_tag_tag1", "a,b", 0⟩ (by decide)).2.1⟩

/-- C8. `MemcacheStore.Invalidate` does not reach every readable tag.
With no entry under `gocache_tag_zz` and the entry under
`gocache_tag_tag1` listing `a` and `b`, of which `b` is stored,
`Invalidate` with the tag list `[zz, tag1]` makes the one call
`Get(gocache_tag_zz)` and returns nil: `Delete` is invoked for no member
of the readable tag `tag1`, and `b` stays stored.  With the tag list
`[tag1]` alone it invokes `Delete` for `a`, which fails, and then for
`b`, and returns nil. -/
theorem memcache_invalidate_skips_readable_tag :
    ((MemcacheStore.mk mapMemcache.recording {}).Invalidate
        (((KV.empty.put "gocache_tag_tag1" ⟨"gocache_tag_tag1", "a,b", 0⟩).put "b" ⟨"b", "v", 0⟩),
          []) ⟨["zz", "tag1"]⟩).2.2 = [MemcacheCall.Get "gocache_tag_zz"]
    ∧ ((MemcacheStore.mk mapMemcache.recording {}).Invalidate
        (((KV.empty.put "gocache_tag_tag1" ⟨"gocache_tag_tag1", "a,b", 0⟩).put "b" ⟨"b", "v", 0⟩),
          []) ⟨["zz", "tag1"]⟩).1 = none
    ∧ ((MemcacheStore.mk mapMemcache {}).Invalidate
        ((KV.empty.put "gocache_tag_tag1" ⟨"gocache_tag_tag1", "a,b", 0⟩).put "b" ⟨"b", "v", 0⟩)
        ⟨["zz", "tag1"]⟩).2 "b" = some ⟨"b", "v", 0⟩
    ∧ (mapMemcache.Get
        ((KV.empty.put "gocache_tag_tag1" ⟨"gocache_tag_tag1", "a,b", 0⟩).put "b" ⟨"b", "v", 0⟩)
        "gocache_tag_tag1").1 = (some ⟨"gocache_tag_tag1", "a,b", 0⟩, none)
    ∧ ((MemcacheStore.mk mapMemcache.recording {}).Invalidate
        (((KV.empty.put "gocache_tag_tag1" ⟨"gocache_tag_tag1", "a,b", 0⟩).put "b" ⟨"b", "v", 0⟩),
          []) ⟨["tag1"]⟩).2.2 =
      [MemcacheCall.Get "gocache_tag_tag1", MemcacheCall.Delete "a", MemcacheCall.Delete "b"]
    ∧ (mapMemcache.Delete
        ((KV.empty.put "gocache_tag_tag1" ⟨"gocache_tag_tag1", "a,b", 0⟩).put "b" ⟨"b", "v", 0⟩)
        "a").1 = some "memcache: cache miss"
    ∧ ((MemcacheStore.mk mapMemcache {}).Invalidate
        ((KV.empty.put "gocache_tag_tag1" ⟨"gocache_tag_tag1", "a,b", 0⟩).put "b" ⟨"b", "v", 0⟩)
        ⟨["tag1"]⟩).2 "b" = none := by
  refine ⟨?_, ?_, ?_, ?_, ?_, ?_, ?_⟩ <;> decide

/-- C7. The emulated-set stores stop at the first unreadable tag index:
with no entry under `gocache_tag_a` and the entry under `gocache_tag_b`
listing the stored key `k`, `Invalidate` with tag list `[a, b]` returns
nil and leaves `k` stored on the go-cache, memcache and ristretto
stores, while `Invalidate` with tag list `[b]` alone removes `k`. -/
theorem invalidate_stops_at_unreadable_tag :
    (((GoCacheStore.mk mapGoCache {}).Invalidate
        ((KV.empty.put "gocache_tag_b" (Value.keySet ["k"])).put "k" (Value.other 1))
        ⟨["a", "b"]⟩).1 = none
      ∧ ((GoCacheStore.mk mapGoCache {}).Invalidate
        ((KV.empty.put "gocache_tag_b" (Value.keySet ["k"])).put "k" (Value.other 1))
        ⟨["a", "b"]⟩).2 "k" = some (Value.other 1)
      ∧ ((GoCacheStore.mk mapGoCache {}).Invalidate
        ((KV.empty.put "gocache_tag_b" (Value.keySet ["k"])).put "k" (Value.other 1))
        ⟨["b"]⟩).2 "k" = none)
    ∧ (((MemcacheStore.mk mapMemcache {}).Invalidate
        ((KV.empty.put "gocache_tag_b" ⟨"gocache_tag_b", "k", 0⟩).put "k" ⟨"k", "v", 0⟩)
        ⟨["a", "b"]⟩).1 = none
      ∧ ((MemcacheStore.mk mapMemcache {}).Invalidate
        ((KV.empty.put "gocache_tag_b" ⟨"gocache_tag_b", "k", 0⟩).put "k" ⟨"k", "v", 0⟩)
        ⟨["a", "b"]⟩).2 "k" = some ⟨"k", "v", 0⟩
      ∧ ((MemcacheStore.mk mapMemcache {}).Invalidate
        ((KV.empty.put "gocache_tag_b" ⟨"gocache_tag_b", "k", 0⟩).put "k" ⟨"k", "v", 0⟩)
        ⟨["b"]⟩).2 "k" = none)
    ∧ (((RistrettoStore.mk mapRistretto {}).Invalidate
        ((KV.empty.put "gocache_tag_b" (Value.bytes "k")).put "k" (Value.other 1))
        ⟨["a", "b"]⟩).1 = none
      ∧ ((RistrettoStore.mk mapRistretto {}).Invalidate
        ((KV.empty.put "gocache_tag_b" (Value.bytes "k")).put "k" (Value.other 1))
        ⟨["a", "b"]⟩).2 "k" = some (Value.other 1)
      ∧ ((RistrettoStore.mk mapRistretto {}).Invalidate
        ((KV.empty.put "gocache_tag_b" (Value.bytes "k")).put "k" (Value.other 1))
        ⟨["b"]⟩).2 "k" = none) := by
  refine ⟨⟨?_, ?_, ?_⟩, ⟨?_, ?_, ?_⟩, ⟨?_, ?_, ?_⟩⟩ <;> decide

/-! ## Invalidation on key-value maps -/

theorem kv_foldl_del {α : Type} (keys : List String) (st : KV α) (k : String) :
    (keys.foldl KV.del st) k = if k ∈ keys then none else st k := by
  induction keys generalizing st with
  | nil => simp
  | cons a as ih =>
    rw [List.foldl_cons, ih]
    by_cases h1 : k ∈ as
    · simp [h1]
    · by_cases h2 : k = a
      · simp [h2, KV.del]
      · simp [h1, h2, KV.del]

theorem gocache_map_invalidate (d : Options) (st : KV Value) (tag : String) :
    (GoCacheStore.mk mapGoCache d).Invalidate st ⟨[tag]⟩ =
      (none, (keySetMembers st tag).foldl KV.del st) := by
  cases h : st (tagKey tag) <;>
  simp only [GoCacheStore.Invalidate, InvalidateOptions.TagsValue, GoCacheStore.invalidateTags,
    GoCacheStore.Get, mapGoCache, keySetMembers, GoCacheStore.Delete]
  all_goals simp [h]

theorem memcache_map_deletes (d : Options) (keys : List String) (st : KV Item) :
    keys.foldl (fun st k => ((MemcacheStore.mk mapMemcache d).Delete st k).2) st =
      keys.foldl KV.del st := rfl

theorem memcache_map_invalidate (d : Options) (st : KV Item) (tag : String) :
    (MemcacheStore.mk mapMemcache d).Invalidate st ⟨[tag]⟩ =
      (none, (itemMembers st tag).foldl KV.del st) := by
  cases h : st (tagKey tag) <;>
  simp only [MemcacheStore.Invalidate, InvalidateOptions.TagsValue, MemcacheStore.invalidateTags,
    MemcacheStore.Get, mapMemcache, itemMembers, MemcacheStore.Delete]
  all_goals simp [h, asMembers]

theorem ristretto_map_invalidate (d : Options) (st : KV Value) (tag : String) :
    (RistrettoStore.mk mapRistretto d).Invalidate st ⟨[tag]⟩ =
      (none, (bytesMembers st tag).foldl KV.del st) := by
  cases h : st (tagKey tag) <;>
  simp only [RistrettoStore.Invalidate, InvalidateOptions.TagsValue,
    RistrettoStore.invalidateTags, RistrettoStore.Get, mapRistretto, bytesMembers,
    RistrettoStore.Delete]
  all_goals simp [h]

/-- C10, as the claim states it, fails: on the memcache store an index
entry that lists its own key `gocache_tag_t` is present before
`Invalidate` with tag list `[t]` and absent after it; and where no
entry is stored under the tag key there is none after the call
either. -/
theorem invalidate_may_remove_tag_index :
    ((KV.empty.put "gocache_tag_t" (Item.mk "gocache_tag_t" "gocache_tag_t" 0))
        "gocache_tag_t" = some ⟨"gocache_tag_t", "gocache_tag_t", 0⟩
      ∧ ((MemcacheStore.mk mapMemcache {}).Invalidate
          (KV.empty.put "gocache_tag_t" ⟨"gocache_tag_t", "gocache_tag_t", 0⟩) ⟨["t"]⟩).2
          "gocache_tag_t" = none)
    ∧ ((GoCacheStore.mk mapGoCache {}).Invalidate KV.empty ⟨["t"]⟩).2 "gocache_tag_t" = none := by
  refine ⟨⟨?_, ?_⟩, ?_⟩ <;> decide

/-- C10, amended. On the go-cache, memcache and ristretto stores over a
key-value map, for every backend content and tag `t`, after
`Invalidate` with tag list `[t]` the entry under `gocache_tag_<t>` is
what it was before the call (the same value, or absent as before),
unless the member list read from it contains `gocache_tag_<t>` itself,
in which case the entry is removed. -/
theorem invalidate_keeps_tag_index (d : Options) (sg sr : KV Value) (sm : KV Item)
    (t : String) :
    ((GoCacheStore.mk mapGoCache d).Invalidate sg ⟨[t]⟩).2 (tagKey t) =
      (if tagKey t ∈ keySetMembers sg t then none else sg (tagKey t))
    ∧ ((MemcacheStore.mk mapMemcache d).Invalidate sm ⟨[t]⟩).2 (tagKey t) =
      (if tagKey t ∈ itemMembers sm t then none else sm (tagKey t))
    ∧ ((RistrettoStore.mk mapRistretto d).Invalidate sr ⟨[t]⟩).2 (tagKey t) =
      (if tagKey t ∈ bytesMembers sr t then none else sr (tagKey t)) := by
  rw [gocache_map_invalidate, memcache_map_invalidate, ristretto_map_invalidate]
  exact ⟨kv_foldl_del _ _ _, kv_foldl_del _ _ _, kv_foldl_del _ _ _⟩

/-! ## The delimited member list -/

theorem splitChars_ne_nil (cs : List Char) : splitChars cs ≠ [] := by
  cases cs with
  | nil => simp [splitChars]
  | cons c cs =>
    rw [splitChars]
    split
    · simp
    · split <;> simp

theorem comma_not_mem_of_mem_splitChars (cs p : List Char) (h : p ∈ splitChars cs) :
    ',' ∉ p := by
  induction cs generalizing p with
  | nil =>
    simp only [splitChars, List.mem_singleton] at h
    simp [h]
  | cons c cs ih =>
    rw [splitChars] at h
    split at h
    · rcases List.mem_cons.mp h with h1 | h1
      · simp [h1]
      · exact ih p h1
    · rename_i hc
      cases hs : splitChars cs with
      | nil => exact absurd hs (splitChars_ne_nil cs)
      | cons q qs =>
        rw [hs] at h ih
        rcases List.mem_cons.mp h with h1 | h1
        · have hq := ih q (List.mem_cons_self _ _)
          rw [h1]
          intro hmem
          rcases List.mem_cons.mp hmem with h2 | h2
          · exact hc h2.symm
          · exact hq h2
        · exact ih p (List.mem_cons_of_mem _ h1)

theorem splitChars_of_no_comma (p : List Char) (h : ',' ∉ p) : splitChars p = [p] := by
  induction p with
  | nil => rfl
  | cons c cs ih =>
    have hc : ¬ c = ',' := fun e => h (by simp [e])
    have hcs : ',' ∉ cs := fun e => h (List.mem_cons_of_mem _ e)
    rw [splitChars, if_neg hc, ih hcs]

theorem splitChars_append_comma (p r : List Char) (h : ',' ∉ p) :
    splitChars (p ++ ',' :: r) = p :: splitChars r := by
  induction p with
  | nil => simp [splitChars]
  | cons c cs ih =>
    have hc : ¬ c = ',' := fun e => h (by simp [e])
    have hcs : ',' ∉ cs := fun e => h (List.mem_cons_of_mem _ e)
    rw [List.cons_append, splitChars, if_neg hc, ih hcs]

theorem splitChars_joinChars (ps : List (List Char)) (hne : ps ≠ [])
    (h : ∀ p ∈ ps, ',' ∉ p) : splitChars (joinChars ps) = ps := by
  induction ps with
  | nil => exact absurd rfl hne
  | cons p qs ih =>
    cases qs with
    | nil => exact splitChars_of_no_comma p (h p (List.mem_cons_self _ _))
    | cons q qs =>
      rw [joinChars, splitChars_append_comma p _ (h p (List.mem_cons_self _ _)),
        ih (by simp) (fun x hx => h x (List.mem_cons_of_mem _ hx))]

theorem comma_not_mem_of_mem_split (b s : String) (h : s ∈ split b) : ',' ∉ s.data := by
  rcases List.mem_map.mp h with ⟨p, hp, rfl⟩
  exact comma_not_mem_of_mem_splitChars _ p hp

theorem split_join (elems : List String) (hne : elems ≠ [])
    (h : ∀ s ∈ elems, ',' ∉ s.data) : split (join elems) = elems := by
  unfold split join
  rw [splitChars_joinChars _ (by simpa using hne)
    (by
      intro p hp
      rcases List.mem_map.mp hp with ⟨s, hs, rfl⟩
      exact h s hs)]
  rw [List.map_map]
  conv_rhs => rw [← List.map_id elems]
  apply List.map_congr_left
  intro s _
  rfl

theorem mem_addMember (cacheKeys : List String) (key : String) :
    key ∈ addMember cacheKeys key := by
  unfold addMember
  split
  · assumption
  · simp

theorem subset_addMember (cacheKeys : List String) (key k : String) (h : k ∈ cacheKeys) :
    k ∈ addMember cacheKeys key := by
  unfold addMember
  split
  · exact h
  · simp [h]

theorem addMember_ne_nil (cacheKeys : List String) (key : String) :
    addMember cacheKeys key ≠ [] :=
  List.ne_nil_of_mem (mem_addMember cacheKeys key)

theorem addMember_of_mem (cacheKeys : List String) (key : String) (h : key ∈ cacheKeys) :
    addMember cacheKeys key = cacheKeys := by
  simp [addMember, h]

theorem no_comma_addMember (cacheKeys : List String) (key : String)
    (hk : ',' ∉ key.data) (h : ∀ s ∈ cacheKeys, ',' ∉ s.data) :
    ∀ s ∈ addMember cacheKeys key, ',' ∉ s.data := by
  intro s hs
  unfold addMember at hs
  split at hs
  · exact h s hs
  · rcases List.mem_append.mp hs with h1 | h1
    · exact h s h1
    · rw [List.mem_singleton.mp h1]
      exact hk

/-! ## The go-cache store on a key-value map -/

theorem gocache_map_get (d : Options) (st : KV Value) (k : String) :
    ((GoCacheStore.mk mapGoCache d).Get st k).1.2 =
      (if st k = none then some "Value not found in GoCache store" else none) := by
  cases h : st k <;> simp [GoCacheStore.Get, mapGoCache, h]

theorem gocache_map_setTag (d : Options) (key : String) (st : KV Value) (tag : String) :
    (GoCacheStore.mk mapGoCache d).setTag key st tag =
      if key ∈ keySetMembers st tag then st
      else st.put (tagKey tag) (Value.keySet (keySetMembers st tag ++ [key])) := by
  cases h : st (tagKey tag) <;>
  simp only [GoCacheStore.setTag, GoCacheStore.Get, mapGoCache, keySetMembers]
  all_goals simp [h]

theorem gocache_map_set_tag (d : Options) (st : KV Value) (key : String) (value : Value)
    (tag : String) :
    (GoCacheStore.mk mapGoCache d).Set st key value [Tags [tag]] =
      (none, (GoCacheStore.mk mapGoCache d).setTag key (st.put key value) tag) := rfl

theorem keySetMembers_put_ne (st : KV Value) (k : String) (v : Value) (tag : String)
    (h : k ≠ tagKey tag) : keySetMembers (st.put k v) tag = keySetMembers st tag := by
  have : ¬ tagKey tag = k := fun e => h e.symm
  simp [keySetMembers, KV.put, this]

theorem keySetMembers_put_eq (st : KV Value) (v : Value) (tag : String) :
    keySetMembers (st.put (tagKey tag) v) tag = asKeySet v := by
  simp [keySetMembers, KV.put]

theorem gocache_mem_members_setTag (d : Options) (key : String) (st : KV Value)
    (tag : String) :
    key ∈ keySetMembers ((GoCacheStore.mk mapGoCache d).setTag key st tag) tag := by
  rw [gocache_map_setTag]
  split
  · assumption
  · rw [keySetMembers_put_eq]
    simp [asKeySet]

theorem gocache_members_subset_setTag (d : Options) (key k : String) (st : KV Value)
    (tag : String) (h : k ∈ keySetMembers st tag) :
    k ∈ keySetMembers ((GoCacheStore.mk mapGoCache d).setTag key st tag) tag := by
  rw [gocache_map_setTag]
  split
  · exact h
  · rw [keySetMembers_put_eq]
    simp [asKeySet, h]

/-- C1, as the claim states it, fails: when the second key is the tag
index key itself, its `Set` overwrites the index entry, the first key
is no longer listed, and after `Invalidate` the `Get` of the first key
succeeds. -/
theorem gocache_invalidation_misses_key :
    ((GoCacheStore.mk mapGoCache {}).Get
      ((GoCacheStore.mk mapGoCache {}).Invalidate
        ((GoCacheStore.mk mapGoCache {}).Set
          ((GoCacheStore.mk mapGoCache {}).Set KV.empty "a" (Value.other 1) [Tags ["t"]]).2
          "gocache_tag_t" (Value.other 2) [Tags ["t"]]).2
        ⟨["t"]⟩).2
      "a").1 = (Value.other 1, none) := by
  decide

/-- C1, amended. Invalidation completeness on the go-cache store over a
key-value map: for every backend content, keys `K1`, `K2`, values `V1`,
`V2` and tag `t`, after `Set(K1,V1,Tags(t))`, `Set(K2,V2,Tags(t))` and
`Invalidate` with tag list `[t]`, both `Get(K1)` and `Get(K2)` return the
not-found error, provided that if `K2` is the index key `gocache_tag_<t>`
itself then `K1 = K2` or `V2` is a key set containing `K1`. -/
theorem gocache_invalidation_complete (d : Options) (st : KV Value) (K1 K2 t : String)
    (V1 V2 : Value) (h : K2 = tagKey t → K1 = K2 ∨ K1 ∈ asKeySet V2) :
    ((GoCacheStore.mk mapGoCache d).Get
      ((GoCacheStore.mk mapGoCache d).Invalidate
        ((GoCacheStore.mk mapGoCache d).Set
          ((GoCacheStore.mk mapGoCache d).Set st K1 V1 [Tags [t]]).2 K2 V2 [Tags [t]]).2
        ⟨[t]⟩).2 K1).1.2 = some "Value not found in GoCache store"
    ∧ ((GoCacheStore.mk mapGoCache d).Get
      ((GoCacheStore.mk mapGoCache d).Invalidate
        ((GoCacheStore.mk mapGoCache d).Set
          ((GoCacheStore.mk mapGoCache d).Set st K1 V1 [Tags [t]]).2 K2 V2 [Tags [t]]).2
        ⟨[t]⟩).2 K2).1.2 = some "Value not found in GoCache store" := by
  simp only [gocache_map_invalidate, gocache_map_get, gocache_map_set_tag,
    kv_foldl_del]
  have h2 : K2 ∈ keySetMembers ((GoCacheStore.mk mapGoCache d).setTag K2
      (((GoCacheStore.mk mapGoCache d).setTag K1 (st.put K1 V1) t).put K2 V2) t) t :=
    gocache_mem_members_setTag d K2 _ t
  have h1 : K1 ∈ keySetMembers ((GoCacheStore.mk mapGoCache d).setTag K2
      (((GoCacheStore.mk mapGoCache d).setTag K1 (st.put K1 V1) t).put K2 V2) t) t := by
    by_cases hk : K2 = tagKey t
    · rcases h hk with e | e
      · subst e
        exact h2
      · apply gocache_members_subset_setTag
        rw [hk, keySetMembers_put_eq]
        exact e
    · apply gocache_members_subset_setTag
      rw [keySetMembers_put_ne _ _ _ _ hk]
      exact gocache_mem_members_setTag d K1 _ t
  simp [h1, h2]

theorem gocache_invalidation_complete_witness :
    (("b" : String) = tagKey "t" → ("a" : String) = "b" ∨ "a" ∈ asKeySet (Value.other 2))
    ∧ ((GoCacheStore.mk mapGoCache {}).Get
      ((GoCacheStore.mk mapGoCache {}).Invalidate
        ((GoCacheStore.mk mapGoCache {}).Set
          ((GoCacheStore.mk mapGoCache {}).Set KV.empty "a" (Value.other 1) [Tags ["t"]]).2
          "b" (Value.other 2) [Tags ["t"]]).2
        ⟨["t"]⟩).2 "a").1.2 = some "Value not found in GoCache store"
    ∧ ((GoCacheStore.mk mapGoCache {}).Get
      ((GoCacheStore.mk mapGoCache {}).Invalidate
        ((GoCacheStore.mk mapGoCache {}).Set
          ((GoCacheStore.mk mapGoCache {}).Set KV.empty "a" (Value.other 1) [Tags ["t"]]).2
          "b" (Value.other 2) [Tags ["t"]]).2
        ⟨["t"]⟩).2 "b").1.2 = some "Value not found in GoCache store" :=
  ⟨by decide, gocache_invalidation_complete {} KV.empty "a" "b" "t" (Value.other 1)
    (Value.other 2) (by decide)⟩

/-! ## The memcache store on a key-value map -/

theorem memcache_map_get (d : Options) (st : KV Item) (k : String) :
    ((MemcacheStore.mk mapMemcache d).Get st k).1 =
      (match st k with
      | some item => (Value.bytes item.Value, none)
      | none => (Value.nil, some "memcache: cache miss")) := by
  cases h : st k <;> simp [MemcacheStore.Get, mapMemcache, h]

theorem memcache_map_setTag (d : Options) (key : String) (st : KV Item) (tag : String) :
    (MemcacheStore.mk mapMemcache d).setTag key st tag =
      st.put (tagKey tag)
        ⟨tagKey tag, join (addMember (itemMembers st tag) key), int32Seconds (720 * Hour)⟩ := by
  cases h : st (tagKey tag) <;>
  simp only [MemcacheStore.setTag, MemcacheStore.Get, mapMemcache, itemMembers,
    MemcacheStore.setWith]
  all_goals simp [h, asMembers, resolveOptions, applyOptions, Expiration,
    Options.ExpirationValue]

theorem memcache_map_set_tag (d : Options) (st : KV Item) (key value tag : String) :
    (MemcacheStore.mk mapMemcache d).Set st key value [Tags [tag]] =
      (none, (MemcacheStore.mk mapMemcache d).setTag key (st.put key ⟨key, value, 0⟩) tag) :=
  rfl

theorem itemMembers_put_ne (st : KV Item) (k : String) (item : Item) (tag : String)
    (h : k ≠ tagKey tag) : itemMembers (st.put k item) tag = itemMembers st tag := by
  have : ¬ tagKey tag = k := fun e => h e.symm
  simp [itemMembers, KV.put, this]

theorem itemMembers_put_eq (st : KV Item) (item : Item) (tag : String) :
    itemMembers (st.put (tagKey tag) item) tag = split item.Value := by
  simp [itemMembers, KV.put]

theorem no_comma_itemMembers (st : KV Item) (tag : String) :
    ∀ s ∈ itemMembers st tag, ',' ∉ s.data := by
  intro s hs
  unfold itemMembers at hs
  split at hs
  · exact comma_not_mem_of_mem_split _ s hs
  · simp at hs

theorem memcache_members_setTag (d : Options) (key : String) (st : KV Item)
    (tag : String) (hk : ',' ∉ key.data) :
    itemMembers ((MemcacheStore.mk mapMemcache d).setTag key st tag) tag =
      addMember (itemMembers st tag) key := by
  rw [memcache_map_setTag, itemMembers_put_eq]
  exact split_join _ (addMember_ne_nil _ _)
    (no_comma_addMember _ _ hk (no_comma_itemMembers st tag))

/-! ## The ristretto store on a key-value map -/

theorem ristretto_map_get (d : Options) (st : KV Value) (k : String) :
    ((RistrettoStore.mk mapRistretto d).Get st k).1.2 =
      (if st k = none then some "Value not found in Ristretto store" else none) := by
  cases h : st k <;> simp [RistrettoStore.Get, mapRistretto, h]

theorem ristretto_map_setTag (d : Options) (key : String) (st : KV Value)
    (tag : String) :
    (RistrettoStore.mk mapRistretto d).setTag key st tag =
      st.put (tagKey tag) (Value.bytes (join (addMember (bytesMembers st tag) key))) := by
  cases h : st (tagKey tag) <;>
  simp only [RistrettoStore.setTag, RistrettoStore.Get, mapRistretto, bytesMembers,
    RistrettoStore.setWith]
  all_goals simp [h, resolveOptions, applyOptions, Expiration, Options.TagsValue]

theorem ristretto_map_set_tag (d : Options) (st : KV Value) (key : String)
    (value : Value) (tag : String) :
    (RistrettoStore.mk mapRistretto d).Set st key value [Tags [tag]] =
      (none, (RistrettoStore.mk mapRistretto d).setTag key (st.put key value) tag) :=
  rfl

theorem bytesMembers_put_ne (st : KV Value) (k : String) (v : Value) (tag : String)
    (h : k ≠ tagKey tag) : bytesMembers (st.put k v) tag = bytesMembers st tag := by
  have : ¬ tagKey tag = k := fun e => h e.symm
  simp [bytesMembers, KV.put, this]

theorem bytesMembers_put_eq (st : KV Value) (v : Value) (tag : String) :
    bytesMembers (st.put (tagKey tag) v) tag = asMembers v := by
  simp [bytesMembers, KV.put]

theorem no_comma_asMembers (v : Value) : ∀ s ∈ asMembers v, ',' ∉ s.data := by
  intro s hs
  cases v <;> simp only [asMembers, List.not_mem_nil] at hs
  exact comma_not_mem_of_mem_split _ s hs

theorem no_comma_bytesMembers (st : KV Value) (tag : String) :
    ∀ s ∈ bytesMembers st tag, ',' ∉ s.data := by
  intro s hs
  unfold bytesMembers at hs
  split at hs
  · exact no_comma_asMembers _ s hs
  · simp at hs

theorem ristretto_members_setTag (d : Options) (key : String) (st : KV Value)
    (tag : String) (hk : ',' ∉ key.data) :
    bytesMembers ((RistrettoStore.mk mapRistretto d).setTag key st tag) tag =
      addMember (bytesMembers st tag) key := by
  rw [ristretto_map_setTag, bytesMembers_put_eq]
  exact split_join _ (addMember_ne_nil _ _)
    (no_comma_addMember _ _ hk (no_comma_bytesMembers st tag))

/-- C2, as the claim states it, fails in two ways.  A key containing
`','` is written to the index as one member and read back as its
pieces, so it is never deleted: after the three calls `Get("a,b")`
succeeds on the memcache and the ristretto store.  And a second key
equal to the tag index key overwrites the index entry, after which the
first key `"a"` is no longer listed and survives. -/
theorem delimited_invalidation_misses_key :
    ((MemcacheStore.mk mapMemcache {}).Get
      ((MemcacheStore.mk mapMemcache {}).Invalidate
        ((MemcacheStore.mk mapMemcache {}).Set
          ((MemcacheStore.mk mapMemcache {}).Set KV.empty "a,b" "v" [Tags ["t"]]).2
          "c" "w" [Tags ["t"]]).2
        ⟨["t"]⟩).2 "a,b").1 = (Value.bytes "v", none)
    ∧ ((RistrettoStore.mk mapRistretto {}).Get
      ((RistrettoStore.mk mapRistretto {}).Invalidate
        ((RistrettoStore.mk mapRistretto {}).Set
          ((RistrettoStore.mk mapRistretto {}).Set KV.empty "a,b" (Value.bytes "v")
            [Tags ["t"]]).2
          "c" (Value.bytes "w") [Tags ["t"]]).2
        ⟨["t"]⟩).2 "a,b").1 = (Value.bytes "v", none)
    ∧ ((MemcacheStore.mk mapMemcache {}).Get
      ((MemcacheStore.mk mapMemcache {}).Invalidate
        ((MemcacheStore.mk mapMemcache {}).Set
          ((MemcacheStore.mk mapMemcache {}).Set KV.empty "a" "v" [Tags ["t"]]).2
          "gocache_tag_t" "w" [Tags ["t"]]).2
        ⟨["t"]⟩).2 "a").1 = (Value.bytes "v", none) := by
  refine ⟨?_, ?_, ?_⟩ <;> decide

/-- C2, amended. Invalidation completeness on the delimited-string
stores over a key-value map: for every backend content, keys `K1`, `K2`
that contain no `','`, byte values `V1`, `V2` and tag `t`, after
`Set(K1,V1,Tags(t))`, `Set(K2,V2,Tags(t))` and `Invalidate` with tag
list `[t]`, both `Get(K1)` and `Get(K2)` return the not-found error on
the memcache and on the ristretto store, provided that if `K2` is the
index key `gocache_tag_<t>` itself then `K1 = K2` or `K1` is one of the
pieces of `V2`. -/
theorem delimited_invalidation_complete (d : Options) (sm : KV Item) (sr : KV Value)
    (K1 K2 t V1 V2 : String) (hK1 : ',' ∉ K1.data) (hK2 : ',' ∉ K2.data)
    (h : K2 = tagKey t → K1 = K2 ∨ K1 ∈ split V2) :
    (((MemcacheStore.mk mapMemcache d).Get
        ((MemcacheStore.mk mapMemcache d).Invalidate
          ((MemcacheStore.mk mapMemcache d).Set
            ((MemcacheStore.mk mapMemcache d).Set sm K1 V1 [Tags [t]]).2 K2 V2 [Tags [t]]).2
          ⟨[t]⟩).2 K1).1 = (Value.nil, some "memcache: cache miss")
      ∧ ((MemcacheStore.mk mapMemcache d).Get
        ((MemcacheStore.mk mapMemcache d).Invalidate
          ((MemcacheStore.mk mapMemcache d).Set
            ((MemcacheStore.mk mapMemcache d).Set sm K1 V1 [Tags [t]]).2 K2 V2 [Tags [t]]).2
          ⟨[t]⟩).2 K2).1 = (Value.nil, some "memcache: cache miss"))
    ∧ (((RistrettoStore.mk mapRistretto d).Get
        ((RistrettoStore.mk mapRistretto d).Invalidate
          ((RistrettoStore.mk mapRistretto d).Set
            ((RistrettoStore.mk mapRistretto d).Set sr K1 (Value.bytes V1) [Tags [t]]).2
            K2 (Value.bytes V2) [Tags [t]]).2
          ⟨[t]⟩).2 K1).1.2 = some "Value not found in Ristretto store"
      ∧ ((RistrettoStore.mk mapRistretto d).Get
        ((RistrettoStore.mk mapRistretto d).Invalidate
          ((RistrettoStore.mk mapRistretto d).Set
            ((RistrettoStore.mk mapRistretto d).Set sr K1 (Value.bytes V1) [Tags [t]]).2
            K2 (Value.bytes V2) [Tags [t]]).2
          ⟨[t]⟩).2 K2).1.2 = some "Value not found in Ristretto store") := by
  constructor
  · simp only [memcache_map_invalidate, memcache_map_get, memcache_map_set_tag,
      kv_foldl_del]
    have h2 : K2 ∈ itemMembers ((MemcacheStore.mk mapMemcache d).setTag K2
        (((MemcacheStore.mk mapMemcache d).setTag K1 (sm.put K1 ⟨K1, V1, 0⟩) t).put K2
          ⟨K2, V2, 0⟩) t) t := by
      rw [memcache_members_setTag d K2 _ t hK2]
      exact mem_addMember _ _
    have h1 : K1 ∈ itemMembers ((MemcacheStore.mk mapMemcache d).setTag K2
        (((MemcacheStore.mk mapMemcache d).setTag K1 (sm.put K1 ⟨K1, V1, 0⟩) t).put K2
          ⟨K2, V2, 0⟩) t) t := by
      by_cases hk : K2 = tagKey t
      · rcases h hk with e | e
        · subst e
          exact h2
        · rw [memcache_members_setTag d K2 _ t hK2]
          apply subset_addMember
          rw [hk, itemMembers_put_eq]
          exact e
      · rw [memcache_members_setTag d K2 _ t hK2]
        apply subset_addMember
        rw [itemMembers_put_ne _ _ _ _ hk, memcache_members_setTag d K1 _ t hK1]
        exact mem_addMember _ _
    simp [h1, h2]
  · simp only [ristretto_map_invalidate, ristretto_map_get,
      ristretto_map_set_tag, kv_foldl_del]
    have h2 : K2 ∈ bytesMembers ((RistrettoStore.mk mapRistretto d).setTag K2
        (((RistrettoStore.mk mapRistretto d).setTag K1 (sr.put K1 (Value.bytes V1)) t).put K2
          (Value.bytes V2)) t) t := by
      rw [ristretto_members_setTag d K2 _ t hK2]
      exact mem_addMember _ _
    have h1 : K1 ∈ bytesMembers ((RistrettoStore.mk mapRistretto d).setTag K2
        (((RistrettoStore.mk mapRistretto d).setTag K1 (sr.put K1 (Value.bytes V1)) t).put K2
          (Value.bytes V2)) t) t := by
      by_cases hk : K2 = tagKey t
      · rcases h hk with e | e
        · subst e
          exact h2
        · rw [ristretto_members_setTag d K2 _ t hK2]
          apply subset_addMember
          rw [hk, bytesMembers_put_eq]
          exact e
      · rw [ristretto_members_setTag d K2 _ t hK2]
        apply subset_addMember
        rw [bytesMembers_put_ne _ _ _ _ hk, ristretto_members_setTag d K1 _ t hK1]
        exact mem_addMember _ _
    simp [h1, h2]

theorem delimited_invalidation_complete_witness :
    ',' ∉ ("a" : String).data ∧ ',' ∉ ("b" : String).data
    ∧ (("b" : String) = tagKey "t" → ("a" : String) = "b" ∨ "a" ∈ split "w")
    ∧ (((MemcacheStore.mk mapMemcache {}).Get
        ((MemcacheStore.mk mapMemcache {}).Invalidate
          ((MemcacheStore.mk mapMemcache {}).Set
            ((MemcacheStore.mk mapMemcache {}).Set KV.empty "a" "v" [Tags ["t"]]).2
            "b" "w" [Tags ["t"]]).2
          ⟨["t"]⟩).2 "a").1 = (Value.nil, some "memcache: cache miss")
      ∧ ((MemcacheStore.mk mapMemcache {}).Get
        ((MemcacheStore.mk mapMemcache {}).Invalidate
          ((MemcacheStore.mk mapMemcache {}).Set
            ((MemcacheStore.mk mapMemcache {}).Set KV.empty "a" "v" [Tags ["t"]]).2
            "b" "w" [Tags ["t"]]).2
          ⟨["t"]⟩).2 "b").1 = (Value.nil, some "memcache: cache miss")) :=
  ⟨by decide, by decide, by decide,
    (delimited_invalidation_complete {} KV.empty KV.empty "a" "b" "t" "v" "w" (by decide)
      (by decide) (by decide)).1⟩

theorem count_addMember (cacheKeys : List String) (key : String)
    (h : cacheKeys.count key ≤ 1) : (addMember cacheKeys key).count key = 1 := by
  unfold addMember
  split
  · rename_i hm
    have := List.count_pos_iff.mpr hm
    omega
  · rename_i hm
    rw [List.count_append, List.count_eq_zero_of_not_mem hm]
    simp

theorem memcache_map_setTag_twice (d : Options) (st : KV Item) (K V t : String)
    (hK : ',' ∉ K.data) :
    itemMembers (((MemcacheStore.mk mapMemcache d).setTag K (st.put K ⟨K, V, 0⟩) t).put K
        ⟨K, V, 0⟩) t = itemMembers (st.put K ⟨K, V, 0⟩) t
    ∨ itemMembers (((MemcacheStore.mk mapMemcache d).setTag K (st.put K ⟨K, V, 0⟩) t).put K
        ⟨K, V, 0⟩) t = addMember (itemMembers (st.put K ⟨K, V, 0⟩) t) K := by
  by_cases hk : K = tagKey t
  · left
    subst hk
    rw [itemMembers_put_eq, itemMembers_put_eq]
  · right
    rw [itemMembers_put_ne _ _ _ _ hk, memcache_members_setTag d K _ t hK]

theorem ristretto_map_setTag_twice (d : Options) (st : KV Value) (K V t : String)
    (hK : ',' ∉ K.data) :
    bytesMembers (((RistrettoStore.mk mapRistretto d).setTag K (st.put K (Value.bytes V)) t).put
        K (Value.bytes V)) t = bytesMembers (st.put K (Value.bytes V)) t
    ∨ bytesMembers (((RistrettoStore.mk mapRistretto d).setTag K (st.put K (Value.bytes V))
        t).put K (Value.bytes V)) t = addMember (bytesMembers (st.put K (Value.bytes V)) t) K := by
  by_cases hk : K = tagKey t
  · left
    subst hk
    rw [bytesMembers_put_eq, bytesMembers_put_eq]
  · right
    rw [bytesMembers_put_ne _ _ _ _ hk, ristretto_members_setTag d K _ t hK]

theorem memcache_map_setTag_entry (d : Options) (key : String) (st : KV Item)
    (tag : String) :
    (MemcacheStore.mk mapMemcache d).setTag key st tag (tagKey tag) =
      some ⟨tagKey tag, join (addMember (itemMembers st tag) key),
        int32Seconds (720 * Hour)⟩ := by
  rw [memcache_map_setTag]
  simp [KV.put]

theorem ristretto_map_setTag_entry (d : Options) (key : String) (st : KV Value)
    (tag : String) :
    (RistrettoStore.mk mapRistretto d).setTag key st tag (tagKey tag) =
      some (Value.bytes (join (addMember (bytesMembers st tag) key))) := by
  rw [ristretto_map_setTag]
  simp [KV.put]

theorem addMember_idem (cacheKeys : List String) (key : String) :
    addMember (addMember cacheKeys key) key = addMember cacheKeys key :=
  addMember_of_mem _ _ (mem_addMember _ _)

/-- C3, as the claim states it, fails in two ways on the memcache
store.  For the key `"a,b"` the second `Set` reads the members `a` and
`b`, does not find `"a,b"` and appends it again, so the stored list
changes from `a,b` to `a,b,a,b`.  And on a backend whose index entry
already reads `k,k` two calls with key `k` leave `k` listed twice. -/
theorem delimited_tag_add_not_idempotent :
    (((MemcacheStore.mk mapMemcache {}).Set KV.empty "a,b" "v" [Tags ["t"]]).2
        "gocache_tag_t" = some ⟨"gocache_tag_t", "a,b", 2592000⟩
      ∧ ((MemcacheStore.mk mapMemcache {}).Set
          ((MemcacheStore.mk mapMemcache {}).Set KV.empty "a,b" "v" [Tags ["t"]]).2
          "a,b" "v" [Tags ["t"]]).2
        "gocache_tag_t" = some ⟨"gocache_tag_t", "a,b,a,b", 2592000⟩)
    ∧ (itemMembers
        ((MemcacheStore.mk mapMemcache {}).Set
          ((MemcacheStore.mk mapMemcache {}).Set
            (KV.empty.put "gocache_tag_t" ⟨"gocache_tag_t", "k,k", 0⟩) "k" "v" [Tags ["t"]]).2
          "k" "v" [Tags ["t"]]).2 "t").count "k" = 2 := by
  refine ⟨⟨?_, ?_⟩, ?_⟩ <;> decide

/-- C3, amended. Tag membership idempotence on the delimited-string
stores over a key-value map: for every backend content, key `K` that
contains no `','`, value `V` and tag `t`, the second of two calls
`Set(K,V,Tags(t))` leaves the entry stored under `gocache_tag_<t>`, and
so its member list, equal to what the first call stored; `K` is in that
list, and occurs in it exactly once whenever the list read by the first
call held `K` at most once (as when the tag had no entry). -/
theorem delimited_tag_add_idempotent (d : Options) (sm : KV Item) (sr : KV Value)
    (K V t : String) (hK : ',' ∉ K.data) :
    (((MemcacheStore.mk mapMemcache d).Set
          ((MemcacheStore.mk mapMemcache d).Set sm K V [Tags [t]]).2 K V [Tags [t]]).2
        (tagKey t) = ((MemcacheStore.mk mapMemcache d).Set sm K V [Tags [t]]).2 (tagKey t)
      ∧ itemMembers ((MemcacheStore.mk mapMemcache d).Set
          ((MemcacheStore.mk mapMemcache d).Set sm K V [Tags [t]]).2 K V [Tags [t]]).2 t =
        itemMembers ((MemcacheStore.mk mapMemcache d).Set sm K V [Tags [t]]).2 t
      ∧ K ∈ itemMembers ((MemcacheStore.mk mapMemcache d).Set sm K V [Tags [t]]).2 t
      ∧ ((itemMembers (sm.put K ⟨K, V, 0⟩) t).count K ≤ 1 →
        (itemMembers ((MemcacheStore.mk mapMemcache d).Set
          ((MemcacheStore.mk mapMemcache d).Set sm K V [Tags [t]]).2 K V [Tags [t]]).2
          t).count K = 1))
    ∧ (((RistrettoStore.mk mapRistretto d).Set
          ((RistrettoStore.mk mapRistretto d).Set sr K (Value.bytes V) [Tags [t]]).2 K
          (Value.bytes V) [Tags [t]]).2 (tagKey t) =
        ((RistrettoStore.mk mapRistretto d).Set sr K (Value.bytes V) [Tags [t]]).2 (tagKey t)
      ∧ bytesMembers ((RistrettoStore.mk mapRistretto d).Set
          ((RistrettoStore.mk mapRistretto d).Set sr K (Value.bytes V) [Tags [t]]).2 K
          (Value.bytes V) [Tags [t]]).2 t =
        bytesMembers ((RistrettoStore.mk mapRistretto d).Set sr K (Value.bytes V) [Tags [t]]).2 t
      ∧ K ∈ bytesMembers
          ((RistrettoStore.mk mapRistretto d).Set sr K (Value.bytes V) [Tags [t]]).2 t
      ∧ ((bytesMembers (sr.put K (Value.bytes V)) t).count K ≤ 1 →
        (bytesMembers ((RistrettoStore.mk mapRistretto d).Set
          ((RistrettoStore.mk mapRistretto d).Set sr K (Value.bytes V) [Tags [t]]).2 K
          (Value.bytes V) [Tags [t]]).2 t).count K = 1)) := by
  constructor
  · simp only [memcache_map_set_tag]
    have hm1 := memcache_members_setTag d K (sm.put K ⟨K, V, 0⟩) t hK
    have hm2 := memcache_members_setTag d K
      (((MemcacheStore.mk mapMemcache d).setTag K (sm.put K ⟨K, V, 0⟩) t).put K ⟨K, V, 0⟩) t hK
    have hL : addMember (itemMembers (((MemcacheStore.mk mapMemcache d).setTag K
        (sm.put K ⟨K, V, 0⟩) t).put K ⟨K, V, 0⟩) t) K =
        addMember (itemMembers (sm.put K ⟨K, V, 0⟩) t) K := by
      rcases memcache_map_setTag_twice d sm K V t hK with e | e
      · rw [e]
      · rw [e, addMember_idem]
    refine ⟨?_, ?_, ?_, ?_⟩
    · rw [memcache_map_setTag_entry, memcache_map_setTag_entry, hL]
    · rw [hm2, hm1, hL]
    · rw [hm1]
      exact mem_addMember _ _
    · intro hc
      rw [hm2, hL]
      exact count_addMember _ _ hc
  · simp only [ristretto_map_set_tag]
    have hm1 := ristretto_members_setTag d K (sr.put K (Value.bytes V)) t hK
    have hm2 := ristretto_members_setTag d K
      (((RistrettoStore.mk mapRistretto d).setTag K (sr.put K (Value.bytes V)) t).put K
        (Value.bytes V)) t hK
    have hL : addMember (bytesMembers (((RistrettoStore.mk mapRistretto d).setTag K
        (sr.put K (Value.bytes V)) t).put K (Value.bytes V)) t) K =
        addMember (bytesMembers (sr.put K (Value.bytes V)) t) K := by
      rcases ristretto_map_setTag_twice d sr K V t hK with e | e
      · rw [e]
      · rw [e, addMember_idem]
    refine ⟨?_, ?_, ?_, ?_⟩
    · rw [ristretto_map_setTag_entry, ristretto_map_setTag_entry, hL]
    · rw [hm2, hm1, hL]
    · rw [hm1]
      exact mem_addMember _ _
    · intro hc
      rw [hm2, hL]
      exact count_addMember _ _ hc

theorem delimited_tag_add_idempotent_witness :
    ',' ∉ ("k" : String).data
    ∧ ((MemcacheStore.mk mapMemcache {}).Set
          ((MemcacheStore.mk mapMemcache {}).Set KV.empty "k" "v" [Tags ["t"]]).2 "k" "v"
          [Tags ["t"]]).2 (tagKey "t") =
        ((MemcacheStore.mk mapMemcache {}).Set KV.empty "k" "v" [Tags ["t"]]).2 (tagKey "t")
    ∧ (itemMembers ((MemcacheStore.mk mapMemcache {}).Set
          ((MemcacheStore.mk mapMemcache {}).Set KV.empty "k" "v" [Tags ["t"]]).2 "k" "v"
          [Tags ["t"]]).2 "t").count "k" = 1 :=
  ⟨by decide,
    (delimited_tag_add_idempotent {} KV.empty KV.empty "k" "v" "t" (by decide)).1.1,
    (delimited_tag_add_idempotent {} KV.empty KV.empty "k" "v" "t" (by decide)).1.2.2.2
      (by decide)⟩



/-! ## Failed and successful primary writes -/

/-- C11. `Set` surfaces the backend write error and skips the tag step:
on every memcache, Redis and ristretto client, when the primary write
of `K` fails (the client's `Set` returns an error, or `SetWithTTL`
returns false), `Set` returns a non-nil error, which on memcache and
Redis is the client's error unchanged, and the primary write is the
only client call it makes, whatever tags were resolved. -/
theorem set_surfaces_write_error {σ : Type} (d : Options) (st : σ) (key : String)
    (opts : List StoreOption) :
    (∀ (c : MemcacheClientInterface σ) (log : List MemcacheCall) (value : String) (err : Error),
      (c.Set st ⟨key, value, int32Seconds (resolveOptions d opts).Expiration⟩).1 = some err →
      (MemcacheStore.mk c.recording d).Set (st, log) key value opts =
        (some err,
          (c.Set st ⟨key, value, int32Seconds (resolveOptions d opts).Expiration⟩).2,
          log ++ [MemcacheCall.Set
            ⟨key, value, int32Seconds (resolveOptions d opts).Expiration⟩]))
    ∧ (∀ (c : RedisClientInterface σ) (log : List RedisCall) (value : Value) (err : Error),
      (c.Set st (defaultCtx (resolveOptions d opts)).Ctx key value
        (resolveOptions d opts).Expiration).1 = some err →
      ((RedisStore.mk c.recording d).Set (st, log) key value opts).2 =
        (some err,
          (c.Set st (defaultCtx (resolveOptions d opts)).Ctx key value
            (resolveOptions d opts).Expiration).2,
          log ++ [RedisCall.Set (defaultCtx (resolveOptions d opts)).Ctx key value
            (resolveOptions d opts).Expiration]))
    ∧ (∀ (c : RistrettoClientInterface σ) (log : List RistrettoCall) (value : Value),
      (c.SetWithTTL st key value (resolveOptions d opts).Cost
        (resolveOptions d opts).Expiration).1 = false →
      ((RistrettoStore.mk c.recording d).Set (st, log) key value opts).1 ≠ none
      ∧ ((RistrettoStore.mk c.recording d).Set (st, log) key value opts).2 =
        ((c.SetWithTTL st key value (resolveOptions d opts).Cost
            (resolveOptions d opts).Expiration).2,
          log ++ [RistrettoCall.SetWithTTL key value (resolveOptions d opts).Cost
            (resolveOptions d opts).Expiration])) := by
  have hE : (defaultCtx (resolveOptions d opts)).Expiration =
      (resolveOptions d opts).Expiration := by
    unfold defaultCtx
    split <;> rfl
  refine ⟨?_, ?_, ?_⟩
  · intro c log value err h
    simp only [MemcacheStore.Set, MemcacheStore.setWith, MemcacheClientInterface.recording,
      Options.ExpirationValue, h]
  · intro c log value err h
    have h1 : (c.recording.Set (st, log) (defaultCtx (resolveOptions d opts)).Ctx key value
        (resolveOptions d opts).Expiration).1 = some err := h
    have h2 : (c.recording.Set (st, log) (defaultCtx (resolveOptions d opts)).Ctx key value
        (resolveOptions d opts).Expiration).2 =
        ((c.Set st (defaultCtx (resolveOptions d opts)).Ctx key value
          (resolveOptions d opts).Expiration).2,
          log ++ [RedisCall.Set (defaultCtx (resolveOptions d opts)).Ctx key value
            (resolveOptions d opts).Expiration]) := rfl
    by_cases hl : opts.length = 0 <;>
    simp only [RedisStore.Set, hl, if_true, if_false, Options.ExpirationValue, hE, h1, h2]
  · intro c log value h
    simp only [RistrettoStore.Set, RistrettoStore.setWith, RistrettoClientInterface.recording,
      Options.ExpirationValue, Options.CostValue, h]
    simp

theorem set_surfaces_write_error_witness :
    (downMemcache.Set () ⟨"k", "v", 0⟩).1 = some "connection refused"
    ∧ (downRistretto.SetWithTTL () "k" (Value.str "v") 0 0).1 = false
    ∧ (MemcacheStore.mk downMemcache.recording {}).Set ((), []) "k" "v" [Tags ["t"]] =
      (some "connection refused", (), [MemcacheCall.Set ⟨"k", "v", 0⟩])
    ∧ ((RedisStore.mk downRedis.recording {}).Set ((), []) "k" (Value.str "v") [Tags ["t"]]).2 =
      (some "connection refused", (),
        [RedisCall.Set (some Context.background) "k" (Value.str "v") 0])
    ∧ ((RistrettoStore.mk downRistretto.recording {}).Set ((), []) "k" (Value.str "v")
        [Tags ["t"]]).2 = ((), [RistrettoCall.SetWithTTL "k" (Value.str "v") 0 0]) :=
  ⟨rfl, rfl, (set_surfaces_write_error {} () "k" [Tags ["t"]]).1 downMemcache [] "v" "connection refused"
      rfl,
    (set_surfaces_write_error {} () "k" [Tags ["t"]]).2.1 downRedis [] (Value.str "v")
      "connection refused" rfl,
    ((set_surfaces_write_error {} () "k" [Tags ["t"]]).2.2 downRistretto [] (Value.str "v")
      rfl).2⟩

/-! ## Delete and Get -/

/-- C13. `Delete` removes only the single entry: on every client of the
four stores `Delete(K)` makes exactly one client call, the delete of
`K` (`Del` with the one key `K` on Redis), and returns what that call
returns (nil on go-cache and ristretto); over a key-value map the entry
under `K` is gone and the entry under every other key, tag index
entries included, is what it was before. -/
theorem delete_removes_single_entry {σ : Type} (d : Options) (st : σ) (K : String) :
    (∀ (c : GoCacheClientInterface σ) (log : List GoCacheCall),
      (GoCacheStore.mk c.recording d).Delete (st, log) K =
        (none, c.Delete st K, log ++ [GoCacheCall.Delete K]))
    ∧ (∀ (c : MemcacheClientInterface σ) (log : List MemcacheCall),
      (MemcacheStore.mk c.recording d).Delete (st, log) K =
        ((c.Delete st K).1, (c.Delete st K).2, log ++ [MemcacheCall.Delete K]))
    ∧ (∀ (c : RistrettoClientInterface σ) (log : List RistrettoCall),
      (RistrettoStore.mk c.recording d).Delete (st, log) K =
        (none, c.Del st K, log ++ [RistrettoCall.Del K]))
    ∧ (∀ (c : RedisClientInterface σ) (log : List RedisCall),
      (RedisStore.mk c.recording d).Delete (st, log) K =
        ((c.Del st d.Ctx [K]).1.2, (c.Del st d.Ctx [K]).2, log ++ [RedisCall.Del d.Ctx [K]]))
    ∧ (∀ (sg : KV Value) (k : String),
      ((GoCacheStore.mk mapGoCache d).Delete sg K).2 k = if k = K then none else sg k)
    ∧ (∀ (sm : KV Item) (k : String),
      ((MemcacheStore.mk mapMemcache d).Delete sm K).2 k = if k = K then none else sm k)
    ∧ (∀ (sr : KV Value) (k : String),
      ((RistrettoStore.mk mapRistretto d).Delete sr K).2 k = if k = K then none else sr k) :=
  ⟨fun _ _ => rfl, fun _ _ => rfl, fun _ _ => rfl, fun _ _ => rfl, fun _ _ => rfl,
    fun _ _ => rfl, fun _ _ => rfl⟩

/-- C14. `Get` fails exactly on absence and otherwise returns the raw
value: on every go-cache and ristretto client `Get(K)` returns a
non-nil error if and only if the client reports `K` absent, and
otherwise the client's value with a nil error; on every memcache client
`Get(K)` returns a non-nil error if and only if the client returns an
error or a nil item, and otherwise the bytes of the item's `Value`
with a nil error. -/
theorem get_fails_exactly_on_absence {σ : Type} (d : Options) (st : σ) (K : String) :
    (∀ c : GoCacheClientInterface σ,
      (((GoCacheStore.mk c d).Get st K).1.2 ≠ none ↔ (c.Get st K).1.2 = false)
      ∧ ((GoCacheStore.mk c d).Get st K).1.1 = (c.Get st K).1.1
      ∧ ((c.Get st K).1.2 = true →
        ((GoCacheStore.mk c d).Get st K).1 = ((c.Get st K).1.1, none)))
    ∧ (∀ c : RistrettoClientInterface σ,
      (((RistrettoStore.mk c d).Get st K).1.2 ≠ none ↔ (c.Get st K).1.2 = false)
      ∧ ((RistrettoStore.mk c d).Get st K).1.1 = (c.Get st K).1.1
      ∧ ((c.Get st K).1.2 = true →
        ((RistrettoStore.mk c d).Get st K).1 = ((c.Get st K).1.1, none)))
    ∧ (∀ c : MemcacheClientInterface σ,
      (((MemcacheStore.mk c d).Get st K).1.2 ≠ none ↔
        ((c.Get st K).1.2 ≠ none ∨ (c.Get st K).1.1 = none))
      ∧ (∀ item : Item, (c.Get st K).1 = (some item, none) →
        ((MemcacheStore.mk c d).Get st K).1 = (Value.bytes item.Value, none))) := by
  refine ⟨?_, ?_, ?_⟩
  · intro c
    cases h : (c.Get st K).1.2 <;> simp [GoCacheStore.Get, h]
  · intro c
    cases h : (c.Get st K).1.2 <;> simp [RistrettoStore.Get, h]
  · intro c
    constructor
    · cases h1 : (c.Get st K).1.2 <;> cases h2 : (c.Get st K).1.1 <;>
        simp [MemcacheStore.Get, h1, h2]
    · intro item h
      have h1 : (c.Get st K).1.1 = some item := by rw [h]
      have h2 : (c.Get st K).1.2 = none := by rw [h]
      simp [MemcacheStore.Get, h1, h2]

theorem get_fails_exactly_on_absence_witness :
    (mapGoCache.Get (KV.empty.put "k" (Value.other 1)) "k").1.2 = true
    ∧ ((GoCacheStore.mk mapGoCache {}).Get (KV.empty.put "k" (Value.other 1)) "k").1 =
      (Value.other 1, none)
    ∧ (mapMemcache.Get (KV.empty.put "k" ⟨"k", "v", 0⟩) "k").1 = (some ⟨"k", "v", 0⟩, none)
    ∧ ((MemcacheStore.mk mapMemcache {}).Get (KV.empty.put "k" ⟨"k", "v", 0⟩) "k").1 =
      (Value.bytes "v", none) :=
  ⟨by decide,
    ((get_fails_exactly_on_absence {} (KV.empty.put "k" (Value.other 1)) "k").1
      mapGoCache).2.2 (by decide),
    by decide,
    ((get_fails_exactly_on_absence {} (KV.empty.put "k" (Item.mk "k" "v" 0)) "k").2.2
      mapMemcache).2 ⟨"k", "v", 0⟩ (by decide)⟩

theorem defaultCtx_Tags (o : Options) : (defaultCtx o).Tags = o.Tags := by
  unfold defaultCtx
  split <;> rfl

theorem defaultCtx_Expiration (o : Options) : (defaultCtx o).Expiration = o.Expiration := by
  unfold defaultCtx
  split <;> rfl

/-- C16. An empty tag list is a succeeding no-op: on every client of
the four stores `Invalidate` with an empty tag list returns nil and
makes no client call, and a `Set` whose resolved tag list is empty makes
one client call only, the primary write of `K`, and returns its
outcome. -/
theorem empty_tag_list_is_noop {σ : Type} (d : Options) (st : σ) :
    ((∀ (c : GoCacheClientInterface σ) (log : List GoCacheCall),
        (GoCacheStore.mk c.recording d).Invalidate (st, log) ⟨[]⟩ = (none, st, log))
      ∧ (∀ (c : MemcacheClientInterface σ) (log : List MemcacheCall),
        (MemcacheStore.mk c.recording d).Invalidate (st, log) ⟨[]⟩ = (none, st, log))
      ∧ (∀ (c : RistrettoClientInterface σ) (log : List RistrettoCall),
        (RistrettoStore.mk c.recording d).Invalidate (st, log) ⟨[]⟩ = (none, st, log))
      ∧ (∀ (c : RedisClientInterface σ) (log : List RedisCall),
        (RedisStore.mk c.recording d).Invalidate (st, log) ⟨[]⟩ = (none, st, log)))
    ∧ (∀ (K : String) (opts : List StoreOption), (resolveOptions d opts).Tags = [] →
      (∀ (c : GoCacheClientInterface σ) (log : List GoCacheCall) (V : Value),
        (GoCacheStore.mk c.recording d).Set (st, log) K V opts =
          (none, c.Set st K V (resolveOptions d opts).Expiration,
            log ++ [GoCacheCall.Set K V (resolveOptions d opts).Expiration]))
      ∧ (∀ (c : MemcacheClientInterface σ) (log : List MemcacheCall) (V : String),
        (MemcacheStore.mk c.recording d).Set (st, log) K V opts =
          ((c.Set st ⟨K, V, int32Seconds (resolveOptions d opts).Expiration⟩).1,
            (c.Set st ⟨K, V, int32Seconds (resolveOptions d opts).Expiration⟩).2,
            log ++ [MemcacheCall.Set ⟨K, V, int32Seconds (resolveOptions d opts).Expiration⟩]))
      ∧ (∀ (c : RistrettoClientInterface σ) (log : List RistrettoCall) (V : Value),
        ((RistrettoStore.mk c.recording d).Set (st, log) K V opts).2 =
          ((c.SetWithTTL st K V (resolveOptions d opts).Cost
              (resolveOptions d opts).Expiration).2,
            log ++ [RistrettoCall.SetWithTTL K V (resolveOptions d opts).Cost
              (resolveOptions d opts).Expiration])
        ∧ (((RistrettoStore.mk c.recording d).Set (st, log) K V opts).1 = none ↔
          (c.SetWithTTL st K V (resolveOptions d opts).Cost
            (resolveOptions d opts).Expiration).1 = true))
      ∧ (∀ (c : RedisClientInterface σ) (log : List RedisCall) (V : Value),
        ((RedisStore.mk c.recording d).Set (st, log) K V opts).2 =
          ((c.Set st (defaultCtx (resolveOptions d opts)).Ctx K V
              (resolveOptions d opts).Expiration).1,
            (c.Set st (defaultCtx (resolveOptions d opts)).Ctx K V
              (resolveOptions d opts).Expiration).2,
            log ++ [RedisCall.Set (defaultCtx (resolveOptions d opts)).Ctx K V
              (resolveOptions d opts).Expiration]))) := by
  refine ⟨⟨fun _ _ => rfl, fun _ _ => rfl, fun _ _ => rfl, fun _ _ => rfl⟩, ?_⟩
  intro K opts hT
  refine ⟨?_, ?_, ?_, ?_⟩
  · intro c log V
    simp only [GoCacheStore.Set, Options.TagsValue, Options.ExpirationValue, hT,
      List.length_nil, gt_iff_lt, lt_self_iff_false, if_false]
    rfl
  · intro c log V
    simp only [MemcacheStore.Set, MemcacheStore.setWith, Options.TagsValue,
      Options.ExpirationValue, hT, List.length_nil, gt_iff_lt, lt_self_iff_false, if_false]
    cases h : (c.Set st ⟨K, V, int32Seconds (resolveOptions d opts).Expiration⟩).1 <;>
      simp [MemcacheClientInterface.recording, h]
  · intro c log V
    simp only [RistrettoStore.Set, RistrettoStore.setWith, Options.TagsValue,
      Options.ExpirationValue, Options.CostValue, hT, List.length_nil, gt_iff_lt,
      lt_self_iff_false, if_false]
    cases h : (c.SetWithTTL st K V (resolveOptions d opts).Cost
      (resolveOptions d opts).Expiration).1 <;>
      simp [RistrettoClientInterface.recording, h]
  · intro c log V
    have h2 : c.recording.Set (st, log) (defaultCtx (resolveOptions d opts)).Ctx K V
        (resolveOptions d opts).Expiration =
        ((c.Set st (defaultCtx (resolveOptions d opts)).Ctx K V
          (resolveOptions d opts).Expiration).1,
          (c.Set st (defaultCtx (resolveOptions d opts)).Ctx K V
            (resolveOptions d opts).Expiration).2,
          log ++ [RedisCall.Set (defaultCtx (resolveOptions d opts)).Ctx K V
            (resolveOptions d opts).Expiration]) := rfl
    by_cases hl : opts.length = 0 <;>
    simp only [RedisStore.Set, hl, if_true, if_false, Options.ExpirationValue,
      Options.TagsValue, defaultCtx_Expiration, defaultCtx_Tags, hT, h2, List.length_nil,
      gt_iff_lt, lt_self_iff_false] <;>
    cases h : (c.Set st (defaultCtx (resolveOptions d opts)).Ctx K V
      (resolveOptions d opts).Expiration).1 <;> rfl

theorem empty_tag_list_is_noop_witness :
    (resolveOptions {} [Expiration (5 * Second)]).Tags = []
    ∧ (GoCacheStore.mk mapGoCache.recording {}).Invalidate (KV.empty, []) ⟨[]⟩ =
      (none, KV.empty, [])
    ∧ ((MemcacheStore.mk mapMemcache.recording {}).Set (KV.empty, []) "k" "v"
        [Expiration (5 * Second)]).2.2 = [MemcacheCall.Set ⟨"k", "v", 5⟩] :=
  ⟨rfl, ((empty_tag_list_is_noop {} (KV.empty : KV Value)).1).1 mapGoCache [],
    congrArg (fun r => r.2.2)
      (((empty_tag_list_is_noop {} (KV.empty : KV Item)).2 "k" [Expiration (5 * Second)]
        rfl).2.1 mapMemcache [] "v")⟩

/-! ## The tag step leaves other keys alone -/

theorem gocache_map_setTags_other (d : Options) (key : String) (tags : List String)
    (st : KV Value) (k : String) (h : k ∉ tags.map tagKey) :
    (GoCacheStore.mk mapGoCache d).setTags st key tags k = st k := by
  induction tags generalizing st with
  | nil => rfl
  | cons t ts ih =>
    have h1 : k ≠ tagKey t := fun e => h (by simp [e])
    have h2 : k ∉ ts.map tagKey := fun e => h (by simp at e ⊢; exact Or.inr e)
    simp only [GoCacheStore.setTags, List.foldl_cons] at ih ⊢
    rw [ih _ h2, gocache_map_setTag]
    split
    · rfl
    · simp [KV.put, h1]

theorem memcache_map_setTags_other (d : Options) (key : String) (tags : List String)
    (st : KV Item) (k : String) (h : k ∉ tags.map tagKey) :
    (MemcacheStore.mk mapMemcache d).setTags st key tags k = st k := by
  induction tags generalizing st with
  | nil => rfl
  | cons t ts ih =>
    have h1 : k ≠ tagKey t := fun e => h (by simp [e])
    have h2 : k ∉ ts.map tagKey := fun e => h (by simp at e ⊢; exact Or.inr e)
    simp only [MemcacheStore.setTags, List.foldl_cons] at ih ⊢
    rw [ih _ h2, memcache_map_setTag]
    simp [KV.put, h1]

theorem ristretto_map_setTags_other (d : Options) (key : String) (tags : List String)
    (st : KV Value) (k : String) (h : k ∉ tags.map tagKey) :
    (RistrettoStore.mk mapRistretto d).setTags st key tags k = st k := by
  induction tags generalizing st with
  | nil => rfl
  | cons t ts ih =>
    have h1 : k ≠ tagKey t := fun e => h (by simp [e])
    have h2 : k ∉ ts.map tagKey := fun e => h (by simp at e ⊢; exact Or.inr e)
    simp only [RistrettoStore.setTags, List.foldl_cons] at ih ⊢
    rw [ih _ h2, ristretto_map_setTag]
    simp [KV.put, h1]

theorem gocache_map_set_entry (d : Options) (st : KV Value) (K : String) (V : Value)
    (opts : List StoreOption) (h : K ∉ (resolveOptions d opts).Tags.map tagKey) :
    ((GoCacheStore.mk mapGoCache d).Set st K V opts).2 K = some V := by
  simp only [GoCacheStore.Set, Options.TagsValue]
  split
  · show (GoCacheStore.mk mapGoCache d).setTags (st.put K V) K _ K = some V
    rw [gocache_map_setTags_other d K _ _ K h]
    simp [KV.put]
  · show (st.put K V) K = some V
    simp [KV.put]

theorem memcache_map_set_entry (d : Options) (st : KV Item) (K V : String)
    (opts : List StoreOption) (h : K ∉ (resolveOptions d opts).Tags.map tagKey) :
    ((MemcacheStore.mk mapMemcache d).Set st K V opts).2 K =
      some ⟨K, V, int32Seconds (resolveOptions d opts).Expiration⟩ := by
  have hS : ∀ item : Item, mapMemcache.Set st item = (none, st.put item.Key item) :=
    fun _ => rfl
  simp only [MemcacheStore.Set, MemcacheStore.setWith, Options.TagsValue,
    Options.ExpirationValue, hS]
  split
  · show (MemcacheStore.mk mapMemcache d).setTags (st.put K _) K _ K = _
    rw [memcache_map_setTags_other d K _ _ K h]
    simp [KV.put]
  · show (st.put K _) K = _
    simp [KV.put]

theorem ristretto_map_set_entry (d : Options) (st : KV Value) (K : String) (V : Value)
    (opts : List StoreOption) (h : K ∉ (resolveOptions d opts).Tags.map tagKey) :
    ((RistrettoStore.mk mapRistretto d).Set st K V opts).2 K = some V := by
  have hS : ∀ (cost : Int) (ttl : Duration),
      mapRistretto.SetWithTTL st K V cost ttl = (true, st.put K V) := fun _ _ => rfl
  simp only [RistrettoStore.Set, RistrettoStore.setWith, Options.TagsValue, hS,
    Bool.not_true, Bool.false_eq_true, if_false]
  split
  · show (RistrettoStore.mk mapRistretto d).setTags (st.put K V) K _ K = some V
    rw [ristretto_map_setTags_other d K _ _ K h]
    simp [KV.put]
  · show (st.put K V) K = some V
    simp [KV.put]

theorem redis_recording_setTags {σ : Type} (c : RedisClientInterface σ) (d : Options)
    (K : String) (tags : List String) (st : σ) (log : List RedisCall) :
    ((RedisStore.mk c.recording d).setTags (st, log) K tags).2 =
      log ++ tags.flatMap fun t =>
        [RedisCall.SAdd d.Ctx (tagKey t) [K], RedisCall.Expire d.Ctx (tagKey t) (720 * Hour)] := by
  induction tags generalizing st log with
  | nil => simp [RedisStore.setTags]
  | cons t ts ih =>
    simp only [RedisStore.setTags, List.foldl_cons, List.flatMap_cons] at ih ⊢
    have hstep : (RedisStore.mk c.recording d).setTag K (st, log) t =
        ((c.Expire (c.SAdd st d.Ctx (tagKey t) [K]).2 d.Ctx (tagKey t) (720 * Hour)).2,
          log ++ [RedisCall.SAdd d.Ctx (tagKey t) [K],
            RedisCall.Expire d.Ctx (tagKey t) (720 * Hour)]) := by
      simp [RedisStore.setTag, RedisClientInterface.recording]
    rw [hstep, ih]
    simp

/-! ## The go-cache tag step on map objects -/

theorem byref_map_setTag (d : Options) (K t : String) (st : KV byref.GoValue)
    (h : byref.Heap) :
    (byref.GoCacheStore.mk byref.mapGoCache d).setTag K (st, h) t =
      match st (tagKey t) with
      | some (byref.GoValue.mapRef b) =>
        if K ∈ h.maps b then (st, h)
        else (st.put (tagKey t) (byref.GoValue.mapRef b), h.insert b K)
      | _ => (st.put (tagKey t) (byref.GoValue.mapRef h.next), h.make.2.insert h.next K) := by
  cases hv : st (tagKey t) with
  | none => simp [byref.GoCacheStore.setTag, byref.GoCacheStore.Get, byref.mapGoCache, hv,
      byref.asMap, byref.Heap.make]
  | some v =>
    cases v <;> simp [byref.GoCacheStore.setTag, byref.GoCacheStore.Get, byref.mapGoCache, hv,
      byref.asMap, byref.Heap.make]

/-- One tag step leaves every entry but the one under the tag key as it
is, and leaves the map object at `a` as it is unless that object is the
index of the tag and does not list the key yet; no entry comes to hold
the object at `a` that did not hold it before. -/
theorem byref_map_setTag_step (d : Options) (K t : String) (a : Nat)
    (st : KV byref.GoValue) (h : byref.Heap) (ha : a < h.next)
    (hin : st (tagKey t) = some (byref.GoValue.mapRef a) → K ∈ h.maps a) :
    (∀ k, k ≠ tagKey t →
        ((byref.GoCacheStore.mk byref.mapGoCache d).setTag K (st, h) t).1 k = st k)
    ∧ a < ((byref.GoCacheStore.mk byref.mapGoCache d).setTag K (st, h) t).2.next
    ∧ ((byref.GoCacheStore.mk byref.mapGoCache d).setTag K (st, h) t).2.maps a = h.maps a
    ∧ (∀ k, ((byref.GoCacheStore.mk byref.mapGoCache d).setTag K (st, h) t).1 k =
          some (byref.GoValue.mapRef a) → st k = some (byref.GoValue.mapRef a)) := by
  rw [byref_map_setTag]
  have hfresh : ∀ k,
      (st.put (tagKey t) (byref.GoValue.mapRef h.next)) k = some (byref.GoValue.mapRef a) →
      st k = some (byref.GoValue.mapRef a) := by
    intro k hk
    by_cases e : k = tagKey t
    · simp [KV.put, e] at hk
      omega
    · simpa [KV.put, e] using hk
  have hmake : (h.make.2.insert h.next K).maps a = h.maps a := by
    have : a ≠ h.next := by omega
    simp [byref.Heap.insert, byref.Heap.make, this]
  cases hv : st (tagKey t) with
  | none =>
    refine ⟨fun k hk => by simp [KV.put, hk], ?_, hmake, hfresh⟩
    show a < h.next + 1
    omega
  | some v =>
    cases v with
    | mapRef b =>
      simp only
      by_cases hm : K ∈ h.maps b
      · rw [if_pos hm]
        exact ⟨fun _ _ => rfl, ha, rfl, fun _ hk => hk⟩
      · rw [if_neg hm]
        have hba : b ≠ a := by
          intro e
          subst e
          exact hm (hin hv)
        refine ⟨fun k hk => by simp [KV.put, hk], ha, ?_, ?_⟩
        · simp [byref.Heap.insert, Ne.symm hba]
        · intro k hk
          by_cases e : k = tagKey t
          · simp [KV.put, e] at hk
            exact absurd hk hba
          · simpa [KV.put, e] using hk
    | nil =>
      refine ⟨fun k hk => by simp [KV.put, hk], ?_, hmake, hfresh⟩
      show a < h.next + 1
      omega
    | str s =>
      refine ⟨fun k hk => by simp [KV.put, hk], ?_, hmake, hfresh⟩
      show a < h.next + 1
      omega
    | bytes s =>
      refine ⟨fun k hk => by simp [KV.put, hk], ?_, hmake, hfresh⟩
      show a < h.next + 1
      omega
    | nilMap =>
      refine ⟨fun k hk => by simp [KV.put, hk], ?_, hmake, hfresh⟩
      show a < h.next + 1
      omega
    | other n =>
      refine ⟨fun k hk => by simp [KV.put, hk], ?_, hmake, hfresh⟩
      show a < h.next + 1
      omega

theorem byref_map_setTag_other (d : Options) (K t : String) (st : KV byref.GoValue)
    (h : byref.Heap) (k : String) (hk : k ≠ tagKey t) :
    ((byref.GoCacheStore.mk byref.mapGoCache d).setTag K (st, h) t).1 k = st k := by
  rw [byref_map_setTag]
  split
  · split
    · rfl
    · simp [KV.put, hk]
  · simp [KV.put, hk]

theorem byref_map_setTags_other (d : Options) (K : String) (tags : List String) :
    ∀ (st : KV byref.GoValue) (h : byref.Heap) (k : String), k ∉ tags.map tagKey →
      ((byref.GoCacheStore.mk byref.mapGoCache d).setTags (st, h) K tags).1 k = st k := by
  induction tags with
  | nil => intro st h k _; rfl
  | cons t ts ih =>
    intro st h k hk
    have h1 : k ≠ tagKey t := fun e => hk (by simp [e])
    have h2 : k ∉ ts.map tagKey := fun e => hk (by simp at e ⊢; exact Or.inr e)
    show ((byref.GoCacheStore.mk byref.mapGoCache d).setTags
      (((byref.GoCacheStore.mk byref.mapGoCache d).setTag K (st, h) t).1,
        ((byref.GoCacheStore.mk byref.mapGoCache d).setTag K (st, h) t).2) K ts).1 k = st k
    rw [ih _ _ k h2]
    exact byref_map_setTag_other d K t st h k h1

theorem byref_map_setTags_heap (d : Options) (K : String) (a : Nat) (tags : List String) :
    ∀ (st : KV byref.GoValue) (h : byref.Heap), a < h.next →
      (∀ t ∈ tags, st (tagKey t) = some (byref.GoValue.mapRef a) → K ∈ h.maps a) →
      ((byref.GoCacheStore.mk byref.mapGoCache d).setTags (st, h) K tags).2.maps a =
        h.maps a := by
  induction tags with
  | nil => intro st h _ _; rfl
  | cons t ts ih =>
    intro st h ha hin
    obtain ⟨_, h2, h3, h4⟩ := byref_map_setTag_step d K t a st h ha
      (hin t (List.mem_cons_self _ _))
    show ((byref.GoCacheStore.mk byref.mapGoCache d).setTags
      (((byref.GoCacheStore.mk byref.mapGoCache d).setTag K (st, h) t).1,
        ((byref.GoCacheStore.mk byref.mapGoCache d).setTag K (st, h) t).2) K ts).2.maps a = _
    rw [ih _ _ h2, h3]
    intro t2 ht2 hk
    rw [h3]
    exact hin t2 (List.mem_cons_of_mem _ ht2) (h4 _ hk)

/-- The entry written by `Set` on the key-value client, and the map
object it may refer to, after the tag step. -/
theorem byref_map_set_entry (d : Options) (sg : KV byref.GoValue) (h : byref.Heap)
    (K : String) (V : byref.GoValue) (opts : List StoreOption)
    (hK : K ∉ (resolveOptions d opts).Tags.map tagKey)
    (hV : ∀ a, V = byref.GoValue.mapRef a → a < h.next ∧
      ∀ t ∈ (resolveOptions d opts).Tags,
        sg (tagKey t) = some (byref.GoValue.mapRef a) → K ∈ h.maps a) :
    ((byref.GoCacheStore.mk byref.mapGoCache d).Set (sg, h) K V opts).2.1 K = some V
    ∧ byref.view ((byref.GoCacheStore.mk byref.mapGoCache d).Set (sg, h) K V opts).2.2 V =
      byref.view h V := by
  have hS : ∀ (st : KV byref.GoValue) (k : String) (x : byref.GoValue) (e : Duration),
      byref.mapGoCache.Set st k x e = st.put k x := fun _ _ _ _ => rfl
  simp only [byref.GoCacheStore.Set, Options.TagsValue, Options.ExpirationValue, hS]
  split
  · constructor
    · show ((byref.GoCacheStore.mk byref.mapGoCache d).setTags (sg.put K V, h) K _).1 K = _
      rw [byref_map_setTags_other d K _ _ _ K hK]
      simp [KV.put]
    · show byref.view ((byref.GoCacheStore.mk byref.mapGoCache d).setTags
        (sg.put K V, h) K _).2 V = _
      cases V with
      | mapRef a =>
        obtain ⟨ha, hin⟩ := hV a rfl
        show Value.keySet _ = Value.keySet _
        rw [byref_map_setTags_heap d K a _ _ _ ha]
        intro t ht hk
        have hne : tagKey t ≠ K := fun e => hK (e ▸ List.mem_map_of_mem tagKey ht)
        have : (sg.put K (byref.GoValue.mapRef a)) (tagKey t) = sg (tagKey t) := by
          simp [KV.put, hne]
        rw [this] at hk
        exact hin t ht hk
      | _ => rfl
  · exact ⟨by simp [KV.put], rfl⟩

theorem byref_map_get_some (d : Options) (st : KV byref.GoValue) (k : String)
    (v : byref.GoValue) (h : st k = some v) :
    ((byref.GoCacheStore.mk byref.mapGoCache d).Get st k).1 = (v, none) := by
  simp [byref.GoCacheStore.Get, byref.mapGoCache, h]

/-- C12, as the claim states it, fails: when `K` is the index key of a
resolved tag the tag step rewrites the entry just written under `K`.
On the memcache store `Set("gocache_tag_t", "v", Tags("t"))` leaves the
member list `v,gocache_tag_t` with the 720-hour expiration under `K`,
and `Get(K)` returns it instead of `v`.  On the go-cache store the tag
step inserts `K` into the map object it reads from the index entry:
when the value written under `k` is the map object held under
`gocache_tag_t`, listing `a`, the entry under `k` lists `a` and `k`
after `Set("k", m, Tags("t"))`. -/
theorem tag_step_may_rewrite_entry :
    ((MemcacheStore.mk mapMemcache {}).Set KV.empty "gocache_tag_t" "v" [Tags ["t"]]).2
        "gocache_tag_t" = some ⟨"gocache_tag_t", "v,gocache_tag_t", 2592000⟩
    ∧ ((MemcacheStore.mk mapMemcache {}).Get
        ((MemcacheStore.mk mapMemcache {}).Set KV.empty "gocache_tag_t" "v" [Tags ["t"]]).2
        "gocache_tag_t").1 = (Value.bytes "v,gocache_tag_t", none)
    ∧ ("k" : String) ∉ (resolveOptions {} [Tags ["t"]]).Tags.map tagKey
    ∧ ((byref.GoCacheStore.mk byref.mapGoCache {}).Set
        (KV.empty.put "gocache_tag_t" (byref.GoValue.mapRef 0),
          ⟨fun a => if a = 0 then ["a"] else [], 1⟩)
        "k" (byref.GoValue.mapRef 0) [Tags ["t"]]).2.1 "k" = some (byref.GoValue.mapRef 0)
    ∧ byref.view ⟨fun a => if a = 0 then ["a"] else [], 1⟩ (byref.GoValue.mapRef 0) =
      Value.keySet ["a"]
    ∧ byref.view ((byref.GoCacheStore.mk byref.mapGoCache {}).Set
        (KV.empty.put "gocache_tag_t" (byref.GoValue.mapRef 0),
          ⟨fun a => if a = 0 then ["a"] else [], 1⟩)
        "k" (byref.GoValue.mapRef 0) [Tags ["t"]]).2.2 (byref.GoValue.mapRef 0) =
      Value.keySet ["a", "k"] := by
  refine ⟨?_, ?_, ?_, ?_, ?_, ?_⟩ <;> decide

/-- C12, amended. Tag-index maintenance is best-effort: on every client
of the four stores, whatever the calls of the tag step return, `Set`
returns nil once the primary write of `K` has succeeded; the Redis tag
step makes no call other than `SAdd` and `Expire` on the keys
`gocache_tag_<t>` of the resolved tags; and over a key-value map the
entry written under `K` is still there, unaltered, after `Set` on the
go-cache, memcache and ristretto stores, provided `K` is not itself
the index key `gocache_tag_<t>` of a resolved tag and, on the go-cache
store, where maps are held by reference, the value is not the map
object held as the index of a resolved tag that does not list `K` yet:
there the entry under `K` holds the value written, and a reader of the
value sees after `Set` what it saw before. -/
theorem tag_step_is_best_effort {σ : Type} (d : Options) (st : σ) (K : String)
    (opts : List StoreOption) :
    ((∀ (c : GoCacheClientInterface σ) (V : Value),
        ((GoCacheStore.mk c d).Set st K V opts).1 = none)
      ∧ (∀ (c : byref.GoCacheClientInterface σ) (h : byref.Heap) (V : byref.GoValue),
        ((byref.GoCacheStore.mk c d).Set (st, h) K V opts).1 = none)
      ∧ (∀ (c : MemcacheClientInterface σ) (V : String),
        (c.Set st ⟨K, V, int32Seconds (resolveOptions d opts).Expiration⟩).1 = none →
        ((MemcacheStore.mk c d).Set st K V opts).1 = none)
      ∧ (∀ (c : RistrettoClientInterface σ) (V : Value),
        (c.SetWithTTL st K V (resolveOptions d opts).Cost
          (resolveOptions d opts).Expiration).1 = true →
        ((RistrettoStore.mk c d).Set st K V opts).1 = none)
      ∧ (∀ (c : RedisClientInterface σ) (V : Value),
        (c.Set st (defaultCtx (resolveOptions d opts)).Ctx K V
          (resolveOptions d opts).Expiration).1 = none →
        ((RedisStore.mk c d).Set st K V opts).2.1 = none))
    ∧ (∀ (c : RedisClientInterface σ) (log : List RedisCall) (tags : List String),
      ((RedisStore.mk c.recording d).setTags (st, log) K tags).2 =
        log ++ tags.flatMap fun t =>
          [RedisCall.SAdd d.Ctx (tagKey t) [K],
            RedisCall.Expire d.Ctx (tagKey t) (720 * Hour)])
    ∧ (K ∉ (resolveOptions d opts).Tags.map tagKey →
      (∀ (sg : KV byref.GoValue) (h : byref.Heap) (V : byref.GoValue),
        (∀ a, V = byref.GoValue.mapRef a → a < h.next ∧
          ∀ t ∈ (resolveOptions d opts).Tags,
            sg (tagKey t) = some (byref.GoValue.mapRef a) → K ∈ h.maps a) →
        ((byref.GoCacheStore.mk byref.mapGoCache d).Set (sg, h) K V opts).2.1 K = some V
        ∧ byref.view ((byref.GoCacheStore.mk byref.mapGoCache d).Set (sg, h) K V opts).2.2 V =
          byref.view h V)
      ∧ (∀ (sm : KV Item) (V : String),
        ((MemcacheStore.mk mapMemcache d).Set sm K V opts).2 K =
          some ⟨K, V, int32Seconds (resolveOptions d opts).Expiration⟩)
      ∧ (∀ (sr : KV Value) (V : Value),
        ((RistrettoStore.mk mapRistretto d).Set sr K V opts).2 K = some V)) := by
  refine ⟨⟨?_, ?_, ?_, ?_, ?_⟩, ?_, ?_⟩
  · intro c V
    simp only [GoCacheStore.Set]
    split <;> rfl
  · intro c h V
    simp only [byref.GoCacheStore.Set]
    split <;> rfl
  · intro c V h
    simp only [MemcacheStore.Set, MemcacheStore.setWith, Options.ExpirationValue, h]
    split <;> rfl
  · intro c V h
    simp only [RistrettoStore.Set, RistrettoStore.setWith, Options.ExpirationValue,
      Options.CostValue, h, Bool.not_true, Bool.false_eq_true, if_false]
    split <;> rfl
  · intro c V h
    by_cases hl : opts.length = 0 <;>
    simp only [RedisStore.Set, hl, if_true, if_false, Options.ExpirationValue,
      defaultCtx_Expiration, h] <;>
    split <;> rfl
  · intro c log tags
    exact redis_recording_setTags c d K tags st log
  · intro h
    exact ⟨fun sg hp V hV => byref_map_set_entry d sg hp K V opts h hV,
      fun sm V => memcache_map_set_entry d sm K V opts h,
      fun sr V => ristretto_map_set_entry d sr K V opts h⟩

theorem tag_step_is_best_effort_witness :
    ("k" : String) ∉ (resolveOptions {} [Tags ["t"]]).Tags.map tagKey
    ∧ ((MemcacheStore.mk mapMemcache {}).Set KV.empty "k" "v" [Tags ["t"]]).2 "k" =
      some ⟨"k", "v", 0⟩
    ∧ ((RedisStore.mk downRedis.recording {}).setTags ((), []) "k" ["t"]).2 =
      [RedisCall.SAdd none "gocache_tag_t" ["k"],
        RedisCall.Expire none "gocache_tag_t" (720 * Hour)]
    ∧ byref.view ((byref.GoCacheStore.mk byref.mapGoCache {}).Set
        (KV.empty.put "gocache_tag_t" (byref.GoValue.mapRef 1),
          ⟨fun a => if a = 0 then ["x"] else if a = 1 then ["a"] else [], 2⟩)
        "k" (byref.GoValue.mapRef 0) [Tags ["t"]]).2.2 (byref.GoValue.mapRef 0) =
      byref.view ⟨fun a => if a = 0 then ["x"] else if a = 1 then ["a"] else [], 2⟩
        (byref.GoValue.mapRef 0) :=
  ⟨by decide,
    ((tag_step_is_best_effort {} (KV.empty : KV Item) "k" [Tags ["t"]]).2.2 (by decide)).2.1
      KV.empty "v",
    (tag_step_is_best_effort {} () "k" [Tags ["t"]]).2.1 downRedis [] ["t"],
    (((tag_step_is_best_effort {} () "k" [Tags ["t"]]).2.2 (by decide)).1
      (KV.empty.put "gocache_tag_t" (byref.GoValue.mapRef 1))
      ⟨fun a => if a = 0 then ["x"] else if a = 1 then ["a"] else [], 2⟩
      (byref.GoValue.mapRef 0)
      (fun a e => by
        cases e
        refine ⟨by decide, ?_⟩
        intro t ht hk
        have ht' : t = "t" := by simpa [resolveOptions, applyOptions, Tags] using ht
        subst ht'
        exact absurd hk (by decide))).2⟩

theorem gocache_map_get_some (d : Options) (st : KV Value) (k : String) (v : Value)
    (h : st k = some v) : ((GoCacheStore.mk mapGoCache d).Get st k).1 = (v, none) := by
  simp [GoCacheStore.Get, mapGoCache, h]

theorem ristretto_map_get_some (d : Options) (st : KV Value) (k : String) (v : Value)
    (h : st k = some v) : ((RistrettoStore.mk mapRistretto d).Get st k).1 = (v, none) := by
  simp [RistrettoStore.Get, mapRistretto, h]

/-- C18, as the claim states it, fails: a store whose default record
carries `Tags("t")` runs the tag step on `Set(K,V)`, and for the key
`gocache_tag_t` the tag step replaces the value just written by the
member set, which is what `Get` then returns.  And when the value
written under `k` is the map object `m` held under `gocache_tag_t`,
listing `a`, the tag step inserts `k` into that object: `Get("k")`
returns `m`, which then lists `a` and `k`. -/
theorem round_trip_lost_on_tag_key :
    ((NewGoCache mapGoCache [Tags ["t"]]).Get
      ((NewGoCache mapGoCache [Tags ["t"]]).Set KV.empty "gocache_tag_t" (Value.other 1) []).2
      "gocache_tag_t").1 = (Value.keySet ["gocache_tag_t"], none)
    ∧ ("k" : String) ∉ (applyOptions {} [Tags ["t"]]).Tags.map tagKey
    ∧ ((byref.GoCacheStore.mk byref.mapGoCache (applyOptions {} [Tags ["t"]])).Get
        ((byref.GoCacheStore.mk byref.mapGoCache (applyOptions {} [Tags ["t"]])).Set
          (KV.empty.put "gocache_tag_t" (byref.GoValue.mapRef 0),
            ⟨fun a => if a = 0 then ["a"] else [], 1⟩)
          "k" (byref.GoValue.mapRef 0) []).2.1 "k").1 = (byref.GoValue.mapRef 0, none)
    ∧ byref.view ⟨fun a => if a = 0 then ["a"] else [], 1⟩ (byref.GoValue.mapRef 0) =
      Value.keySet ["a"]
    ∧ byref.view ((byref.GoCacheStore.mk byref.mapGoCache (applyOptions {} [Tags ["t"]])).Set
        (KV.empty.put "gocache_tag_t" (byref.GoValue.mapRef 0),
          ⟨fun a => if a = 0 then ["a"] else [], 1⟩)
        "k" (byref.GoValue.mapRef 0) []).2.2 (byref.GoValue.mapRef 0) =
      Value.keySet ["a", "k"] := by
  refine ⟨?_, ?_, ?_, ?_, ?_⟩ <;> decide

/-- C18, amended. `Set`/`Get` round trip over a key-value map: for
every default record `d`, key `K` that is not the index key
`gocache_tag_<t>` of a tag of `d`, and value `V`, `Set(K,V)` without
call-site options followed by `Get(K)` returns `V` with a nil error on
the go-cache, ristretto and memcache (byte values) stores; on the
go-cache store, where maps are held by reference, `V` is returned and
a reader of it sees what it saw before the `Set`, provided `V` is not
the map object held as the index of a tag of `d` that does not list `K`
yet. -/
theorem set_get_round_trip (d : Options) (K : String) (h : K ∉ d.Tags.map tagKey) :
    (∀ (sg : KV byref.GoValue) (hp : byref.Heap) (V : byref.GoValue),
      (∀ a, V = byref.GoValue.mapRef a → a < hp.next ∧
        ∀ t ∈ d.Tags, sg (tagKey t) = some (byref.GoValue.mapRef a) → K ∈ hp.maps a) →
      ((byref.GoCacheStore.mk byref.mapGoCache d).Get
        ((byref.GoCacheStore.mk byref.mapGoCache d).Set (sg, hp) K V []).2.1 K).1 = (V, none)
      ∧ byref.view ((byref.GoCacheStore.mk byref.mapGoCache d).Set (sg, hp) K V []).2.2 V =
        byref.view hp V)
    ∧ (∀ (sr : KV Value) (V : Value),
      ((RistrettoStore.mk mapRistretto d).Get
        ((RistrettoStore.mk mapRistretto d).Set sr K V []).2 K).1 = (V, none))
    ∧ (∀ (sm : KV Item) (V : String),
      ((MemcacheStore.mk mapMemcache d).Get
        ((MemcacheStore.mk mapMemcache d).Set sm K V []).2 K).1 = (Value.bytes V, none)) := by
  have h' : K ∉ (resolveOptions d []).Tags.map tagKey := h
  refine ⟨?_, ?_, ?_⟩
  · intro sg hp V hV
    have e := byref_map_set_entry d sg hp K V [] h' hV
    exact ⟨byref_map_get_some d _ K V e.1, e.2⟩
  · intro sr V
    exact ristretto_map_get_some d _ K V (ristretto_map_set_entry d sr K V [] h')
  · intro sm V
    have e := memcache_map_set_entry d sm K V [] h'
    rw [memcache_map_get, e]

theorem set_get_round_trip_witness :
    ("k" : String) ∉ (applyOptions {} [Tags ["t"], Expiration (6 * Second)]).Tags.map tagKey
    ∧ ((NewMemcache mapMemcache [Tags ["t"], Expiration (6 * Second)]).Get
        ((NewMemcache mapMemcache [Tags ["t"], Expiration (6 * Second)]).Set KV.empty "k" "v"
          []).2 "k").1 = (Value.bytes "v", none)
    ∧ ((byref.GoCacheStore.mk byref.mapGoCache
          (applyOptions {} [Tags ["t"], Expiration (6 * Second)])).Get
        ((byref.GoCacheStore.mk byref.mapGoCache
            (applyOptions {} [Tags ["t"], Expiration (6 * Second)])).Set
          (KV.empty.put "gocache_tag_t" (byref.GoValue.mapRef 1),
            ⟨fun a => if a = 0 then ["x"] else if a = 1 then ["a"] else [], 2⟩)
          "k" (byref.GoValue.mapRef 0) []).2.1 "k").1 = (byref.GoValue.mapRef 0, none)
    ∧ byref.view ((byref.GoCacheStore.mk byref.mapGoCache
          (applyOptions {} [Tags ["t"], Expiration (6 * Second)])).Set
        (KV.empty.put "gocache_tag_t" (byref.GoValue.mapRef 1),
          ⟨fun a => if a = 0 then ["x"] else if a = 1 then ["a"] else [], 2⟩)
        "k" (byref.GoValue.mapRef 0) []).2.2 (byref.GoValue.mapRef 0) =
      byref.view ⟨fun a => if a = 0 then ["x"] else if a = 1 then ["a"] else [], 2⟩
        (byref.GoValue.mapRef 0) :=
  ⟨by decide,
    (set_get_round_trip (applyOptions {} [Tags ["t"], Expiration (6 * Second)]) "k"
      (by decide)).2.2 KV.empty "v",
    (set_get_round_trip (applyOptions {} [Tags ["t"], Expiration (6 * Second)]) "k"
      (by decide)).1
      (KV.empty.put "gocache_tag_t" (byref.GoValue.mapRef 1))
      ⟨fun a => if a = 0 then ["x"] else if a = 1 then ["a"] else [], 2⟩
      (byref.GoValue.mapRef 0)
      (fun a e => by
        cases e
        refine ⟨by decide, ?_⟩
        intro t ht hk
        have ht' : t = "t" := by simpa [applyOptions, Tags, Expiration] using ht
        subst ht'
        exact absurd hk (by decide))⟩

/-! ## GetWithTTL -/

/-- C15, as the claim states it, fails on Redis: `GetWithTTL` issues a
second command, `TTL`, and returns its error; on a client whose `Get`
succeeds and whose `TTL` fails, `Get(K)` succeeds and `GetWithTTL(K)`
fails. -/
theorem redis_getWithTTL_fails_on_ttl_error :
    ((RedisStore.mk ttlDownRedis {}).Get () "k").1 = ("v", none)
    ∧ ((RedisStore.mk ttlDownRedis {}).GetWithTTL () "k").1 =
      (Value.nil, 0, some "i/o timeout") := by
  constructor <;> rfl

/-- C15, amended. `GetWithTTL` agrees with `Get`: on every memcache and
ristretto client, and on every go-cache client whose
`GetWithExpiration` reports the value and presence its `Get` reports,
`GetWithTTL(K)` returns the value `Get(K)` returns and the same error,
and on ristretto the duration zero; on every Redis client `GetWithTTL`
fails with the error of `Get` when `Get` fails, and when `Get` succeeds
it returns the string of `Get` with a nil error if the `TTL` command
succeeds and fails with the error of `TTL` otherwise. -/
theorem getWithTTL_agrees_with_get {σ : Type} (d : Options) (st : σ) (K : String) :
    (∀ (c : GoCacheClientInterface σ) (now : Int),
      (c.GetWithExpiration st K).1.1 = (c.Get st K).1.1 →
      (c.GetWithExpiration st K).1.2.2 = (c.Get st K).1.2 →
      ((GoCacheStore.mk c d).GetWithTTL now st K).1.1 = ((GoCacheStore.mk c d).Get st K).1.1
      ∧ ((GoCacheStore.mk c d).GetWithTTL now st K).1.2.2 =
        ((GoCacheStore.mk c d).Get st K).1.2)
    ∧ (∀ c : MemcacheClientInterface σ,
      ((MemcacheStore.mk c d).GetWithTTL st K).1.1 = ((MemcacheStore.mk c d).Get st K).1.1
      ∧ ((MemcacheStore.mk c d).GetWithTTL st K).1.2.2 = ((MemcacheStore.mk c d).Get st K).1.2
      ∧ ((MemcacheStore.mk c d).GetWithTTL st K).2 = ((MemcacheStore.mk c d).Get st K).2)
    ∧ (∀ c : RistrettoClientInterface σ,
      ((RistrettoStore.mk c d).GetWithTTL st K).1 =
        (((RistrettoStore.mk c d).Get st K).1.1, 0, ((RistrettoStore.mk c d).Get st K).1.2)
      ∧ ((RistrettoStore.mk c d).GetWithTTL st K).2 = ((RistrettoStore.mk c d).Get st K).2)
    ∧ (∀ c : RedisClientInterface σ,
      (∀ err : Error, ((RedisStore.mk c d).Get st K).1.2 = some err →
        ((RedisStore.mk c d).GetWithTTL st K).1.2.2 = some err)
      ∧ (((RedisStore.mk c d).Get st K).1.2 = none →
        (c.TTL ((RedisStore.mk c d).Get st K).2 d.Ctx K).1.2 = none →
        ((RedisStore.mk c d).GetWithTTL st K).1 =
          (Value.str ((RedisStore.mk c d).Get st K).1.1,
            (c.TTL ((RedisStore.mk c d).Get st K).2 d.Ctx K).1.1, none))
      ∧ (∀ err : Error, ((RedisStore.mk c d).Get st K).1.2 = none →
        (c.TTL ((RedisStore.mk c d).Get st K).2 d.Ctx K).1.2 = some err →
        ((RedisStore.mk c d).GetWithTTL st K).1 = (Value.nil, 0, some err))) := by
  refine ⟨?_, ?_, ?_, ?_⟩
  · intro c now h1 h2
    cases h : (c.Get st K).1.2 <;> simp [GoCacheStore.GetWithTTL, GoCacheStore.Get, h1, h2, h]
  · intro c
    cases h1 : (c.Get st K).1.2 <;> cases h2 : (c.Get st K).1.1 <;>
      simp [MemcacheStore.GetWithTTL, MemcacheStore.Get, h1, h2]
  · intro c
    exact ⟨rfl, rfl⟩
  · intro c
    refine ⟨?_, ?_, ?_⟩
    · intro err h
      have h' : (c.Get st d.Ctx K).1.2 = some err := h
      simp [RedisStore.GetWithTTL, h']
    · intro h ht
      have h' : (c.Get st d.Ctx K).1.2 = none := h
      have ht' : (c.TTL (c.Get st d.Ctx K).2 d.Ctx K).1.2 = none := ht
      simp [RedisStore.GetWithTTL, RedisStore.Get, h', ht']
    · intro err h ht
      have h' : (c.Get st d.Ctx K).1.2 = none := h
      have ht' : (c.TTL (c.Get st d.Ctx K).2 d.Ctx K).1.2 = some err := ht
      simp [RedisStore.GetWithTTL, h', ht']

theorem getWithTTL_agrees_with_get_witness :
    (mapGoCache.GetWithExpiration (KV.empty.put "k" (Value.other 1)) "k").1.1 =
      (mapGoCache.Get (KV.empty.put "k" (Value.other 1)) "k").1.1
    ∧ (mapGoCache.GetWithExpiration (KV.empty.put "k" (Value.other 1)) "k").1.2.2 =
      (mapGoCache.Get (KV.empty.put "k" (Value.other 1)) "k").1.2
    ∧ ((GoCacheStore.mk mapGoCache {}).GetWithTTL 0 (KV.empty.put "k" (Value.other 1)) "k").1.1 =
      ((GoCacheStore.mk mapGoCache {}).Get (KV.empty.put "k" (Value.other 1)) "k").1.1
    ∧ ((RedisStore.mk okRedis {}).Get () "k").1.2 = none
    ∧ ((RedisStore.mk okRedis {}).GetWithTTL () "k").1 = (Value.str "", 0, none) :=
  ⟨by decide, by decide,
    ((getWithTTL_agrees_with_get {} (KV.empty.put "k" (Value.other 1)) "k").1 mapGoCache 0
      (by decide) (by decide)).1,
    rfl,
    ((getWithTTL_agrees_with_get {} () "k").2.2.2 okRedis).2.1 rfl rfl⟩

/-! ## The expiration of tag index entries -/

theorem int32Seconds_720h : int32Seconds (720 * Hour) = 2592000 := by decide

/-- C17. Tag index entries carry the fixed 720-hour expiration under
the key `gocache_tag_<tag>`: on every client, for every tag `t` and key
`K`, one step of the Redis tag step issues `SAdd(gocache_tag_<t>, K)`
followed by `Expire(gocache_tag_<t>, 720h)` without reading the set
first; one step of the go-cache, memcache and ristretto tag step reads
`gocache_tag_<t>` and every write it makes is to `gocache_tag_<t>` with
expiration 720h, which is 2,592,000 seconds in the memcache item; and
the entry a memcache `Set(K,V,Expiration(e),Tags(t))` leaves under the
tag key has that expiration for every `e`. -/
theorem tag_index_expiration_720h {σ : Type} (d : Options) (st : σ) (K t : String) :
    (∀ (c : RedisClientInterface σ) (log : List RedisCall),
      (RedisStore.mk c.recording d).setTag K (st, log) t =
        ((c.Expire (c.SAdd st d.Ctx (tagKey t) [K]).2 d.Ctx (tagKey t) (720 * Hour)).2,
          log ++ [RedisCall.SAdd d.Ctx (tagKey t) [K],
            RedisCall.Expire d.Ctx (tagKey t) (720 * Hour)]))
    ∧ (∀ (c : GoCacheClientInterface σ) (log : List GoCacheCall),
      ((GoCacheStore.mk c.recording d).setTag K (st, log) t).2 =
        log ++ GoCacheCall.Get (tagKey t) ::
          (if K ∈ (if ((GoCacheStore.mk c d).Get st (tagKey t)).1.2 = none then
              asKeySet ((GoCacheStore.mk c d).Get st (tagKey t)).1.1 else []) then []
          else [GoCacheCall.Set (tagKey t)
            (Value.keySet
              ((if ((GoCacheStore.mk c d).Get st (tagKey t)).1.2 = none then
                asKeySet ((GoCacheStore.mk c d).Get st (tagKey t)).1.1 else []) ++ [K]))
            (720 * Hour)]))
    ∧ (∀ (c : MemcacheClientInterface σ) (log : List MemcacheCall),
      ((MemcacheStore.mk c.recording d).setTag K (st, log) t).2 =
        log ++ [MemcacheCall.Get (tagKey t),
          MemcacheCall.Set ⟨tagKey t,
            join (addMember
              (if ((MemcacheStore.mk c d).Get st (tagKey t)).1.2 = none then
                asMembers ((MemcacheStore.mk c d).Get st (tagKey t)).1.1 else []) K),
            2592000⟩])
    ∧ (∀ (c : RistrettoClientInterface σ) (log : List RistrettoCall),
      ((RistrettoStore.mk c.recording d).setTag K (st, log) t).2 =
        log ++ [RistrettoCall.Get (tagKey t),
          RistrettoCall.SetWithTTL (tagKey t)
            (Value.bytes (join (addMember
              (if ((RistrettoStore.mk c d).Get st (tagKey t)).1.2 = none then
                asMembers ((RistrettoStore.mk c d).Get st (tagKey t)).1.1 else []) K)))
            0 (720 * Hour)])
    ∧ (∀ (sm : KV Item) (V : String) (e : Duration),
      ((MemcacheStore.mk mapMemcache d).Set sm K V [Expiration e, Tags [t]]).2 (tagKey t) =
        some ⟨tagKey t,
          join (addMember (itemMembers (sm.put K ⟨K, V, int32Seconds e⟩) t) K), 2592000⟩) := by
  refine ⟨?_, ?_, ?_, ?_, ?_⟩
  · intro c log
    simp [RedisStore.setTag, RedisClientInterface.recording]
  · intro c log
    have hG : (GoCacheStore.mk c.recording d).Get (st, log) (tagKey t) =
        (((GoCacheStore.mk c d).Get st (tagKey t)).1,
          ((GoCacheStore.mk c d).Get st (tagKey t)).2, log ++ [GoCacheCall.Get (tagKey t)]) :=
      rfl
    simp only [GoCacheStore.setTag, hG]
    by_cases hm : K ∈ (if ((GoCacheStore.mk c d).Get st (tagKey t)).1.2 = none then
        asKeySet ((GoCacheStore.mk c d).Get st (tagKey t)).1.1 else [])
    · rw [if_pos hm, if_pos hm]
    · rw [if_neg hm, if_neg hm]
      simp [GoCacheClientInterface.recording]
  · intro c log
    have hG : (MemcacheStore.mk c.recording d).Get (st, log) (tagKey t) =
        (((MemcacheStore.mk c d).Get st (tagKey t)).1,
          ((MemcacheStore.mk c d).Get st (tagKey t)).2,
          log ++ [MemcacheCall.Get (tagKey t)]) := by
      simp only [MemcacheStore.Get, MemcacheClientInterface.recording]
      split <;> rfl
    simp only [MemcacheStore.setTag, hG, MemcacheStore.setWith, resolveOptions, applyOptions,
      Expiration, Options.ExpirationValue, Options.TagsValue, List.foldl, List.length_cons,
      List.length_nil, int32Seconds_720h]
    cases h : (c.Set ((MemcacheStore.mk c d).Get st (tagKey t)).2
      ⟨tagKey t, join (addMember
        (if ((MemcacheStore.mk c d).Get st (tagKey t)).1.2 = none then
          asMembers ((MemcacheStore.mk c d).Get st (tagKey t)).1.1 else []) K), 2592000⟩).1 <;>
      simp [MemcacheClientInterface.recording, h]
  · intro c log
    have hG : (RistrettoStore.mk c.recording d).Get (st, log) (tagKey t) =
        (((RistrettoStore.mk c d).Get st (tagKey t)).1,
          ((RistrettoStore.mk c d).Get st (tagKey t)).2,
          log ++ [RistrettoCall.Get (tagKey t)]) := rfl
    simp only [RistrettoStore.setTag, hG, RistrettoStore.setWith, resolveOptions, applyOptions,
      Expiration, Options.ExpirationValue, Options.TagsValue, Options.CostValue, List.foldl,
      List.length_cons, List.length_nil]
    cases h : (c.SetWithTTL ((RistrettoStore.mk c d).Get st (tagKey t)).2 (tagKey t)
      (Value.bytes (join (addMember
        (if ((RistrettoStore.mk c d).Get st (tagKey t)).1.2 = none then
          asMembers ((RistrettoStore.mk c d).Get st (tagKey t)).1.1 else []) K)))
      0 (720 * Hour)).1 <;>
      simp [RistrettoClientInterface.recording, h]
  · intro sm V e
    have hS : (MemcacheStore.mk mapMemcache d).Set sm K V [Expiration e, Tags [t]] =
        (none, (MemcacheStore.mk mapMemcache d).setTag K (sm.put K ⟨K, V, int32Seconds e⟩) t) :=
      rfl
    rw [hS]
    show (MemcacheStore.mk mapMemcache d).setTag K _ t (tagKey t) = _
    rw [memcache_map_setTag_entry, int32Seconds_720h]

/-! ## The statistics wrapper and key derivation -/

/-- C20. Key derivation is the identity on strings: for every string
`s` and every digest function, the cache key derived from `s` is `s`
itself, as for `"my-Key"`. -/
theorem getCacheKey_string (checksum : Value → String) (s : String) :
    cache.getCacheKey checksum (Value.str s) = s
    ∧ cache.getCacheKey checksum (Value.str "my-Key") = "my-Key" :=
  ⟨rfl, rfl⟩

theorem codec_getAll_hits {σ : Type} (keys : List String) (c : codec.Codec σ) (st : σ)
    (h : ∀ (st : σ) (key : String), (c.store.Get st key).1.2 = none) :
    (codec.getAll keys c st).1.store = c.store
    ∧ (codec.getAll keys c st).1.stats =
      { c.stats with Hits := c.stats.Hits + keys.length } := by
  induction keys generalizing c st with
  | nil => exact ⟨rfl, rfl⟩
  | cons k ks ih =>
    have hstep : (c.Get st k).2 =
        ({ c with stats := { c.stats with Hits := c.stats.Hits + 1 } }, (c.store.Get st k).2) := by
      simp [codec.Codec.Get, h st k]
    have e : codec.getAll (k :: ks) c st =
        codec.getAll ks { c with stats := { c.stats with Hits := c.stats.Hits + 1 } }
          (c.store.Get st k).2 := by
      simp only [codec.getAll, List.foldl_cons, hstep]
    rw [e]
    have ih' := ih { c with stats := { c.stats with Hits := c.stats.Hits + 1 } }
      (c.store.Get st k).2 h
    refine ⟨ih'.1, ?_⟩
    rw [ih'.2]
    simp only [List.length_cons]
    congr 1
    omega

/-- C19. Stats accounting of the instrumented wrapper: a freshly
constructed wrapper has its ten counters at zero; every call returns
the wrapped store's results and leaves the store's state as the
wrapped call leaves it, and it adds exactly 1 to the one counter of its
category and outcome (`Hits` or `Miss` for `Get` and `GetWithTTL`, the
success or error counter for `Set`, `Delete`, `Invalidate` and
`Clear`) and changes no other counter; hence `N` `Get`s on a store
whose `Get` succeeds leave `Hits = N` and every other counter 0. -/
theorem stats_accounting {σ : Type} (c : codec.Codec σ) (st : σ) :
    (∀ s : StoreInterface σ, (codec.New s).GetStats =
      ⟨0, 0, 0, 0, 0, 0, 0, 0, 0, 0⟩ ∧ (codec.New s).GetStore = s)
    ∧ (∀ key : String,
      (c.Get st key).1 = (c.store.Get st key).1
      ∧ (c.Get st key).2.2 = (c.store.Get st key).2
      ∧ (c.Get st key).2.1.store = c.store
      ∧ (c.Get st key).2.1.stats =
        (if (c.store.Get st key).1.2 = none then { c.stats with Hits := c.stats.Hits + 1 }
          else { c.stats with Miss := c.stats.Miss + 1 }))
    ∧ (∀ key : String,
      (c.GetWithTTL st key).1 = (c.store.GetWithTTL st key).1
      ∧ (c.GetWithTTL st key).2.2 = (c.store.GetWithTTL st key).2
      ∧ (c.GetWithTTL st key).2.1.store = c.store
      ∧ (c.GetWithTTL st key).2.1.stats =
        (if (c.store.GetWithTTL st key).1.2.2 = none then
            { c.stats with Hits := c.stats.Hits + 1 }
          else { c.stats with Miss := c.stats.Miss + 1 }))
    ∧ (∀ (key : String) (value : Value) (options : List StoreOption),
      (c.Set st key value options).1 = (c.store.Set st key value options).1
      ∧ (c.Set st key value options).2.2 = (c.store.Set st key value options).2
      ∧ (c.Set st key value options).2.1.store = c.store
      ∧ (c.Set st key value options).2.1.stats =
        (if (c.store.Set st key value options).1 = none then
            { c.stats with SetSuccess := c.stats.SetSuccess + 1 }
          else { c.stats with SetError := c.stats.SetError + 1 }))
    ∧ (∀ key : String,
      (c.Delete st key).1 = (c.store.Delete st key).1
      ∧ (c.Delete st key).2.2 = (c.store.Delete st key).2
      ∧ (c.Delete st key).2.1.store = c.store
      ∧ (c.Delete st key).2.1.stats =
        (if (c.store.Delete st key).1 = none then
            { c.stats with DeleteSuccess := c.stats.DeleteSuccess + 1 }
          else { c.stats with DeleteError := c.stats.DeleteError + 1 }))
    ∧ (∀ options : List InvalidateOption,
      (c.Invalidate st options).1 = (c.store.Invalidate st options).1
      ∧ (c.Invalidate st options).2.2 = (c.store.Invalidate st options).2
      ∧ (c.Invalidate st options).2.1.store = c.store
      ∧ (c.Invalidate st options).2.1.stats =
        (if (c.store.Invalidate st options).1 = none then
            { c.stats with InvalidateSuccess := c.stats.InvalidateSuccess + 1 }
          else { c.stats with InvalidateError := c.stats.InvalidateError + 1 }))
    ∧ ((c.Clear st).1 = (c.store.Clear st).1
      ∧ (c.Clear st).2.2 = (c.store.Clear st).2
      ∧ (c.Clear st).2.1.store = c.store
      ∧ (c.Clear st).2.1.stats =
        (if (c.store.Clear st).1 = none then
            { c.stats with ClearSuccess := c.stats.ClearSuccess + 1 }
          else { c.stats with ClearError := c.stats.ClearError + 1 }))
    ∧ (∀ (s : StoreInterface σ) (keys : List String),
      (∀ (st : σ) (key : String), (s.Get st key).1.2 = none) →
      (codec.getAll keys (codec.New s) st).1.GetStats =
        ⟨keys.length, 0, 0, 0, 0, 0, 0, 0, 0, 0⟩) := by
  refine ⟨fun _ => ⟨rfl, rfl⟩, ?_, ?_, ?_, ?_, ?_, ?_, ?_⟩
  · intro key
    refine ⟨rfl, rfl, ?_, ?_⟩ <;> simp only [codec.Codec.Get] <;> split <;> rfl
  · intro key
    refine ⟨rfl, rfl, ?_, ?_⟩ <;> simp only [codec.Codec.GetWithTTL] <;> split <;> rfl
  · intro key value options
    refine ⟨rfl, rfl, ?_, ?_⟩ <;> simp only [codec.Codec.Set] <;> split <;> rfl
  · intro key
    refine ⟨rfl, rfl, ?_, ?_⟩ <;> simp only [codec.Codec.Delete] <;> split <;> rfl
  · intro options
    refine ⟨rfl, rfl, ?_, ?_⟩ <;> simp only [codec.Codec.Invalidate] <;> split <;> rfl
  · refine ⟨rfl, rfl, ?_, ?_⟩ <;> simp only [codec.Codec.Clear] <;> split <;> rfl
  · intro s keys h
    have e := (codec_getAll_hits keys (codec.New s) st h).2
    show (codec.getAll keys (codec.New s) st).1.stats = _
    rw [e]
    show (⟨0 + keys.length, 0, 0, 0, 0, 0, 0, 0, 0, 0⟩ : codec.Stats) = _
    rw [Nat.zero_add]

theorem stats_accounting_witness :
    (∀ (st : Unit) (key : String), (okStore.Get st key).1.2 = none)
    ∧ (codec.getAll ["a", "b", "c"] (codec.New okStore) ()).1.GetStats =
      ⟨3, 0, 0, 0, 0, 0, 0, 0, 0, 0⟩
    ∧ ((codec.New downStore).Set () "my-key" (Value.str "v") [Expiration (5 * Second)]).1 =
      some "Unable to set value in store"
    ∧ ((codec.New downStore).Set () "my-key" (Value.str "v") [Expiration (5 * Second)]).2.1.stats =
      ⟨0, 0, 0, 1, 0, 0, 0, 0, 0, 0⟩ :=
  ⟨fun _ _ => rfl,
    (stats_accounting (codec.New okStore) ()).2.2.2.2.2.2.2 okStore ["a", "b", "c"]
      (fun _ _ => rfl),
    ((stats_accounting (codec.New downStore) ()).2.2.2.1 "my-key" (Value.str "v")
      [Expiration (5 * Second)]).1,
    ((stats_accounting (codec.New downStore) ()).2.2.2.1 "my-key" (Value.str "v")
      [Expiration (5 * Second)]).2.2.2⟩

/-! ## The member list written by the tag step -/

theorem splitChars_joinChars_append (ps : List (List Char)) (k : List Char)
    (h : ∀ p ∈ ps, ',' ∉ p) : splitChars (joinChars (ps ++ [k])) = ps ++ splitChars k := by
  induction ps with
  | nil => rfl
  | cons p qs ih =>
    have hp : ',' ∉ p := h p (List.mem_cons_self _ _)
    have hq : ∀ x ∈ qs, ',' ∉ x := fun x hx => h x (List.mem_cons_of_mem _ hx)
    cases qs with
    | nil =>
      show splitChars (p ++ ',' :: k) = _
      rw [splitChars_append_comma p k hp]
      rfl
    | cons q qs =>
      show splitChars (p ++ ',' :: joinChars ((q :: qs) ++ [k])) = _
      rw [splitChars_append_comma p _ hp, ih hq]
      rfl

theorem split_join_append (elems : List String) (k : String)
    (h : ∀ s ∈ elems, ',' ∉ s.data) : split (join (elems ++ [k])) = elems ++ split k := by
  unfold split join
  rw [List.map_append, List.map_singleton,
    splitChars_joinChars_append _ _ (by
      intro p hp
      rcases List.mem_map.mp hp with ⟨s, hs, rfl⟩
      exact h s hs)]
  rw [List.map_append, List.map_map]
  congr 1
  conv_rhs => rw [← List.map_id elems]
  apply List.map_congr_left
  intro s _
  rfl

theorem prefix_split_join_addMember (L : List String) (K : String)
    (h : ∀ s ∈ L, ',' ∉ s.data) : L <+: split (join (addMember L K)) := by
  unfold addMember
  split
  · rename_i hm
    rw [split_join L (List.ne_nil_of_mem hm) h]
  · rw [split_join_append L K h]
    exact List.prefix_append _ _

theorem memcache_recording_setTag {σ : Type} (c : MemcacheClientInterface σ) (d : Options)
    (K t : String) (st : σ) (log : List MemcacheCall) :
    ((MemcacheStore.mk c.recording d).setTag K (st, log) t).2 =
      log ++ [MemcacheCall.Get (tagKey t),
        MemcacheCall.Set ⟨tagKey t,
          join (addMember
            (if ((MemcacheStore.mk c d).Get st (tagKey t)).1.2 = none then
              asMembers ((MemcacheStore.mk c d).Get st (tagKey t)).1.1 else []) K),
          2592000⟩] := by
  have hG : (MemcacheStore.mk c.recording d).Get (st, log) (tagKey t) =
      (((MemcacheStore.mk c d).Get st (tagKey t)).1,
        ((MemcacheStore.mk c d).Get st (tagKey t)).2,
        log ++ [MemcacheCall.Get (tagKey t)]) := by
    simp only [MemcacheStore.Get, MemcacheClientInterface.recording]
    split <;> rfl
  simp only [MemcacheStore.setTag, hG, MemcacheStore.setWith, resolveOptions, applyOptions,
    Expiration, Options.ExpirationValue, Options.TagsValue, List.foldl, List.length_cons,
    List.length_nil, int32Seconds_720h]
  cases h : (c.Set ((MemcacheStore.mk c d).Get st (tagKey t)).2
    ⟨tagKey t, join (addMember
      (if ((MemcacheStore.mk c d).Get st (tagKey t)).1.2 = none then
        asMembers ((MemcacheStore.mk c d).Get st (tagKey t)).1.1 else []) K), 2592000⟩).1 <;>
    simp [MemcacheClientInterface.recording, h]

theorem ristretto_recording_setTag {σ : Type} (c : RistrettoClientInterface σ) (d : Options)
    (K t : String) (st : σ) (log : List RistrettoCall) :
    ((RistrettoStore.mk c.recording d).setTag K (st, log) t).2 =
      log ++ [RistrettoCall.Get (tagKey t),
        RistrettoCall.SetWithTTL (tagKey t)
          (Value.bytes (join (addMember
            (if ((RistrettoStore.mk c d).Get st (tagKey t)).1.2 = none then
              asMembers ((RistrettoStore.mk c d).Get st (tagKey t)).1.1 else []) K)))
          0 (720 * Hour)] := by
  have hG : (RistrettoStore.mk c.recording d).Get (st, log) (tagKey t) =
      (((RistrettoStore.mk c d).Get st (tagKey t)).1,
        ((RistrettoStore.mk c d).Get st (tagKey t)).2,
        log ++ [RistrettoCall.Get (tagKey t)]) := rfl
  simp only [RistrettoStore.setTag, hG, RistrettoStore.setWith, resolveOptions, applyOptions,
    Expiration, Options.ExpirationValue, Options.TagsValue, Options.CostValue, List.foldl,
    List.length_cons, List.length_nil]
  cases h : (c.SetWithTTL ((RistrettoStore.mk c d).Get st (tagKey t)).2 (tagKey t)
    (Value.bytes (join (addMember
      (if ((RistrettoStore.mk c d).Get st (tagKey t)).1.2 = none then
        asMembers ((RistrettoStore.mk c d).Get st (tagKey t)).1.1 else []) K)))
    0 (720 * Hour)).1 <;>
    simp [RistrettoClientInterface.recording, h]

/-- C24. The emulated tag add is skip-or-append: on every memcache and
ristretto client, when `K` is added under tag `t` and the read of
`gocache_tag_<t>` yields the member list `L` (the stored bytes split on
`','`, or the empty list when the read fails or, on ristretto, the
entry is not a byte slice), the one write of the step stores under
`gocache_tag_<t>` the list `L` joined with `','` when `K` is in `L`, and
`L` followed by `K` joined with `','` otherwise; `L` is a prefix of
the list written, and over a key-value map it is a prefix of the list
read back from the entry afterwards. -/
theorem emulated_tag_add_skip_or_append {σ : Type} (d : Options) (st : σ) (K t : String) :
    (∀ (c : MemcacheClientInterface σ) (log : List MemcacheCall) (L : List String),
      L = (if ((MemcacheStore.mk c d).Get st (tagKey t)).1.2 = none then
        asMembers ((MemcacheStore.mk c d).Get st (tagKey t)).1.1 else []) →
      ((MemcacheStore.mk c.recording d).setTag K (st, log) t).2 =
        log ++ [MemcacheCall.Get (tagKey t),
          MemcacheCall.Set ⟨tagKey t, join (if K ∈ L then L else L ++ [K]), 2592000⟩])
    ∧ (∀ (c : RistrettoClientInterface σ) (log : List RistrettoCall) (L : List String),
      L = (if ((RistrettoStore.mk c d).Get st (tagKey t)).1.2 = none then
        asMembers ((RistrettoStore.mk c d).Get st (tagKey t)).1.1 else []) →
      ((RistrettoStore.mk c.recording d).setTag K (st, log) t).2 =
        log ++ [RistrettoCall.Get (tagKey t),
          RistrettoCall.SetWithTTL (tagKey t)
            (Value.bytes (join (if K ∈ L then L else L ++ [K]))) 0 (720 * Hour)])
    ∧ (∀ L : List String, L <+: (if K ∈ L then L else L ++ [K]))
    ∧ (∀ sm : KV Item,
      itemMembers sm t <+: itemMembers ((MemcacheStore.mk mapMemcache d).setTag K sm t) t)
    ∧ (∀ sr : KV Value,
      bytesMembers sr t <+: bytesMembers ((RistrettoStore.mk mapRistretto d).setTag K sr t) t) := by
  refine ⟨?_, ?_, ?_, ?_, ?_⟩
  · intro c log L hL
    rw [memcache_recording_setTag, hL]
    rfl
  · intro c log L hL
    rw [ristretto_recording_setTag, hL]
    rfl
  · intro L
    split
    · exact List.prefix_refl L
    · exact List.prefix_append _ _
  · intro sm
    rw [memcache_map_setTag, itemMembers_put_eq]
    exact prefix_split_join_addMember _ K (no_comma_itemMembers sm t)
  · intro sr
    rw [ristretto_map_setTag, bytesMembers_put_eq]
    exact prefix_split_join_addMember _ K (no_comma_bytesMembers sr t)

theorem emulated_tag_add_skip_or_append_witness :
    ((MemcacheStore.mk mapMemcache.recording {}).setTag "my-key"
        (KV.empty.put "gocache_tag_tag1" ⟨"gocache_tag_tag1", "my-key,a-second-key", 0⟩, [])
        "tag1").2 =
      [MemcacheCall.Get "gocache_tag_tag1",
        MemcacheCall.Set ⟨"gocache_tag_tag1", "my-key,a-second-key", 2592000⟩]
    ∧ ((MemcacheStore.mk mapMemcache.recording {}).setTag "third"
        (KV.empty.put "gocache_tag_tag1" ⟨"gocache_tag_tag1", "my-key,a-second-key", 0⟩, [])
        "tag1").2 =
      [MemcacheCall.Get "gocache_tag_tag1",
        MemcacheCall.Set ⟨"gocache_tag_tag1", "my-key,a-second-key,third", 2592000⟩] :=
  ⟨(emulated_tag_add_skip_or_append {}
      (KV.empty.put "gocache_tag_tag1" (Item.mk "gocache_tag_tag1" "my-key,a-second-key" 0))
      "my-key" "tag1").1 mapMemcache [] ["my-key", "a-second-key"] (by decide),
    (emulated_tag_add_skip_or_append {}
      (KV.empty.put "gocache_tag_tag1" (Item.mk "gocache_tag_tag1" "my-key,a-second-key" 0))
      "third" "tag1").1 mapMemcache [] ["my-key", "a-second-key"] (by decide)⟩

/-- C25. The Redis tag step does not use the per-call context: on a
store built without a context, `Set("k","v",Ctx(c1),Tags("t"))` issues
the primary `Set` with the context `c1` and the `SAdd` and the `Expire`
of the tag step with the background context of the store's default
record. -/
theorem redis_tag_step_ignores_call_ctx :
    ((NewRedis okRedis.recording []).Set ((), []) "k" (Value.str "v")
        [Ctx (some (Context.named 1)), Tags ["t"]]).2.2.2 =
      [RedisCall.Set (some (Context.named 1)) "k" (Value.str "v") 0,
        RedisCall.SAdd (some Context.background) "gocache_tag_t" ["k"],
        RedisCall.Expire (some Context.background) "gocache_tag_t" (720 * Hour)] := by
  rfl

/-! ## The marshaler -/

/-- C21. `Marshaler.Set` delegation: for every `msgpack`, cache, key,
object and option list, when `Marshal` succeeds `Marshaler.Set` makes
exactly one call on the underlying cache, `Set` with the same key, the
serialized bytes and the same option list, and returns what that call
returns; when `Marshal` fails it returns the serialization error and
makes no call on the cache. -/
theorem marshaler_set_delegates {σ : Type} (mp : marshaler.Msgpack)
    (c : cache.CacheInterface σ) (ro : Value) (st : σ) (log : List cache.CacheCall)
    (key object : Value) (options : List StoreOption) :
    ((mp.Marshal object).2 = none →
      marshaler.Marshaler.Set mp ⟨c.recording, ro⟩ (st, log) key object options =
        ((c.Set st key (Value.bytes (mp.Marshal object).1) options).1,
          (c.Set st key (Value.bytes (mp.Marshal object).1) options).2,
          log ++ [cache.CacheCall.Set key (Value.bytes (mp.Marshal object).1) options]))
    ∧ (∀ err : Error, (mp.Marshal object).2 = some err →
      marshaler.Marshaler.Set mp ⟨c.recording, ro⟩ (st, log) key object options =
        (some err, st, log)) := by
  constructor
  · intro h
    simp only [marshaler.Marshaler.Set, h]
    rfl
  · intro err h
    simp only [marshaler.Marshaler.Set, h]

theorem marshaler_set_delegates_witness :
    (marshaler.plainMsgpack.Marshal (Value.str "test")).2 = none
    ∧ (marshaler.plainMsgpack.Marshal (Value.other 1)).2 = some "msgpack: unsupported value"
    ∧ marshaler.Marshaler.Set marshaler.plainMsgpack
        (marshaler.New cache.downCache.recording) ((), []) (Value.str "my-key")
        (Value.str "test") [Expiration (5 * Second)] =
      (some "An unexpected error occurred", (),
        [cache.CacheCall.Set (Value.str "my-key") (Value.bytes "test")
          [Expiration (5 * Second)]])
    ∧ marshaler.Marshaler.Set marshaler.plainMsgpack
        (marshaler.New cache.downCache.recording) ((), []) (Value.str "my-key")
        (Value.other 1) [Expiration (5 * Second)] =
      (some "msgpack: unsupported value", (), []) :=
  ⟨rfl, rfl,
    (marshaler_set_delegates marshaler.plainMsgpack cache.downCache Value.nil () []
      (Value.str "my-key") (Value.str "test") [Expiration (5 * Second)]).1 rfl,
    (marshaler_set_delegates marshaler.plainMsgpack cache.downCache Value.nil () []
      (Value.str "my-key") (Value.other 1) [Expiration (5 * Second)]).2
      "msgpack: unsupported value" rfl⟩

/-- C22. `Marshaler.Get` error handling: for every `msgpack`, cache and
key, when the underlying cache's `Get` fails `Marshaler.Get` returns
nil with that error, whatever `msgpack` is, and leaves the return
target as it was; when the cached value is a byte slice or a string
that `Unmarshal` rejects it returns nil with the decoding error; and
whenever it returns a non-nil value its error is nil, the cache's `Get`
succeeded and a decoding, if the cached value called for one,
succeeded. -/
theorem marshaler_get_errors {σ : Type} (mp : marshaler.Msgpack)
    (m : marshaler.Marshaler σ) (st : σ) (key : Value) :
    (∀ err : Error, (m.CacheInterface.Get st key).1.2 = some err →
      marshaler.Marshaler.Get mp m st key =
        ((Value.nil, some err), m, (m.CacheInterface.Get st key).2))
    ∧ (∀ (v : String) (err : Error), (m.CacheInterface.Get st key).1.2 = none →
      ((m.CacheInterface.Get st key).1.1 = Value.bytes v ∨
        (m.CacheInterface.Get st key).1.1 = Value.str v) →
      (mp.Unmarshal v m.returnObj).1 = some err →
      (marshaler.Marshaler.Get mp m st key).1 = (Value.nil, some err))
    ∧ ((marshaler.Marshaler.Get mp m st key).1.1 ≠ Value.nil →
      (marshaler.Marshaler.Get mp m st key).1.2 = none
      ∧ (m.CacheInterface.Get st key).1.2 = none
      ∧ (∀ v : String,
        ((m.CacheInterface.Get st key).1.1 = Value.bytes v ∨
          (m.CacheInterface.Get st key).1.1 = Value.str v) →
        (mp.Unmarshal v m.returnObj).1 = none)) := by
  refine ⟨?_, ?_, ?_⟩
  · intro err h
    simp only [marshaler.Marshaler.Get, h]
  · intro v err h hv hu
    rcases hv with hv | hv <;> simp only [marshaler.Marshaler.Get, h, hv, hu]
  · intro hne
    cases h : (m.CacheInterface.Get st key).1.2 with
    | some err =>
      exfalso
      apply hne
      simp only [marshaler.Marshaler.Get, h]
    | none =>
      refine ⟨?_, rfl, ?_⟩
      · cases hu : (marshaler.Marshaler.Get mp m st key).1.2 with
        | none => rfl
        | some e =>
          exfalso
          apply hne
          simp only [marshaler.Marshaler.Get, h] at hu ⊢
          split at hu <;> simp_all
      · intro v hv
        cases hu : (mp.Unmarshal v m.returnObj).1 with
        | none => rfl
        | some e =>
          exfalso
          apply hne
          rcases hv with hv | hv <;> simp only [marshaler.Marshaler.Get, h, hv, hu]

theorem marshaler_get_errors_witness :
    (cache.downCache.Get () (Value.str "my-key")).1.2 = some "Unable to find item in store"
    ∧ marshaler.Marshaler.Get marshaler.plainMsgpack
        ((marshaler.New cache.downCache).ReturnObj (Value.other 0)) () (Value.str "my-key") =
      ((Value.nil, some "Unable to find item in store"),
        (marshaler.New cache.downCache).ReturnObj (Value.other 0), ())
    ∧ (marshaler.Marshaler.Get marshaler.plainMsgpack
        ((marshaler.New cache.cellCache).ReturnObj (Value.other 0)) (Value.str "")
        (Value.str "my-key")).1 = (Value.nil, some "EOF") :=
  ⟨rfl,
    (marshaler_get_errors marshaler.plainMsgpack
      ((marshaler.New cache.downCache).ReturnObj (Value.other 0)) () (Value.str "my-key")).1
      "Unable to find item in store" rfl,
    (marshaler_get_errors marshaler.plainMsgpack
      ((marshaler.New cache.cellCache).ReturnObj (Value.other 0)) (Value.str "")
      (Value.str "my-key")).2.1 "" "EOF" rfl (Or.inr rfl) (by decide)⟩

/-- C23, as the claim states it, fails: when the cache holds an object
that is neither a byte slice nor a string, `Marshaler.Get` does not
return that object but the object of its return target, which is nil
for a marshaler built by `New` and whatever `ReturnObj` was given
otherwise. -/
theorem marshaler_get_drops_native_object :
    (marshaler.Marshaler.Get marshaler.plainMsgpack (marshaler.New cache.cellCache)
        (Value.other 7) (Value.str "my-key")).1 = (Value.nil, none)
    ∧ (marshaler.Marshaler.Get marshaler.plainMsgpack
        ((marshaler.New cache.cellCache).ReturnObj (Value.other 0)) (Value.other 7)
        (Value.str "my-key")).1 = (Value.other 0, none) := by
  constructor <;> rfl

/-- C23, amended. For every key whose cached value is neither a byte
slice nor a string, `Marshaler.Get` makes no decoding and returns, with
a nil error, the object of the marshaler's return target (nil unless
set by `ReturnObj`), which it leaves as it was; the object the cache
returned is not part of the result. -/
theorem marshaler_get_native_object {σ : Type} (mp : marshaler.Msgpack)
    (m : marshaler.Marshaler σ) (st : σ) (key : Value)
    (hget : (m.CacheInterface.Get st key).1.2 = none)
    (hb : ∀ v : String, (m.CacheInterface.Get st key).1.1 ≠ Value.bytes v)
    (hs : ∀ v : String, (m.CacheInterface.Get st key).1.1 ≠ Value.str v) :
    marshaler.Marshaler.Get mp m st key =
      ((m.returnObj, none), m, (m.CacheInterface.Get st key).2) := by
  cases hv : (m.CacheInterface.Get st key).1.1 with
  | bytes v => exact absurd hv (hb v)
  | str v => exact absurd hv (hs v)
  | nil => simp only [marshaler.Marshaler.Get, hget, hv]
  | keySet ks => simp only [marshaler.Marshaler.Get, hget, hv]
  | other n => simp only [marshaler.Marshaler.Get, hget, hv]

theorem marshaler_get_native_object_witness :
    (cache.cellCache.Get (Value.other 7) (Value.str "my-key")).1.2 = none
    ∧ marshaler.Marshaler.Get marshaler.plainMsgpack
        ((marshaler.New cache.cellCache).ReturnObj (Value.other 0)) (Value.other 7)
        (Value.str "my-key") =
      ((Value.other 0, none), (marshaler.New cache.cellCache).ReturnObj (Value.other 0),
        Value.other 7) :=
  ⟨rfl,
    marshaler_get_native_object marshaler.plainMsgpack
      ((marshaler.New cache.cellCache).ReturnObj (Value.other 0)) (Value.other 7)
      (Value.str "my-key") rfl (fun _ h => by cases h) (fun _ h => by cases h)⟩

/-! ## What invalidation touches -/

theorem mapInvalidation_frame {α : Type} (members : α → List String) (tags : List String)
    (st : KV α) (k : String) :
    mapInvalidation members tags st k = st k
    ∨ (mapInvalidation members tags st k = none
      ∧ ∃ t ∈ tags, ∃ v, st (tagKey t) = some v ∧ k ∈ members v) := by
  induction tags generalizing st with
  | nil => exact Or.inl rfl
  | cons t rest ih =>
    cases h : st (tagKey t) with
    | none =>
      left
      simp only [mapInvalidation, h]
    | some v =>
      have e : mapInvalidation members (t :: rest) st =
          mapInvalidation members rest ((members v).foldl KV.del st) := by
        simp only [mapInvalidation, h]
      rw [e]
      have hst1 : ∀ x, ((members v).foldl KV.del st) x = if x ∈ members v then none else st x :=
        fun x => kv_foldl_del _ st x
      rcases ih ((members v).foldl KV.del st) with h1 | ⟨h1, t', ht', v', hv', hk⟩
      · rw [h1, hst1]
        by_cases hm : k ∈ members v
        · right
          rw [if_pos hm]
          exact ⟨rfl, t, List.mem_cons_self _ _, v, h, hm⟩
        · left
          rw [if_neg hm]
      · right
        refine ⟨h1, t', List.mem_cons_of_mem _ ht', v', ?_, hk⟩
        rw [hst1] at hv'
        split at hv'
        · cases hv'
        · exact hv'

theorem gocache_map_invalidateTags (d : Options) (tags : List String) (st : KV Value) :
    (GoCacheStore.mk mapGoCache d).invalidateTags tags st =
      (none, mapInvalidation asKeySet tags st) := by
  induction tags generalizing st with
  | nil => rfl
  | cons t rest ih =>
    cases h : st (tagKey t) <;>
    simp only [GoCacheStore.invalidateTags, mapInvalidation, GoCacheStore.Get, mapGoCache,
      GoCacheStore.Delete]
    all_goals simp only [h]
    · simp
    · simp only [if_true, ne_eq, not_true_eq_false, if_false]
      exact ih _

theorem memcache_map_invalidateTags (d : Options) (tags : List String) (st : KV Item) :
    (MemcacheStore.mk mapMemcache d).invalidateTags tags st =
      (none, mapInvalidation (fun item : Item => split item.Value) tags st) := by
  induction tags generalizing st with
  | nil => rfl
  | cons t rest ih =>
    cases h : st (tagKey t) <;>
    simp only [MemcacheStore.invalidateTags, mapInvalidation, MemcacheStore.Get, mapMemcache,
      MemcacheStore.Delete]
    all_goals simp only [h]
    · simp
    · simp only [ne_eq, not_true_eq_false, if_false, asMembers]
      exact ih _

theorem ristretto_map_invalidateTags (d : Options) (tags : List String) (st : KV Value) :
    (RistrettoStore.mk mapRistretto d).invalidateTags tags st =
      (none, mapInvalidation asMembers tags st) := by
  induction tags generalizing st with
  | nil => rfl
  | cons t rest ih =>
    cases h : st (tagKey t) <;>
    simp only [RistrettoStore.invalidateTags, mapInvalidation, RistrettoStore.Get,
      mapRistretto, RistrettoStore.Delete]
    all_goals simp only [h]
    · simp
    · simp only [if_true, ne_eq, not_true_eq_false, if_false]
      exact ih _

theorem gocache_Invalidate_eq {σ : Type} (s : GoCacheStore σ) (st : σ)
    (tags : List String) : s.Invalidate st ⟨tags⟩ = s.invalidateTags tags st := by
  cases tags <;> simp [GoCacheStore.Invalidate, InvalidateOptions.TagsValue,
    GoCacheStore.invalidateTags]

theorem ristretto_Invalidate_eq {σ : Type} (s : RistrettoStore σ) (st : σ)
    (tags : List String) : s.Invalidate st ⟨tags⟩ = s.invalidateTags tags st := by
  cases tags <;> simp [RistrettoStore.Invalidate, InvalidateOptions.TagsValue,
    RistrettoStore.invalidateTags]

theorem nativeSetInvalidation_calls {σ : Type} (c : RedisClientInterface σ)
    (ctx : Option Context) (tags : List String) (st : σ) :
    ∀ call ∈ (nativeSetInvalidation c ctx tags st).1,
      (∃ t ∈ tags, call = RedisCall.SMembers ctx (tagKey t))
      ∨ (∃ t ∈ tags, call = RedisCall.Del ctx [tagKey t])
      ∨ (∃ t ∈ tags, ∃ st' : σ, (c.SMembers st' ctx (tagKey t)).1.2 = none
        ∧ ∃ k ∈ (c.SMembers st' ctx (tagKey t)).1.1, call = RedisCall.Del ctx [k]) := by
  induction tags generalizing st with
  | nil =>
    intro call h
    simp [nativeSetInvalidation] at h
  | cons t rest ih =>
    intro call h
    have lift : ((∃ t' ∈ rest, call = RedisCall.SMembers ctx (tagKey t'))
        ∨ (∃ t' ∈ rest, call = RedisCall.Del ctx [tagKey t'])
        ∨ (∃ t' ∈ rest, ∃ st' : σ, (c.SMembers st' ctx (tagKey t')).1.2 = none
          ∧ ∃ k ∈ (c.SMembers st' ctx (tagKey t')).1.1, call = RedisCall.Del ctx [k])) →
        ((∃ t' ∈ t :: rest, call = RedisCall.SMembers ctx (tagKey t'))
        ∨ (∃ t' ∈ t :: rest, call = RedisCall.Del ctx [tagKey t'])
        ∨ (∃ t' ∈ t :: rest, ∃ st' : σ, (c.SMembers st' ctx (tagKey t')).1.2 = none
          ∧ ∃ k ∈ (c.SMembers st' ctx (tagKey t')).1.1, call = RedisCall.Del ctx [k])) := by
      rintro (⟨t', ht', e⟩ | ⟨t', ht', e⟩ | ⟨t', ht', x⟩)
      · exact Or.inl ⟨t', List.mem_cons_of_mem _ ht', e⟩
      · exact Or.inr (Or.inl ⟨t', List.mem_cons_of_mem _ ht', e⟩)
      · exact Or.inr (Or.inr ⟨t', List.mem_cons_of_mem _ ht', x⟩)
    rw [nativeSetInvalidation] at h
    cases hs : (c.SMembers st ctx (tagKey t)).1.2 with
    | some err =>
      simp only [hs, List.mem_cons] at h
      rcases h with h | h
      · exact Or.inl ⟨t, List.mem_cons_self _ _, h⟩
      · exact lift (ih _ call h)
    | none =>
      simp only [hs] at h
      rcases List.mem_cons.mp h with h | h
      · exact Or.inl ⟨t, List.mem_cons_self _ _, h⟩
      · rcases List.mem_append.mp h with h | h
        · rcases List.mem_map.mp h with ⟨k, hk, e⟩
          rcases List.mem_append.mp hk with hk | hk
          · exact Or.inr (Or.inr ⟨t, List.mem_cons_self _ _, st, hs, k, hk, e.symm⟩)
          · rw [List.mem_singleton.mp hk] at e
            exact Or.inr (Or.inl ⟨t, List.mem_cons_self _ _, e.symm⟩)
        · exact lift (ih _ call h)

theorem gocache_recording_deletes {σ : Type} (c : GoCacheClientInterface σ) (d : Options)
    (keys : List String) (st : σ) (log : List GoCacheCall) :
    keys.foldl (fun st k => ((GoCacheStore.mk c.recording d).Delete st k).2) (st, log) =
      (keys.foldl (fun st k => c.Delete st k) st, log ++ keys.map GoCacheCall.Delete) := by
  induction keys generalizing st log with
  | nil => simp
  | cons k ks ih =>
    simp only [List.foldl_cons, List.map_cons]
    rw [show ((GoCacheStore.mk c.recording d).Delete (st, log) k).2 =
      (c.Delete st k, log ++ [GoCacheCall.Delete k]) from rfl, ih]
    simp

theorem ristretto_recording_deletes {σ : Type} (c : RistrettoClientInterface σ) (d : Options)
    (keys : List String) (st : σ) (log : List RistrettoCall) :
    keys.foldl (fun st k => ((RistrettoStore.mk c.recording d).Delete st k).2) (st, log) =
      (keys.foldl (fun st k => c.Del st k) st, log ++ keys.map RistrettoCall.Del) := by
  induction keys generalizing st log with
  | nil => simp
  | cons k ks ih =>
    simp only [List.foldl_cons, List.map_cons]
    rw [show ((RistrettoStore.mk c.recording d).Delete (st, log) k).2 =
      (c.Del st k, log ++ [RistrettoCall.Del k]) from rfl, ih]
    simp

theorem gocache_recording_invalidate_calls {σ : Type} (c : GoCacheClientInterface σ)
    (d : Options) (tags : List String) (st : σ) (log : List GoCacheCall) :
    ∃ extra, ((GoCacheStore.mk c.recording d).invalidateTags tags (st, log)).2.2 = log ++ extra
      ∧ ∀ call ∈ extra,
        (∃ k, call = GoCacheCall.Get k) ∨ (∃ k, call = GoCacheCall.Delete k) := by
  induction tags generalizing st log with
  | nil => exact ⟨[], by simp [GoCacheStore.invalidateTags], by simp⟩
  | cons t rest ih =>
    have hG : (GoCacheStore.mk c.recording d).Get (st, log) (tagKey t) =
        (((GoCacheStore.mk c d).Get st (tagKey t)).1,
          ((GoCacheStore.mk c d).Get st (tagKey t)).2, log ++ [GoCacheCall.Get (tagKey t)]) :=
      rfl
    rw [GoCacheStore.invalidateTags]
    simp only [hG]
    by_cases he : ((GoCacheStore.mk c d).Get st (tagKey t)).1.2 = none
    · simp only [he, ne_eq, not_true_eq_false, if_false]
      rw [gocache_recording_deletes]
      rcases ih (List.foldl (fun st k => c.Delete st k)
        ((GoCacheStore.mk c d).Get st (tagKey t)).2
        (asKeySet ((GoCacheStore.mk c d).Get st (tagKey t)).1.1))
        (log ++ [GoCacheCall.Get (tagKey t)] ++
          (asKeySet ((GoCacheStore.mk c d).Get st (tagKey t)).1.1).map GoCacheCall.Delete)
        with ⟨extra, h1, h2⟩
      refine ⟨[GoCacheCall.Get (tagKey t)] ++
        (asKeySet ((GoCacheStore.mk c d).Get st (tagKey t)).1.1).map GoCacheCall.Delete ++ extra,
        ?_, ?_⟩
      · rw [h1]
        simp
      · intro call hc
        rcases List.mem_append.mp hc with hc | hc
        · rcases List.mem_append.mp hc with hc | hc
          · exact Or.inl ⟨tagKey t, List.mem_singleton.mp hc⟩
          · rcases List.mem_map.mp hc with ⟨k, _, e⟩
            exact Or.inr ⟨k, e.symm⟩
        · exact h2 call hc
    · simp only [ne_eq, he, not_false_eq_true, if_true]
      exact ⟨[GoCacheCall.Get (tagKey t)], rfl,
        fun call hc => Or.inl ⟨tagKey t, List.mem_singleton.mp hc⟩⟩

theorem memcache_recording_invalidate_calls {σ : Type} (c : MemcacheClientInterface σ)
    (d : Options) (tags : List String) (st : σ) (log : List MemcacheCall) :
    ∃ extra, ((MemcacheStore.mk c.recording d).invalidateTags tags (st, log)).2.2 = log ++ extra
      ∧ ∀ call ∈ extra,
        (∃ k, call = MemcacheCall.Get k) ∨ (∃ k, call = MemcacheCall.Delete k) := by
  induction tags generalizing st log with
  | nil => exact ⟨[], by simp [MemcacheStore.invalidateTags], by simp⟩
  | cons t rest ih =>
    have hG : (MemcacheStore.mk c.recording d).Get (st, log) (tagKey t) =
        (((MemcacheStore.mk c d).Get st (tagKey t)).1,
          ((MemcacheStore.mk c d).Get st (tagKey t)).2,
          log ++ [MemcacheCall.Get (tagKey t)]) := by
      simp only [MemcacheStore.Get, MemcacheClientInterface.recording]
      split <;> rfl
    rw [MemcacheStore.invalidateTags]
    simp only [hG]
    by_cases he : ((MemcacheStore.mk c d).Get st (tagKey t)).1.2 = none
    · simp only [he, ne_eq, not_true_eq_false, if_false]
      rw [memcache_recording_deletes]
      rcases ih (List.foldl (fun st k => (c.Delete st k).2)
        ((MemcacheStore.mk c d).Get st (tagKey t)).2
        (asMembers ((MemcacheStore.mk c d).Get st (tagKey t)).1.1))
        (log ++ [MemcacheCall.Get (tagKey t)] ++
          (asMembers ((MemcacheStore.mk c d).Get st (tagKey t)).1.1).map MemcacheCall.Delete)
        with ⟨extra, h1, h2⟩
      refine ⟨[MemcacheCall.Get (tagKey t)] ++
        (asMembers ((MemcacheStore.mk c d).Get st (tagKey t)).1.1).map MemcacheCall.Delete ++
          extra, ?_, ?_⟩
      · rw [h1]
        simp
      · intro call hc
        rcases List.mem_append.mp hc with hc | hc
        · rcases List.mem_append.mp hc with hc | hc
          · exact Or.inl ⟨tagKey t, List.mem_singleton.mp hc⟩
          · rcases List.mem_map.mp hc with ⟨k, _, e⟩
            exact Or.inr ⟨k, e.symm⟩
        · exact h2 call hc
    · simp only [ne_eq, he, not_false_eq_true, if_true]
      exact ⟨[MemcacheCall.Get (tagKey t)], rfl,
        fun call hc => Or.inl ⟨tagKey t, List.mem_singleton.mp hc⟩⟩

theorem ristretto_recording_invalidate_calls {σ : Type} (c : RistrettoClientInterface σ)
    (d : Options) (tags : List String) (st : σ) (log : List RistrettoCall) :
    ∃ extra, ((RistrettoStore.mk c.recording d).invalidateTags tags (st, log)).2.2 = log ++ extra
      ∧ ∀ call ∈ extra,
        (∃ k, call = RistrettoCall.Get k) ∨ (∃ k, call = RistrettoCall.Del k) := by
  induction tags generalizing st log with
  | nil => exact ⟨[], by simp [RistrettoStore.invalidateTags], by simp⟩
  | cons t rest ih =>
    have hG : (RistrettoStore.mk c.recording d).Get (st, log) (tagKey t) =
        (((RistrettoStore.mk c d).Get st (tagKey t)).1,
          ((RistrettoStore.mk c d).Get st (tagKey t)).2,
          log ++ [RistrettoCall.Get (tagKey t)]) := rfl
    rw [RistrettoStore.invalidateTags]
    simp only [hG]
    by_cases he : ((RistrettoStore.mk c d).Get st (tagKey t)).1.2 = none
    · simp only [he, ne_eq, not_true_eq_false, if_false]
      rw [ristretto_recording_deletes]
      rcases ih (List.foldl (fun st k => c.Del st k)
        ((RistrettoStore.mk c d).Get st (tagKey t)).2
        (asMembers ((RistrettoStore.mk c d).Get st (tagKey t)).1.1))
        (log ++ [RistrettoCall.Get (tagKey t)] ++
          (asMembers ((RistrettoStore.mk c d).Get st (tagKey t)).1.1).map RistrettoCall.Del)
        with ⟨extra, h1, h2⟩
      refine ⟨[RistrettoCall.Get (tagKey t)] ++
        (asMembers ((RistrettoStore.mk c d).Get st (tagKey t)).1.1).map RistrettoCall.Del ++
          extra, ?_, ?_⟩
      · rw [h1]
        simp
      · intro call hc
        rcases List.mem_append.mp hc with hc | hc
        · rcases List.mem_append.mp hc with hc | hc
          · exact Or.inl ⟨tagKey t, List.mem_singleton.mp hc⟩
          · rcases List.mem_map.mp hc with ⟨k, _, e⟩
            exact Or.inr ⟨k, e.symm⟩
        · exact h2 call hc
    · simp only [ne_eq, he, not_false_eq_true, if_true]
      exact ⟨[RistrettoCall.Get (tagKey t)], rfl,
        fun call hc => Or.inl ⟨tagKey t, List.mem_singleton.mp hc⟩⟩

/-- C28. `Invalidate` deletes nothing but indexed members.  On every
client of the go-cache, memcache and ristretto stores the calls it
makes are reads and deletes only, and on every Redis client they are
`SMembers` on a tag key of the list, `Del` of a member returned by
such an `SMembers`, or `Del` of such a tag key.  Over a key-value map,
for every backend content and tag list, every entry is after
`Invalidate` either what it was before, or removed and then its key
belongs to the member list stored under `gocache_tag_<t>` for a tag `t`
of the list. -/
theorem invalidate_deletes_only_members {σ : Type} (d : Options) (tags : List String)
    (st : σ) :
    ((∀ (c : GoCacheClientInterface σ) (log : List GoCacheCall),
        ∃ extra, ((GoCacheStore.mk c.recording d).Invalidate (st, log) ⟨tags⟩).2.2 = log ++ extra
          ∧ ∀ call ∈ extra,
            (∃ k, call = GoCacheCall.Get k) ∨ (∃ k, call = GoCacheCall.Delete k))
      ∧ (∀ (c : MemcacheClientInterface σ) (log : List MemcacheCall),
        ∃ extra,
          ((MemcacheStore.mk c.recording d).Invalidate (st, log) ⟨tags⟩).2.2 = log ++ extra
          ∧ ∀ call ∈ extra,
            (∃ k, call = MemcacheCall.Get k) ∨ (∃ k, call = MemcacheCall.Delete k))
      ∧ (∀ (c : RistrettoClientInterface σ) (log : List RistrettoCall),
        ∃ extra,
          ((RistrettoStore.mk c.recording d).Invalidate (st, log) ⟨tags⟩).2.2 = log ++ extra
          ∧ ∀ call ∈ extra,
            (∃ k, call = RistrettoCall.Get k) ∨ (∃ k, call = RistrettoCall.Del k))
      ∧ (∀ (c : RedisClientInterface σ) (log : List RedisCall),
        ∃ extra,
          ((RedisStore.mk c.recording d).Invalidate (st, log) ⟨tags⟩).2.2 = log ++ extra
          ∧ ∀ call ∈ extra,
            (∃ t ∈ tags, call = RedisCall.SMembers d.Ctx (tagKey t))
            ∨ (∃ t ∈ tags, call = RedisCall.Del d.Ctx [tagKey t])
            ∨ (∃ t ∈ tags, ∃ st' : σ, (c.SMembers st' d.Ctx (tagKey t)).1.2 = none
              ∧ ∃ k ∈ (c.SMembers st' d.Ctx (tagKey t)).1.1, call = RedisCall.Del d.Ctx [k])))
    ∧ (∀ (sg : KV Value) (k : String),
      ((GoCacheStore.mk mapGoCache d).Invalidate sg ⟨tags⟩).2 k = sg k
      ∨ (((GoCacheStore.mk mapGoCache d).Invalidate sg ⟨tags⟩).2 k = none
        ∧ ∃ t ∈ tags, ∃ v, sg (tagKey t) = some v ∧ k ∈ asKeySet v))
    ∧ (∀ (sm : KV Item) (k : String),
      ((MemcacheStore.mk mapMemcache d).Invalidate sm ⟨tags⟩).2 k = sm k
      ∨ (((MemcacheStore.mk mapMemcache d).Invalidate sm ⟨tags⟩).2 k = none
        ∧ ∃ t ∈ tags, ∃ item : Item, sm (tagKey t) = some item ∧ k ∈ split item.Value))
    ∧ (∀ (sr : KV Value) (k : String),
      ((RistrettoStore.mk mapRistretto d).Invalidate sr ⟨tags⟩).2 k = sr k
      ∨ (((RistrettoStore.mk mapRistretto d).Invalidate sr ⟨tags⟩).2 k = none
        ∧ ∃ t ∈ tags, ∃ v, sr (tagKey t) = some v ∧ k ∈ asMembers v)) := by
  refine ⟨⟨?_, ?_, ?_, ?_⟩, ?_, ?_, ?_⟩
  · intro c log
    rw [gocache_Invalidate_eq]
    exact gocache_recording_invalidate_calls c d tags st log
  · intro c log
    rw [memcache_Invalidate_eq]
    exact memcache_recording_invalidate_calls c d tags st log
  · intro c log
    rw [ristretto_Invalidate_eq]
    exact ristretto_recording_invalidate_calls c d tags st log
  · intro c log
    rw [redis_Invalidate_eq, redis_recording_invalidateTags]
    exact ⟨_, rfl, nativeSetInvalidation_calls c d.Ctx tags st⟩
  · intro sg k
    rw [gocache_Invalidate_eq, gocache_map_invalidateTags]
    exact mapInvalidation_frame asKeySet tags sg k
  · intro sm k
    rw [memcache_Invalidate_eq, memcache_map_invalidateTags]
    exact mapInvalidation_frame (fun item : Item => split item.Value) tags sm k
  · intro sr k
    rw [ristretto_Invalidate_eq, ristretto_map_invalidateTags]
    exact mapInvalidation_frame asMembers tags sr k

/-! ## The store's default record -/

theorem recordAfterSet_eq (defaults : Options) (opts : List StoreOption) :
    recordAfterSet defaults opts = defaults := by
  cases opts <;> rfl

theorem defaultCtx_idem (o : Options) : defaultCtx (defaultCtx o) = defaultCtx o := by
  unfold defaultCtx
  split <;> simp_all

theorem defaultCtx_Ctx_ne_none (o : Options) : (defaultCtx o).Ctx ≠ none := by
  unfold defaultCtx
  split <;> simp_all

theorem gocache_run_options {σ : Type} (calls : List (StoreCall Value)) (s : GoCacheStore σ)
    (st : σ) : (s.run st calls).1.options = s.options := by
  induction calls generalizing s st with
  | nil => rfl
  | cons call rest ih =>
    simp only [GoCacheStore.run, List.foldl_cons] at ih ⊢
    rw [ih]
    cases call <;> simp [GoCacheStore.step, GoCacheStore.afterSet, recordAfterSet_eq]

theorem memcache_run_options {σ : Type} (calls : List (StoreCall String))
    (s : MemcacheStore σ) (st : σ) : (s.run st calls).1.options = s.options := by
  induction calls generalizing s st with
  | nil => rfl
  | cons call rest ih =>
    simp only [MemcacheStore.run, List.foldl_cons] at ih ⊢
    rw [ih]
    cases call <;> simp [MemcacheStore.step, MemcacheStore.afterSet, recordAfterSet_eq]

theorem ristretto_run_options {σ : Type} (calls : List (StoreCall Value))
    (s : RistrettoStore σ) (st : σ) : (s.run st calls).1.options = s.options := by
  induction calls generalizing s st with
  | nil => rfl
  | cons call rest ih =>
    simp only [RistrettoStore.run, List.foldl_cons] at ih ⊢
    rw [ih]
    cases call <;> simp [RistrettoStore.step, RistrettoStore.afterSet, recordAfterSet_eq]

theorem redis_set_options {σ : Type} (s : RedisStore σ) (st : σ) (key : String)
    (value : Value) (opts : List StoreOption) (h : defaultCtx s.options = s.options) :
    (s.Set st key value opts).1.options = s.options := by
  by_cases hl : opts.length = 0
  · have hn : opts = [] := List.length_eq_zero.mp hl
    subst hn
    simp only [RedisStore.Set, resolveOptions_nil, List.length_nil, if_true, h]
    split <;> (try split) <;> rfl
  · simp only [RedisStore.Set, hl, if_false]
    split <;> (try split) <;> rfl

theorem redis_run_options {σ : Type} (calls : List (StoreCall Value)) (s : RedisStore σ)
    (st : σ) (h : defaultCtx s.options = s.options) :
    (s.run st calls).1.options = s.options := by
  induction calls generalizing s st with
  | nil => rfl
  | cons call rest ih =>
    simp only [RedisStore.run, List.foldl_cons] at ih ⊢
    have hstep : (s.step st call).1.options = s.options := by
      cases call <;> simp only [RedisStore.step]
      exact redis_set_options s st _ _ _ h
    rw [ih _ _ (by rw [hstep]; exact h), hstep]

/-- C27. Store defaults are immutable after construction: for every
client, every list `ds` of constructor mutators and every sequence of
`Get`, `GetWithTTL`, `Set`, `Delete`, `Invalidate` and `Clear` calls,
the default record of a store built by `NewGoCache`, `NewMemcache` or
`NewRistretto` is afterwards the fold of `ds` over the zero record, and
that of a store built by `NewRedis` is that fold with a nil context
replaced by the background context, so its context is never nil; a
`Set` without call-site options made after the sequence therefore
resolves the constructor's record, as in the example where a `Set` with
`Expiration(5s)` and a tag is followed by a `Set` without options that
is issued with the 6 seconds of the constructor. -/
theorem store_defaults_immutable {σ : Type} (ds : List StoreOption) (st : σ) :
    (∀ (c : GoCacheClientInterface σ) (calls : List (StoreCall Value)),
      ((NewGoCache c ds).run st calls).1.options = applyOptions {} ds
      ∧ resolveOptions ((NewGoCache c ds).run st calls).1.options [] = applyOptions {} ds)
    ∧ (∀ (c : MemcacheClientInterface σ) (calls : List (StoreCall String)),
      ((NewMemcache c ds).run st calls).1.options = applyOptions {} ds
      ∧ resolveOptions ((NewMemcache c ds).run st calls).1.options [] = applyOptions {} ds)
    ∧ (∀ (c : RistrettoClientInterface σ) (calls : List (StoreCall Value)),
      ((NewRistretto c ds).run st calls).1.options = applyOptions {} ds
      ∧ resolveOptions ((NewRistretto c ds).run st calls).1.options [] = applyOptions {} ds)
    ∧ (∀ (c : RedisClientInterface σ) (calls : List (StoreCall Value)),
      ((NewRedis c ds).run st calls).1.options = defaultCtx (applyOptions {} ds)
      ∧ ((NewRedis c ds).run st calls).1.options.Ctx ≠ none
      ∧ resolveOptions ((NewRedis c ds).run st calls).1.options [] =
        defaultCtx (applyOptions {} ds))
    ∧ ((NewRedis okRedis.recording [Expiration (6 * Second)]).run ((), [])
        [StoreCall.Set "a" (Value.str "v") [Expiration (5 * Second), Tags ["t"]],
          StoreCall.Set "b" (Value.str "w") []]).2.2 =
      [RedisCall.Set (some Context.background) "a" (Value.str "v") (5 * Second),
        RedisCall.SAdd (some Context.background) "gocache_tag_t" ["a"],
        RedisCall.Expire (some Context.background) "gocache_tag_t" (720 * Hour),
        RedisCall.Set (some Context.background) "b" (Value.str "w") (6 * Second)] := by
  refine ⟨?_, ?_, ?_, ?_, ?_⟩
  · intro c calls
    rw [resolveOptions_nil, gocache_run_options]
    exact ⟨rfl, rfl⟩
  · intro c calls
    rw [resolveOptions_nil, memcache_run_options]
    exact ⟨rfl, rfl⟩
  · intro c calls
    rw [resolveOptions_nil, ristretto_run_options]
    exact ⟨rfl, rfl⟩
  · intro c calls
    have h : defaultCtx (NewRedis c ds).options = (NewRedis c ds).options :=
      defaultCtx_idem _
    rw [resolveOptions_nil, redis_run_options calls (NewRedis c ds) st h]
    exact ⟨rfl, defaultCtx_Ctx_ne_none _, rfl⟩
  · rfl

/-! ## Type assertions -/

/-- C30. No failing type assertion under well-typed inputs: with a
string key (and a byte slice as the value of `MemcacheStore.Set`) every
method of the four stores that asserts the type of its arguments passes
its assertions and runs as embedded; a value of another type under a
`gocache_tag_` key makes the comma-ok assertions of the tag step and of
`Invalidate` yield the empty member list, so that over a key-value map
`Invalidate` then removes nothing and the tag step writes the list of
the key alone. -/
theorem no_failing_assertion_on_strings {σ : Type} (d : Options) (st : σ) (k : String) :
    ((∀ (c : GoCacheClientInterface σ) (now : Int) (v : Value) (opts : List StoreOption),
        dyn.GoCacheStore.Get ⟨c, d⟩ st (Value.str k) = some ((GoCacheStore.mk c d).Get st k)
        ∧ dyn.GoCacheStore.GetWithTTL ⟨c, d⟩ now st (Value.str k) =
          some ((GoCacheStore.mk c d).GetWithTTL now st k)
        ∧ dyn.GoCacheStore.Set ⟨c, d⟩ st (Value.str k) v opts =
          some ((GoCacheStore.mk c d).Set st k v opts)
        ∧ dyn.GoCacheStore.Delete ⟨c, d⟩ st (Value.str k) =
          some ((GoCacheStore.mk c d).Delete st k))
      ∧ (∀ (c : MemcacheClientInterface σ) (b : String) (opts : List StoreOption),
        dyn.MemcacheStore.Get ⟨c, d⟩ st (Value.str k) = some ((MemcacheStore.mk c d).Get st k)
        ∧ dyn.MemcacheStore.GetWithTTL ⟨c, d⟩ st (Value.str k) =
          some ((MemcacheStore.mk c d).GetWithTTL st k)
        ∧ dyn.MemcacheStore.Set ⟨c, d⟩ st (Value.str k) (Value.bytes b) opts =
          some ((MemcacheStore.mk c d).Set st k b opts)
        ∧ dyn.MemcacheStore.Delete ⟨c, d⟩ st (Value.str k) =
          some ((MemcacheStore.mk c d).Delete st k))
      ∧ (∀ (c : RedisClientInterface σ) (v : Value) (opts : List StoreOption),
        dyn.RedisStore.Get ⟨c, d⟩ st (Value.str k) = some ((RedisStore.mk c d).Get st k)
        ∧ dyn.RedisStore.GetWithTTL ⟨c, d⟩ st (Value.str k) =
          some ((RedisStore.mk c d).GetWithTTL st k)
        ∧ dyn.RedisStore.Set ⟨c, d⟩ st (Value.str k) v opts =
          some ((RedisStore.mk c d).Set st k v opts)
        ∧ dyn.RedisStore.Delete ⟨c, d⟩ st (Value.str k) =
          some ((RedisStore.mk c d).Delete st k))
      ∧ (∀ (c : RistrettoClientInterface σ) (tags : List String),
        dyn.RistrettoStore.setTags ⟨c, d⟩ st (Value.str k) tags =
          some ((RistrettoStore.mk c d).setTags st k tags)))
    ∧ (∀ v : Value, (∀ m : List String, v ≠ Value.keySet m) → asKeySet v = [])
    ∧ (∀ v : Value, (∀ b : String, v ≠ Value.bytes b) → asMembers v = [])
    ∧ (∀ (t : String) (sg : KV Value) (v : Value), sg (tagKey t) = some v →
      (∀ m : List String, v ≠ Value.keySet m) →
      (GoCacheStore.mk mapGoCache d).Invalidate sg ⟨[t]⟩ = (none, sg)
      ∧ (GoCacheStore.mk mapGoCache d).setTag k sg t = sg.put (tagKey t) (Value.keySet [k]))
    ∧ (∀ (t : String) (sr : KV Value) (v : Value), sr (tagKey t) = some v →
      (∀ b : String, v ≠ Value.bytes b) →
      (RistrettoStore.mk mapRistretto d).Invalidate sr ⟨[t]⟩ = (none, sr)
      ∧ (RistrettoStore.mk mapRistretto d).setTag k sr t =
        sr.put (tagKey t) (Value.bytes k)) := by
  have hK : ∀ v : Value, (∀ m : List String, v ≠ Value.keySet m) → asKeySet v = [] := by
    intro v h
    cases v with
    | keySet m => exact absurd rfl (h m)
    | _ => rfl
  have hM : ∀ v : Value, (∀ b : String, v ≠ Value.bytes b) → asMembers v = [] := by
    intro v h
    cases v with
    | bytes b => exact absurd rfl (h b)
    | _ => rfl
  refine ⟨⟨fun _ _ _ _ => ⟨rfl, rfl, rfl, rfl⟩, fun _ _ _ => ⟨rfl, rfl, rfl, rfl⟩,
    fun _ _ _ => ⟨rfl, rfl, rfl, rfl⟩, ?_⟩, hK, hM, ?_, ?_⟩
  · intro c tags
    cases tags <;> rfl
  · intro t sg v hv hne
    have hm : keySetMembers sg t = [] := by
      simp only [keySetMembers, hv]
      exact hK v hne
    constructor
    · rw [gocache_map_invalidate, hm]
      rfl
    · rw [gocache_map_setTag, hm]
      simp
  · intro t sr v hv hne
    have hm : bytesMembers sr t = [] := by
      simp only [bytesMembers, hv]
      exact hM v hne
    constructor
    · rw [ristretto_map_invalidate, hm]
      rfl
    · rw [ristretto_map_setTag, hm]
      rfl

theorem no_failing_assertion_on_strings_witness :
    (KV.empty.put "gocache_tag_t" (Value.other 3)) (tagKey "t") = some (Value.other 3)
    ∧ (GoCacheStore.mk mapGoCache {}).setTag "k" (KV.empty.put "gocache_tag_t" (Value.other 3))
        "t" = (KV.empty.put "gocache_tag_t" (Value.other 3)).put (tagKey "t") (Value.keySet ["k"])
    ∧ dyn.MemcacheStore.Set ⟨mapMemcache, {}⟩ KV.empty (Value.str "k") (Value.bytes "v") [] =
      some ((MemcacheStore.mk mapMemcache {}).Set KV.empty "k" "v" [])
    ∧ dyn.MemcacheStore.Set ⟨mapMemcache, {}⟩ KV.empty (Value.str "k") (Value.str "v") [] = none
    ∧ dyn.GoCacheStore.Get ⟨mapGoCache, {}⟩ KV.empty (Value.other 1) = none :=
  ⟨by decide,
    ((no_failing_assertion_on_strings {} () "k").2.2.2.1 "t"
      (KV.empty.put "gocache_tag_t" (Value.other 3)) (Value.other 3) (by decide)
      (fun _ h => by cases h)).2,
    ((no_failing_assertion_on_strings {} (KV.empty : KV Item) "k").1.2.1 mapMemcache "v" []).2.2.1,
    rfl, rfl⟩

/-! ## The expiration written by the memcache store -/

theorem log2Fuel_spec (fuel : Nat) : ∀ n : Nat, n ≤ fuel → 0 < n →
    2 ^ log2Fuel fuel n ≤ n ∧ n < 2 ^ (log2Fuel fuel n + 1) := by
  induction fuel with
  | zero => intro n h0 h1; omega
  | succ f ih =>
    intro n hn hpos
    simp only [log2Fuel]
    split
    · constructor <;> simp <;> omega
    · have h := ih (n / 2) (by omega) (by omega)
      constructor
      · rw [pow_succ]; omega
      · rw [pow_succ]; omega

theorem log2_spec (n : Nat) (h : 0 < n) : 2 ^ log2 n ≤ n ∧ n < 2 ^ (log2 n + 1) :=
  log2Fuel_spec n n (le_refl n) h

/-- The binary exponent of a quotient below `2^a` is below `a`. -/
theorem exponent_lt (n d a : Nat) (hn : 0 < n) (hd : 0 < d) (h : n < 2 ^ a * d) :
    exponent n d < a := by
  have hln := log2_spec n hn
  have hld := log2_spec d hd
  -- log2 n ≤ log2 d + a
  have hle : log2 n ≤ log2 d + a := by
    by_contra hc
    have h1 : 2 ^ (log2 d + 1 + a) ≤ 2 ^ log2 n := Nat.pow_le_pow_right (by norm_num) (by omega)
    have h2 : 2 ^ a * d < 2 ^ a * 2 ^ (log2 d + 1) :=
      (Nat.mul_lt_mul_left (by positivity : 0 < 2 ^ a)).mpr hld.2
    rw [← pow_add] at h2
    have : a + (log2 d + 1) = log2 d + 1 + a := by omega
    rw [this] at h2
    omega
  simp only [exponent]
  split
  · rename_i hc
    by_contra hge
    have hk : (log2 n : Int) - (log2 d : Int) = a := by omega
    rw [hk] at hc
    simp at hc
    have : d * 2 ^ a = 2 ^ a * d := Nat.mul_comm _ _
    omega
  · omega

theorem divRoundEven_ge (n d k : Nat) (hd : 0 < d) (h : k * d ≤ n) : k ≤ divRoundEven n d := by
  have hk : k ≤ n / d := (Nat.le_div_iff_mul_le hd).mpr h
  simp only [divRoundEven]
  split
  · exact hk
  · split <;> omega

theorem divRoundEven_lt (n d k : Nat) (hd : 0 < d) (h : 2 * n + d < 2 * (k * d)) :
    divRoundEven n d < k := by
  have hdm := Nat.div_add_mod n d
  have hm := Nat.mod_lt n hd
  have key : n / d + 1 ≤ k := by
    by_contra hc
    have hk : k ≤ n / d := by omega
    have : k * d ≤ n / d * d := Nat.mul_le_mul_right d hk
    have h3 : d * (n / d) = n / d * d := Nat.mul_comm _ _
    omega
  have key2 : 2 * (n % d) < d ∨ n / d + 2 ≤ k := by
    by_contra hc
    push_neg at hc
    have hk : k = n / d + 1 := by omega
    subst hk
    have : (n / d + 1) * d = d * (n / d) + d := by ring
    omega
  simp only [divRoundEven]
  split
  · omega
  · split <;> omega

theorem divRoundEven_le (n d : Nat) (hd : 0 < d) :
    2 * (divRoundEven n d * d) ≤ 2 * n + d := by
  have hdm := Nat.div_add_mod n d
  have hm := Nat.mod_lt n hd
  have h3 : d * (n / d) = n / d * d := Nat.mul_comm _ _
  simp only [divRoundEven]
  split
  · omega
  · split
    · have : (n / d + 1) * d = n / d * d + d := by ring
      omega
    · have : (n / d + n / d % 2) * d ≤ (n / d + 1) * d :=
        Nat.mul_le_mul_right d (by omega)
      have : (n / d + 1) * d = n / d * d + d := by ring
      omega


/-- The shape of a rounded positive quotient below `2^53`. -/
theorem round_pos (n d a : Nat) (hn : 0 < n) (hd : 0 < d) (ha : n < 2 ^ a * d)
    (ha53 : a ≤ 53) :
    ∃ p : Nat, 53 ≤ p + a ∧
      float64.round (n : Int) d = ⟨(divRoundEven (n * 2 ^ p) d : Nat), p⟩ := by
  have hL := exponent_lt n d a hn hd ha
  have hn0 : (n : Int) ≠ 0 := by omega
  refine ⟨(-(exponent n d - 52)).toNat, by omega, ?_⟩
  have he : (exponent n d - 52).toNat = 0 := by omega
  simp only [float64.round, hn0, if_false, Int.natAbs_ofNat, he, pow_zero, mul_one,
    Int.sign_eq_one_of_pos (by omega : (0 : Int) < n), one_mul]

theorem int32_round (n d K a : Nat) (hn : 0 < n) (hd : 0 < d) (hK : K * d ≤ n)
    (ha : n < 2 ^ a * d) (ha53 : a ≤ 53)
    (hgap : d + 2 ^ (54 - a) * n < 2 ^ (54 - a) * ((K + 1) * d)) (hK31 : K < 2 ^ 31) :
    int32 (float64.round (n : Int) d) = K := by
  obtain ⟨p, hp, hr⟩ := round_pos n d a hn hd ha ha53
  rw [hr]
  have hlo : K * 2 ^ p ≤ divRoundEven (n * 2 ^ p) d := by
    apply divRoundEven_ge _ _ _ hd
    calc K * 2 ^ p * d = K * d * 2 ^ p := by ring
      _ ≤ n * 2 ^ p := Nat.mul_le_mul_right _ hK
  have hhi : divRoundEven (n * 2 ^ p) d < (K + 1) * 2 ^ p := by
    apply divRoundEven_lt _ _ _ hd
    obtain ⟨r, hr⟩ : ∃ r, p + 1 = (54 - a) + r := ⟨p + 1 - (54 - a), by omega⟩
    have h2 : 2 * 2 ^ p = 2 ^ (54 - a) * 2 ^ r := by
      rw [← pow_add, ← hr, pow_succ]; ring
    have hR : 1 ≤ 2 ^ r := Nat.one_le_two_pow
    have e1 : 2 * (n * 2 ^ p) = 2 ^ r * (2 ^ (54 - a) * n) := by
      calc 2 * (n * 2 ^ p) = (2 * 2 ^ p) * n := by ring
        _ = 2 ^ r * (2 ^ (54 - a) * n) := by rw [h2]; ring
    have e2 : 2 * ((K + 1) * 2 ^ p * d) = 2 ^ r * (2 ^ (54 - a) * ((K + 1) * d)) := by
      calc 2 * ((K + 1) * 2 ^ p * d) = (2 * 2 ^ p) * ((K + 1) * d) := by ring
        _ = 2 ^ r * (2 ^ (54 - a) * ((K + 1) * d)) := by rw [h2]; ring
    rw [e1, e2]
    have h3 : 2 ^ r * (d + 2 ^ (54 - a) * n + 1) ≤ 2 ^ r * (2 ^ (54 - a) * ((K + 1) * d)) :=
      Nat.mul_le_mul_left _ hgap
    have h4 : d ≤ 2 ^ r * d := Nat.le_mul_of_pos_left d (by omega)
    have h5 : 2 ^ r * (d + 2 ^ (54 - a) * n + 1) =
        2 ^ r * d + 2 ^ r * (2 ^ (54 - a) * n) + 2 ^ r := by ring
    omega
  have hdiv : divRoundEven (n * 2 ^ p) d / 2 ^ p = K := by
    apply Nat.div_eq_of_lt_le
    · exact hlo
    · exact hhi
  have ht : Int.tdiv ((divRoundEven (n * 2 ^ p) d : Nat) : Int) (2 ^ p) = (K : Int) := by
    have : ((2 : Int) ^ p) = ((2 ^ p : Nat) : Int) := by push_cast; rfl
    rw [this, ← Int.ofNat_tdiv, hdiv]
  simp only [int32, ht]
  rw [if_pos]
  constructor
  · omega
  · have : (K : Int) < 2 ^ 31 := by exact_mod_cast hK31
    omega


/-- The two parts of a non-negative duration enter `Seconds` exactly. -/
theorem Seconds_of_parts (sec nsec : Nat) (hs : sec < 2 ^ 53) (hns : nsec < 1000000000) :
    Seconds ((sec * 1000000000 + nsec : Nat) : Int) =
      float64.add ⟨sec, 0⟩ (float64.round nsec 1000000000) := by
  have h1 : Int.tdiv ((sec * 1000000000 + nsec : Nat) : Int) Second = (sec : Int) := by
    show Int.tdiv ((sec * 1000000000 + nsec : Nat) : Int) ((1000000000 : Nat) : Int) = _
    rw [← Int.ofNat_tdiv]
    congr 1
    omega
  have h2 : Int.tmod ((sec * 1000000000 + nsec : Nat) : Int) Second = (nsec : Int) := by
    show Int.tmod ((sec * 1000000000 + nsec : Nat) : Int) ((1000000000 : Nat) : Int) = _
    rw [← Int.ofNat_tmod]
    congr 1
    omega
  have h3 : float64.ofInt (sec : Int) = ⟨sec, 0⟩ := by
    simp only [float64.ofInt, Int.natAbs_ofNat, hs, if_true]
  have h4 : float64.ofInt (nsec : Int) = ⟨nsec, 0⟩ := by
    have : nsec < 2 ^ 53 := by omega
    simp only [float64.ofInt, Int.natAbs_ofNat, this, if_true]
  have h5 : Int.sign (1000000000 : Int) = 1 := rfl
  have h6 : Int.natAbs (1000000000 : Int) = 1000000000 := rfl
  simp only [Seconds, h1, h2, h3, h4, float64.div, h5, h6, pow_zero, mul_one, one_mul]

theorem int32_zero : int32 ⟨0, 0⟩ = 0 := by decide

/-- A duration of less than `2^24` seconds is written in whole seconds,
the fraction discarded. -/
theorem int32Seconds_of_parts (sec nsec : Nat) (hs : sec < 2 ^ 24) (hns : nsec < 1000000000) :
    int32Seconds ((sec * 1000000000 + nsec : Nat) : Int) = sec := by
  rw [int32Seconds, Seconds_of_parts sec nsec (by omega) hns]
  by_cases h0 : nsec = 0
  · subst h0
    have hq : float64.round ((0 : Nat) : Int) 1000000000 = ⟨0, 0⟩ := rfl
    rw [hq]
    have hadd : float64.add ⟨sec, 0⟩ ⟨0, 0⟩ = float64.round (sec : Int) 1 := by
      simp [float64.add]
    rw [hadd]
    by_cases hs0 : sec = 0
    · subst hs0
      rfl
    · exact int32_round sec 1 sec 24 (by omega) (by omega) (by omega) (by omega) (by omega)
        (by norm_num; omega) (by omega)
  · obtain ⟨p, hp, hr⟩ := round_pos nsec 1000000000 0 (by omega) (by omega) (by omega)
      (by omega)
    rw [hr]
    have hle := divRoundEven_le (nsec * 2 ^ p) 1000000000 (by omega)
    generalize divRoundEven (nsec * 2 ^ p) 1000000000 = mq at hle
    have hT : 2 ^ 53 ≤ 2 ^ p := Nat.pow_le_pow_right (by omega) (by omega)
    have hX : nsec * 2 ^ p ≤ 999999999 * 2 ^ p := Nat.mul_le_mul_right _ (by omega)
    have hadd : float64.add ⟨sec, 0⟩ ⟨(mq : Nat), p⟩ =
        float64.round ((sec * 2 ^ p + mq : Nat) : Int) (2 ^ p) := by
      simp [float64.add]
    rw [hadd]
    have hS : sec * 2 ^ p ≤ 16777215 * 2 ^ p := Nat.mul_le_mul_right _ (by omega)
    have hpos : 0 < sec * 2 ^ p + mq ∨ sec * 2 ^ p + mq = 0 := by omega
    have e : (sec + 1) * 2 ^ p = sec * 2 ^ p + 2 ^ p := by ring
    have hTpos : 0 < 2 ^ p := by omega
    rcases hpos with hpos | hz
    · apply int32_round (sec * 2 ^ p + mq) (2 ^ p) sec 24 hpos hTpos (by omega)
        _ (by omega) _ (by omega)
      · show sec * 2 ^ p + mq < 16777216 * 2 ^ p
        generalize 2 ^ p = T at *
        omega
      · show 2 ^ p + 1073741824 * (sec * 2 ^ p + mq) < 1073741824 * ((sec + 1) * 2 ^ p)
        rw [e]
        generalize 2 ^ p = T at *
        omega
    · have hsz : sec = 0 := by
        by_contra hc
        have : 2 ^ p ≤ sec * 2 ^ p := Nat.le_mul_of_pos_left _ (by omega)
        omega
      rw [hz, hsz]
      rfl

/-- A whole number of seconds below `2^31` is written exactly. -/
theorem int32Seconds_whole (n : Nat) (h : n < 2 ^ 31) :
    int32Seconds ((n : Int) * Second) = n := by
  have e : (n : Int) * Second = ((n * 1000000000 + 0 : Nat) : Int) := by
    simp [Second]
  rw [e, int32Seconds, Seconds_of_parts n 0 (by omega) (by omega)]
  have hq : float64.round ((0 : Nat) : Int) 1000000000 = ⟨0, 0⟩ := rfl
  rw [hq]
  have hadd : float64.add ⟨n, 0⟩ ⟨0, 0⟩ = float64.round (n : Int) 1 := by
    simp [float64.add]
  rw [hadd]
  by_cases hs0 : n = 0
  · subst hs0
    rfl
  · exact int32_round n 1 n 31 (by omega) (by omega) (by omega) (by omega) (by omega)
      (by norm_num; omega) h


/-- The binary exponent `e` of `n / d` satisfies `2^e ≤ n / d < 2^(e+1)`. -/
theorem exponent_spec (n d : Nat) (hn : 0 < n) (hd : 0 < d) :
    d * 2 ^ (exponent n d).toNat ≤ n * 2 ^ (-(exponent n d)).toNat
    ∧ n * 2 ^ (-(exponent n d)).toNat < 2 * (d * 2 ^ (exponent n d).toNat) := by
  have hln := log2_spec n hn
  have hld := log2_spec d hd
  simp only [exponent]
  generalize log2 n = a at hln ⊢
  generalize log2 d = b at hld ⊢
  rw [pow_succ] at hln hld
  rcases Nat.le_total b a with hba | hab
  · obtain ⟨c, rfl⟩ := Nat.exists_eq_add_of_le hba
    have hk : ((b + c : Nat) : Int) - (b : Int) = (c : Int) := by omega
    have hA : 2 ^ (b + c) = 2 ^ b * 2 ^ c := pow_add 2 b c
    rw [hk]
    have t1 : (c : Int).toNat = c := by omega
    have t2 : (-(c : Int)).toNat = 0 := by omega
    rw [t1, t2, pow_zero, Nat.mul_one]
    rw [hA] at hln
    have hBd : 2 ^ b * 2 ^ c ≤ d * 2 ^ c := Nat.mul_le_mul_right _ hld.1
    split
    · rename_i hc
      rw [t1, t2, pow_zero, Nat.mul_one]
      exact ⟨hc, by omega⟩
    · rename_i hc
      rcases Nat.eq_zero_or_pos c with h0 | hpos
      · subst h0
        have u1 : ((0 : Nat) : Int) - 1 = -1 := by omega
        simp only [Nat.cast_zero, zero_sub, Int.reduceNeg, neg_neg] at *
        have v1 : (-1 : Int).toNat = 0 := by decide
        have v2 : (1 : Int).toNat = 1 := by decide
        rw [v1, v2]
        simp only [pow_zero, pow_one, Nat.mul_one] at *
        omega
      · obtain ⟨c', rfl⟩ : ∃ c', c = c' + 1 := ⟨c - 1, by omega⟩
        have w1 : (((c' + 1 : Nat) : Int) - 1).toNat = c' := by omega
        have w2 : (-(((c' + 1 : Nat) : Int) - 1)).toNat = 0 := by omega
        rw [w1, w2, pow_zero, Nat.mul_one]
        rw [pow_succ] at hln hc hBd
        have hd2 : d * 2 ^ c' < 2 ^ b * 2 * 2 ^ c' := by
          have : d * 2 ^ c' < (2 ^ b * 2) * 2 ^ c' :=
            Nat.mul_lt_mul_of_pos_right hld.2 (by positivity)
          exact this
        generalize 2 ^ c' = C at *
        generalize 2 ^ b = B at *
        constructor
        · have e1 : B * (C * 2) = B * 2 * C := by ring
          omega
        · have e2 : d * (C * 2) = 2 * (d * C) := by ring
          omega
  · obtain ⟨c, rfl⟩ := Nat.exists_eq_add_of_le hab
    have hk : ((a : Nat) : Int) - ((a + c : Nat) : Int) = -(c : Int) := by omega
    have hB : 2 ^ (a + c) = 2 ^ a * 2 ^ c := pow_add 2 a c
    rw [hk]
    have t1 : (-(c : Int)).toNat = 0 := by omega
    have t2 : (-(-(c : Int))).toNat = c := by omega
    rw [t1, t2, pow_zero, Nat.mul_one]
    rw [hB] at hld
    have hn1 : 2 ^ a * 2 ^ c ≤ n * 2 ^ c := Nat.mul_le_mul_right _ hln.1
    have hn2 : n * 2 ^ c < 2 ^ a * 2 * 2 ^ c :=
      Nat.mul_lt_mul_of_pos_right hln.2 (by positivity)
    split
    · rename_i hc
      rw [t1, t2, pow_zero, Nat.mul_one]
      refine ⟨hc, ?_⟩
      generalize 2 ^ c = C at *
      generalize 2 ^ a = A at *
      have e1 : A * 2 * C = A * C * 2 := by ring
      omega
    · rename_i hc
      have w1 : (-(c : Int) - 1).toNat = 0 := by omega
      have w2 : (-(-(c : Int) - 1)).toNat = c + 1 := by omega
      rw [w1, w2, pow_zero, Nat.mul_one, pow_succ]
      generalize 2 ^ c = C at *
      generalize 2 ^ a = A at *
      have e1 : A * 2 * C = A * C * 2 := by ring
      have e2 : n * (C * 2) = n * C * 2 := by ring
      constructor <;> omega

theorem exponent_ge (n d a : Nat) (hn : 0 < n) (hd : 0 < d) (h : 2 ^ a * d ≤ n) :
    (a : Int) ≤ exponent n d := by
  have hs := (exponent_spec n d hn hd).2
  by_contra hc
  push_neg at hc
  rcases Int.lt_or_le (exponent n d) 0 with hneg | hpos
  · obtain ⟨m, hm⟩ : ∃ m : Nat, (-(exponent n d)).toNat = m + 1 :=
      ⟨(-(exponent n d)).toNat - 1, by omega⟩
    have h0 : (exponent n d).toNat = 0 := by omega
    rw [hm, h0, pow_succ, pow_zero, Nat.mul_one] at hs
    have h1 : 1 ≤ 2 ^ m := Nat.one_le_two_pow
    have h2 : n * 1 ≤ n * 2 ^ m := Nat.mul_le_mul_left n h1
    have h3 : n * (2 ^ m * 2) = n * 2 ^ m * 2 := by ring
    have h4 : 1 ≤ 2 ^ a := Nat.one_le_two_pow
    have h5 : 1 * d ≤ 2 ^ a * d := Nat.mul_le_mul_right d h4
    omega
  · obtain ⟨m, hm⟩ : ∃ m : Nat, exponent n d = (m : Int) := ⟨(exponent n d).toNat, by omega⟩
    rw [hm] at hs hc
    have h0 : (-(m : Int)).toNat = 0 := by omega
    have h1 : (m : Int).toNat = m := by omega
    rw [h0, h1, pow_zero, Nat.mul_one] at hs
    have hma : m + 1 ≤ a := by omega
    have h2 : 2 ^ (m + 1) ≤ 2 ^ a := Nat.pow_le_pow_right (by omega) hma
    have h3 : 2 ^ (m + 1) * d ≤ 2 ^ a * d := Nat.mul_le_mul_right d h2
    rw [pow_succ] at h3
    have h4 : 2 ^ m * 2 * d = 2 * (d * 2 ^ m) := by ring
    omega

theorem exponent_eq (n d j : Nat) (hn : 0 < n) (hd : 0 < d) (h1 : 2 ^ j * d ≤ n)
    (h2 : n < 2 ^ (j + 1) * d) : exponent n d = (j : Int) := by
  have := exponent_ge n d j hn hd h1
  have := exponent_lt n d (j + 1) hn hd h2
  omega

theorem exponent_eq_neg_one (n d : Nat) (hn : 0 < n) (h1 : d ≤ 2 * n) (h2 : n < d) :
    exponent n d = -1 := by
  have hd : 0 < d := by omega
  have hlt := exponent_lt n d 0 hn hd (by simpa using h2)
  have hs := (exponent_spec n d hn hd).2
  by_contra hc
  obtain ⟨m, hm⟩ : ∃ m : Nat, (-(exponent n d)).toNat = m + 2 :=
    ⟨(-(exponent n d)).toNat - 2, by omega⟩
  have h0 : (exponent n d).toNat = 0 := by omega
  rw [hm, h0, pow_succ, pow_succ, pow_zero, Nat.mul_one] at hs
  have h3 : 1 ≤ 2 ^ m := Nat.one_le_two_pow
  have h4 : n * 1 ≤ n * 2 ^ m := Nat.mul_le_mul_left n h3
  have h5 : n * (2 ^ m * 2 * 2) = n * 2 ^ m * 4 := by ring
  omega

/-- A quotient at or above the midpoint below `k` is rounded to `k` or
above, the midpoint itself when `k` is even. -/
theorem divRoundEven_ge_half (n d k : Nat) (hd : 0 < d)
    (h : 2 * (k * d) < 2 * n + d ∨ (2 * (k * d) = 2 * n + d ∧ k % 2 = 0)) :
    k ≤ divRoundEven n d := by
  have hdm := Nat.div_add_mod n d
  have hm := Nat.mod_lt n hd
  have h3 : d * (n / d) = n / d * d := Nat.mul_comm _ _
  -- k ≤ n / d + 1
  have hk1 : k ≤ n / d + 1 := by
    by_contra hc
    have : (n / d + 2) * d ≤ k * d := Nat.mul_le_mul_right d (by omega)
    have e : (n / d + 2) * d = n / d * d + 2 * d := by ring
    rcases h with h | h <;> omega
  rcases Nat.lt_or_ge k (n / d + 1) with hlt | hge
  · have hle : k ≤ n / d := by omega
    simp only [divRoundEven]
    split
    · exact hle
    · split <;> omega
  · have hk : k = n / d + 1 := by omega
    have e : (n / d + 1) * d = n / d * d + d := by ring
    rw [hk, e] at h
    simp only [divRoundEven]
    split
    · rcases h with h | h <;> omega
    · split
      · omega
      · rcases h with h | h
        · omega
        · have := h.2
          omega

/-- The whole seconds are written as long as the fraction stays more
than half a unit in the last place of the sum below the next second. -/
theorem int32Seconds_exact (sec nsec j : Nat) (hns : nsec < 1000000000)
    (hj : sec < 2 ^ (j + 1)) (hj30 : j ≤ 30)
    (hc : (2 ^ (j + 1) + 1) * 1000000000 < (1000000000 - nsec) * 2 ^ 54) :
    int32Seconds ((sec * 1000000000 + nsec : Nat) : Int) = sec := by
  have hJ31 : 2 ^ (j + 1) ≤ 2 ^ 31 := Nat.pow_le_pow_right (by omega) (by omega)
  have hG : 2 ^ 23 ≤ 2 ^ (53 - j) := Nat.pow_le_pow_right (by omega) (by omega)
  have h54 : 54 - (j + 1) = 53 - j := by omega
  rw [int32Seconds, Seconds_of_parts sec nsec (by omega) hns]
  by_cases h0 : nsec = 0
  · subst h0
    have hq : float64.round ((0 : Nat) : Int) 1000000000 = ⟨0, 0⟩ := rfl
    rw [hq]
    have hadd : float64.add ⟨sec, 0⟩ ⟨0, 0⟩ = float64.round (sec : Int) 1 := by
      simp [float64.add]
    rw [hadd]
    by_cases hs0 : sec = 0
    · subst hs0
      rfl
    · apply int32_round sec 1 sec (j + 1) (by omega) (by omega) (by omega) (by omega)
        (by omega) _ (by omega)
      rw [h54]
      generalize 2 ^ (53 - j) = G at *
      have e : G * ((sec + 1) * 1) = G * sec + G := by ring
      omega
  · obtain ⟨p, hp, hr⟩ := round_pos nsec 1000000000 0 (by omega) (by omega) (by omega)
      (by omega)
    rw [hr]
    obtain ⟨r, rfl⟩ : ∃ r, p = 53 + r := ⟨p - 53, by omega⟩
    obtain ⟨g, hg⟩ : ∃ g, g + nsec = 1000000000 := ⟨1000000000 - nsec, by omega⟩
    have hgs : 1000000000 - nsec = g := by omega
    rw [hgs] at hc
    have hT : 2 ^ (53 + r) = 2 ^ 53 * 2 ^ r := pow_add 2 53 r
    have hR : 1 ≤ 2 ^ r := Nat.one_le_two_pow
    have hGJ : 2 ^ (53 - j) * 2 ^ j = 2 ^ 53 := by
      rw [← pow_add]
      congr 1
      omega
    have hJ2 : 2 ^ (j + 1) = 2 * 2 ^ j := by rw [pow_succ]; ring
    -- the condition, scaled to the denominator of the quotient
    have hcR : (2 ^ (j + 1) + 1) * 1000000000 * 2 ^ r < g * 2 ^ 54 * 2 ^ r :=
      Nat.mul_lt_mul_of_pos_right hc (by omega)
    have e1 : (2 ^ (j + 1) + 1) * 1000000000 * 2 ^ r =
        2000000000 * (2 ^ r * 2 ^ j) + 1000000000 * 2 ^ r := by rw [hJ2]; ring
    have e2 : g * 2 ^ 54 * 2 ^ r = 2 * (g * 2 ^ (53 + r)) := by rw [hT]; ring
    rw [e1, e2] at hcR
    have hGW : 2 ^ (53 - j) * (2 ^ r * 2 ^ j) = 2 ^ (53 + r) := by
      rw [hT, ← hGJ]; ring
    have hWT : 2 ^ r * 2 ^ j ≤ 2 ^ (53 + r) := by
      rw [← hGW]
      exact Nat.le_mul_of_pos_left _ (by omega)
    have hgT : g * 2 ^ (53 + r) + nsec * 2 ^ (53 + r) = 1000000000 * 2 ^ (53 + r) := by
      rw [← Nat.add_mul, hg]
    obtain ⟨M, hM⟩ : ∃ M, M + 2 ^ r * 2 ^ j = 2 ^ (53 + r) :=
      ⟨2 ^ (53 + r) - 2 ^ r * 2 ^ j, by omega⟩
    have hmq : divRoundEven (nsec * 2 ^ (53 + r)) 1000000000 < M := by
      apply divRoundEven_lt _ _ _ (by omega)
      generalize 2 ^ r * 2 ^ j = W at *
      generalize nsec * 2 ^ (53 + r) = X at *
      generalize g * 2 ^ (53 + r) = Y at *
      generalize 2 ^ (53 + r) = T at *
      omega
    generalize divRoundEven (nsec * 2 ^ (53 + r)) 1000000000 = mq at hmq
    have hadd : float64.add ⟨sec, 0⟩ ⟨(mq : Nat), 53 + r⟩ =
        float64.round ((sec * 2 ^ (53 + r) + mq : Nat) : Int) (2 ^ (53 + r)) := by
      simp [float64.add]
    rw [hadd]
    have hTpos : 0 < 2 ^ (53 + r) := by positivity
    have hsT : (sec + 1) * 2 ^ (53 + r) ≤ 2 ^ (j + 1) * 2 ^ (53 + r) :=
      Nat.mul_le_mul_right _ (by omega)
    have e3 : (sec + 1) * 2 ^ (53 + r) = sec * 2 ^ (53 + r) + 2 ^ (53 + r) := by ring
    rw [e3] at hsT
    have hpos : 0 < sec * 2 ^ (53 + r) + mq ∨ sec * 2 ^ (53 + r) + mq = 0 := by omega
    rcases hpos with hpos | hz
    · apply int32_round (sec * 2 ^ (53 + r) + mq) (2 ^ (53 + r)) sec (j + 1) hpos hTpos
        (by omega) _ (by omega) _ (by omega)
      · omega
      · rw [h54]
        have hGm : 2 ^ (53 - j) * (mq + 2 ^ r * 2 ^ j + 1) ≤ 2 ^ (53 - j) * 2 ^ (53 + r) :=
          Nat.mul_le_mul_left _ (by omega)
        have e4 : 2 ^ (53 - j) * (mq + 2 ^ r * 2 ^ j + 1) =
            2 ^ (53 - j) * mq + 2 ^ (53 - j) * (2 ^ r * 2 ^ j) + 2 ^ (53 - j) := by ring
        have e5 : 2 ^ (53 - j) * (sec * 2 ^ (53 + r) + mq) =
            2 ^ (53 - j) * (sec * 2 ^ (53 + r)) + 2 ^ (53 - j) * mq := by ring
        have e6 : 2 ^ (53 - j) * ((sec + 1) * 2 ^ (53 + r)) =
            2 ^ (53 - j) * (sec * 2 ^ (53 + r)) + 2 ^ (53 - j) * 2 ^ (53 + r) := by ring
        rw [e4, hGW] at hGm
        rw [e5, e6]
        omega
    · have hsz : sec = 0 := by
        by_contra hcz
        have : 2 ^ (53 + r) ≤ sec * 2 ^ (53 + r) := Nat.le_mul_of_pos_left _ (by omega)
        omega
      rw [hz, hsz]
      rfl

/-- The shape of a rounded positive quotient whose binary exponent is
known. -/
theorem round_of_exponent (n d : Nat) (hn : 0 < n) (k : Nat)
    (he : exponent n d = 52 - (k : Int)) :
    float64.round (n : Int) d = ⟨(divRoundEven (n * 2 ^ k) d : Nat), k⟩ := by
  have hn0 : (n : Int) ≠ 0 := by omega
  have h1 : (exponent n d - 52).toNat = 0 := by omega
  have h2 : (-(exponent n d - 52)).toNat = k := by omega
  simp only [float64.round, hn0, if_false, Int.natAbs_ofNat, h1, h2, pow_zero, mul_one,
    Int.sign_eq_one_of_pos (by omega : (0 : Int) < n), one_mul]

/-- From `2^24` seconds on, a fraction within half a unit in the last
place of the sum below the next second is written as the next second. -/
theorem int32Seconds_rounds_up (sec nsec j : Nat) (hns : nsec < 1000000000)
    (hj1 : 2 ^ j ≤ sec) (hj2 : sec < 2 ^ (j + 1)) (hj30 : j ≤ 30)
    (h31 : sec + 1 < 2 ^ 31)
    (hc : (1000000000 - nsec) * 2 ^ 54 ≤ (2 ^ (j + 1) + 1) * 1000000000) :
    int32Seconds ((sec * 1000000000 + nsec : Nat) : Int) = sec + 1 := by
  have hJ31 : 2 ^ (j + 1) ≤ 2 ^ 31 := Nat.pow_le_pow_right (by omega) (by omega)
  have hJ2 : 2 ^ (j + 1) = 2 * 2 ^ j := by rw [pow_succ]; ring
  have hj0 : 1 ≤ j := by
    by_contra h
    have : j = 0 := by omega
    subst this
    omega
  obtain ⟨i, rfl⟩ : ∃ i, j = i + 1 := ⟨j - 1, by omega⟩
  have hJi : 2 ^ (i + 1) = 2 * 2 ^ i := by rw [pow_succ]; ring
  have hPJ : 2 ^ (52 - (i + 1)) * 2 ^ (i + 1) = 2 ^ 52 := by
    rw [← pow_add]
    congr 1
    omega
  obtain ⟨P', hP'⟩ : ∃ P', 2 ^ (52 - (i + 1)) = 2 * P' :=
    ⟨2 ^ (51 - (i + 1)), by
      rw [show 52 - (i + 1) = (51 - (i + 1)) + 1 by omega, pow_succ]; ring⟩
  rw [int32Seconds, Seconds_of_parts sec nsec (by omega) hns]
  -- the quotient
  have hq : float64.round (nsec : Int) 1000000000 =
      ⟨(divRoundEven (nsec * 2 ^ 53) 1000000000 : Nat), 53⟩ := by
    apply round_of_exponent nsec 1000000000 (by omega) 53
    rw [exponent_eq_neg_one nsec 1000000000 (by omega) (by omega) hns]
    rfl
  rw [hq]
  have hlo : 2 ^ 53 ≤ divRoundEven (nsec * 2 ^ 53) 1000000000 + 2 ^ (i + 1) := by
    obtain ⟨M, hM⟩ : ∃ M, M + 2 ^ (i + 1) = 2 ^ 53 := ⟨2 ^ 53 - 2 ^ (i + 1), by omega⟩
    have : M ≤ divRoundEven (nsec * 2 ^ 53) 1000000000 := by
      apply divRoundEven_ge_half _ _ _ (by omega)
      have hle : 2 * (M * 1000000000) ≤ 2 * (nsec * 2 ^ 53) + 1000000000 := by omega
      rcases Nat.lt_or_eq_of_le hle with h | h
      · exact Or.inl h
      · exact Or.inr ⟨h, by omega⟩
    omega
  have hhi : divRoundEven (nsec * 2 ^ 53) 1000000000 < 2 ^ 53 := by
    apply divRoundEven_lt _ _ _ (by omega)
    omega
  generalize divRoundEven (nsec * 2 ^ 53) 1000000000 = mq at hlo hhi
  have hadd : float64.add ⟨sec, 0⟩ ⟨(mq : Nat), 53⟩ =
      float64.round ((sec * 2 ^ 53 + mq : Nat) : Int) (2 ^ 53) := by
    simp [float64.add]
  rw [hadd]
  -- the sum
  have hs : float64.round ((sec * 2 ^ 53 + mq : Nat) : Int) (2 ^ 53) =
      ⟨(divRoundEven ((sec * 2 ^ 53 + mq) * 2 ^ (52 - (i + 1))) (2 ^ 53) : Nat),
        52 - (i + 1)⟩ := by
    apply round_of_exponent _ _ (by omega)
    rw [exponent_eq (sec * 2 ^ 53 + mq) (2 ^ 53) (i + 1) (by omega) (by omega)
      (by omega) (by omega)]
    omega
  rw [hs]
  have hmP : (2 ^ 53 - 2 ^ (i + 1)) * 2 ^ (52 - (i + 1)) ≤ mq * 2 ^ (52 - (i + 1)) :=
    Nat.mul_le_mul_right _ (by omega)
  have hmP2 : mq * 2 ^ (52 - (i + 1)) + 1 * 2 ^ (52 - (i + 1)) ≤
      2 ^ 53 * 2 ^ (52 - (i + 1)) := by
    rw [← Nat.add_mul]
    exact Nat.mul_le_mul_right _ (by omega)
  have e0 : (2 ^ 53 - 2 ^ (i + 1)) * 2 ^ (52 - (i + 1)) + 2 ^ 52 =
      2 ^ 53 * 2 ^ (52 - (i + 1)) := by
    rw [← hPJ, Nat.sub_mul]
    have : 2 ^ (i + 1) * 2 ^ (52 - (i + 1)) ≤ 2 ^ 53 * 2 ^ (52 - (i + 1)) :=
      Nat.mul_le_mul_right _ (by omega)
    have e : 2 ^ (52 - (i + 1)) * 2 ^ (i + 1) = 2 ^ (i + 1) * 2 ^ (52 - (i + 1)) :=
      Nat.mul_comm _ _
    omega
  have e1 : (sec * 2 ^ 53 + mq) * 2 ^ (52 - (i + 1)) =
      2 ^ 53 * (sec * 2 ^ (52 - (i + 1))) + mq * 2 ^ (52 - (i + 1)) := by ring
  have e2 : (sec + 1) * 2 ^ (52 - (i + 1)) * 2 ^ 53 =
      2 ^ 53 * (sec * 2 ^ (52 - (i + 1))) + 2 ^ 53 * 2 ^ (52 - (i + 1)) := by ring
  have e3 : ((sec + 1) * 2 ^ (52 - (i + 1)) + 1) * 2 ^ 53 =
      2 ^ 53 * (sec * 2 ^ (52 - (i + 1))) + 2 ^ 53 * 2 ^ (52 - (i + 1)) + 2 ^ 53 := by ring
  have hm2 : divRoundEven ((sec * 2 ^ 53 + mq) * 2 ^ (52 - (i + 1))) (2 ^ 53) =
      (sec + 1) * 2 ^ (52 - (i + 1)) := by
    apply Nat.le_antisymm
    · have : divRoundEven ((sec * 2 ^ 53 + mq) * 2 ^ (52 - (i + 1))) (2 ^ 53) <
          (sec + 1) * 2 ^ (52 - (i + 1)) + 1 := by
        apply divRoundEven_lt _ _ _ (by omega)
        rw [e1, e3]
        generalize 2 ^ 53 * (sec * 2 ^ (52 - (i + 1))) = X at *
        generalize mq * 2 ^ (52 - (i + 1)) = Y at *
        generalize 2 ^ 53 * 2 ^ (52 - (i + 1)) = Z at *
        omega
      omega
    · apply divRoundEven_ge_half _ _ _ (by omega)
      rw [e1, e2]
      have hle : 2 * (2 ^ 53 * (sec * 2 ^ (52 - (i + 1))) + 2 ^ 53 * 2 ^ (52 - (i + 1))) ≤
          2 * (2 ^ 53 * (sec * 2 ^ (52 - (i + 1))) + mq * 2 ^ (52 - (i + 1))) + 2 ^ 53 := by
        generalize 2 ^ 53 * (sec * 2 ^ (52 - (i + 1))) = X at *
        generalize mq * 2 ^ (52 - (i + 1)) = Y at *
        generalize 2 ^ 53 * 2 ^ (52 - (i + 1)) = Z at *
        generalize (2 ^ 53 - 2 ^ (i + 1)) * 2 ^ (52 - (i + 1)) = U at *
        omega
      rcases Nat.lt_or_eq_of_le hle with h | h
      · exact Or.inl h
      · refine Or.inr ⟨h, ?_⟩
        rw [hP']
        have : (sec + 1) * (2 * P') = 2 * ((sec + 1) * P') := by ring
        omega
  rw [hm2]
  have hdiv : (sec + 1) * 2 ^ (52 - (i + 1)) / 2 ^ (52 - (i + 1)) = sec + 1 :=
    Nat.mul_div_cancel _ (by positivity)
  have ht : Int.tdiv (((sec + 1) * 2 ^ (52 - (i + 1)) : Nat) : Int) (2 ^ (52 - (i + 1))) =
      ((sec + 1 : Nat) : Int) := by
    have : ((2 : Int) ^ (52 - (i + 1))) = ((2 ^ (52 - (i + 1)) : Nat) : Int) := by
      push_cast; rfl
    rw [this, ← Int.ofNat_tdiv, hdiv]
  simp only [int32, ht]
  rw [if_pos]
  · push_cast; rfl
  · constructor
    · omega
    · have : ((sec + 1 : Nat) : Int) < 2 ^ 31 := by exact_mod_cast h31
      omega

/-- Within the range of `int32`, a non-negative duration that is below
`2^24` seconds or a whole number of seconds is converted to its whole
seconds, the fraction discarded. -/
theorem int32Seconds_eq_tdiv (e : Duration) (h0 : 0 ≤ e) (h1 : e < 2147483648 * Second)
    (h2 : e < 16777216 * Second ∨ Int.tmod e Second = 0) :
    int32Seconds e = Int.tdiv e Second := by
  obtain ⟨n, rfl⟩ := Int.eq_ofNat_of_zero_le h0
  have hn : n = n / 1000000000 * 1000000000 + n % 1000000000 := by omega
  have hdiv : Int.tdiv (n : Int) Second = ((n / 1000000000 : Nat) : Int) := by
    show Int.tdiv (n : Int) ((1000000000 : Nat) : Int) = _
    rw [← Int.ofNat_tdiv]
  have hmod : Int.tmod (n : Int) Second = ((n % 1000000000 : Nat) : Int) := by
    show Int.tmod (n : Int) ((1000000000 : Nat) : Int) = _
    rw [← Int.ofNat_tmod]
  have h1n : n < 2147483648 * 1000000000 := by
    have : ((n : Nat) : Int) < 2147483648 * 1000000000 := h1
    omega
  rw [hdiv]
  rcases h2 with h2 | h2
  · have h2n : n < 16777216 * 1000000000 := by
      have : ((n : Nat) : Int) < 16777216 * 1000000000 := h2
      omega
    rw [hn]
    have := int32Seconds_of_parts (n / 1000000000) (n % 1000000000) (by omega) (by omega)
    rw [this]
    congr 1
    omega
  · rw [hmod] at h2
    have h0n : n % 1000000000 = 0 := by omega
    have e : (n : Int) = ((n / 1000000000 : Nat) : Int) * Second := by
      show (n : Int) = ((n / 1000000000 : Nat) : Int) * ((1000000000 : Nat) : Int)
      omega
    rw [e, int32Seconds_whole (n / 1000000000) (by omega)]

theorem memcache_recording_setTags_log {σ : Type} (c : MemcacheClientInterface σ)
    (d : Options) (K : String) (tags : List String) :
    ∀ (st : σ) (log : List MemcacheCall),
      ∃ rest, ((MemcacheStore.mk c.recording d).setTags (st, log) K tags).2 = log ++ rest := by
  induction tags with
  | nil => intro st log; exact ⟨[], by simp [MemcacheStore.setTags]⟩
  | cons t ts ih =>
    intro st log
    obtain ⟨r1, h⟩ : ∃ r, ((MemcacheStore.mk c.recording d).setTag K (st, log) t).2 = log ++ r :=
      ⟨_, memcache_recording_setTag c d K t st log⟩
    obtain ⟨rest, hr⟩ := ih ((MemcacheStore.mk c.recording d).setTag K (st, log) t).1
      ((MemcacheStore.mk c.recording d).setTag K (st, log) t).2
    refine ⟨r1 ++ rest, ?_⟩
    show ((MemcacheStore.mk c.recording d).setTags
      ((MemcacheStore.mk c.recording d).setTag K (st, log) t) K ts).2 = _
    rw [show (MemcacheStore.mk c.recording d).setTag K (st, log) t =
      (((MemcacheStore.mk c.recording d).setTag K (st, log) t).1,
        ((MemcacheStore.mk c.recording d).setTag K (st, log) t).2) from rfl, hr, h,
      List.append_assoc]

theorem memcache_recording_set_log {σ : Type} (c : MemcacheClientInterface σ) (d : Options)
    (K V : String) (opts : List StoreOption) (st : σ) (log : List MemcacheCall) :
    ∃ rest, ((MemcacheStore.mk c.recording d).Set (st, log) K V opts).2.2 =
      log ++ MemcacheCall.Set ⟨K, V, int32Seconds (resolveOptions d opts).Expiration⟩ ::
        rest := by
  have hS : ∀ item : Item, c.recording.Set (st, log) item =
      ((c.Set st item).1, (c.Set st item).2, log ++ [MemcacheCall.Set item]) := fun _ => rfl
  simp only [MemcacheStore.Set, MemcacheStore.setWith, Options.ExpirationValue,
    Options.TagsValue, hS]
  cases (c.Set st ⟨K, V, int32Seconds (resolveOptions d opts).Expiration⟩).1 with
  | some err => exact ⟨[], by simp⟩
  | none =>
    simp only
    split
    · obtain ⟨rest, hr⟩ := memcache_recording_setTags_log c d K
        (resolveOptions d opts).Tags
        (c.Set st ⟨K, V, int32Seconds (resolveOptions d opts).Expiration⟩).2
        (log ++ [MemcacheCall.Set ⟨K, V, int32Seconds (resolveOptions d opts).Expiration⟩])
      exact ⟨rest, by rw [hr]; simp⟩
    · exact ⟨[], by simp⟩

/-- The two parts of a non-negative duration. -/
theorem duration_parts (e : Duration) (h0 : 0 ≤ e) :
    ∃ sec nsec : Nat, nsec < 1000000000 ∧ e = ((sec * 1000000000 + nsec : Nat) : Int)
      ∧ Int.tdiv e Second = (sec : Int) ∧ Int.tmod e Second = (nsec : Int) := by
  obtain ⟨n, rfl⟩ := Int.eq_ofNat_of_zero_le h0
  refine ⟨n / 1000000000, n % 1000000000, Nat.mod_lt _ (by omega), ?_, ?_, ?_⟩
  · congr 1
    omega
  · show Int.tdiv (n : Int) ((1000000000 : Nat) : Int) = _
    rw [← Int.ofNat_tdiv]
  · show Int.tmod (n : Int) ((1000000000 : Nat) : Int) = _
    rw [← Int.ofNat_tmod]

/-- C26. Memcache writes the resolved expiration through in whole
seconds.  `MemcacheStore.Set` calls the client, before anything else,
with an item whose `Expiration` is `int32(e.Seconds())` for the
resolved expiration `e`, and on the key-value client, for a key that is
not the index key of a resolved tag, a following `GetWithTTL` returns
that many seconds.  For `0 ≤ e < 2^31` seconds, with `sec` the whole
seconds of `e`, `nsec` the nanoseconds left and `sec < 2^(j+1)`, this
number is `sec`, `e` divided by one second rounded toward zero, whenever
`(2^(j+1) + 1) * 10^9 < (10^9 - nsec) * 2^54`, that is, whenever `e` is
more than half a unit in the last place of the `float64` sum below the
next second; when `2^j ≤ sec` and the inequality fails, it is `sec + 1`.
The inequality holds for every `e` below `2^24` seconds and for every
whole number of seconds, where the seconds written are `e` itself, and
an `e` below one second is written as 0. -/
theorem memcache_expiration_whole_seconds (d : Options) (K V : String)
    (opts : List StoreOption) (h0 : 0 ≤ (resolveOptions d opts).Expiration)
    (h1 : (resolveOptions d opts).Expiration < 2147483648 * Second) :
    (∀ (σ : Type) (c : MemcacheClientInterface σ) (st : σ) (log : List MemcacheCall),
      ∃ rest, ((MemcacheStore.mk c.recording d).Set (st, log) K V opts).2.2 =
        log ++ MemcacheCall.Set
          ⟨K, V, int32Seconds (resolveOptions d opts).Expiration⟩ :: rest)
    ∧ (K ∉ (resolveOptions d opts).Tags.map tagKey → ∀ st : KV Item,
      ((MemcacheStore.mk mapMemcache d).Set st K V opts).2 K =
        some ⟨K, V, int32Seconds (resolveOptions d opts).Expiration⟩
      ∧ ((MemcacheStore.mk mapMemcache d).GetWithTTL
          ((MemcacheStore.mk mapMemcache d).Set st K V opts).2 K).1 =
        (Value.bytes V, int32Seconds (resolveOptions d opts).Expiration * Second, none))
    ∧ (∀ j : Nat, Int.tdiv (resolveOptions d opts).Expiration Second < 2 ^ (j + 1) →
      (2 ^ (j + 1) + 1) * Second <
        (Second - Int.tmod (resolveOptions d opts).Expiration Second) * 2 ^ 54 →
      int32Seconds (resolveOptions d opts).Expiration =
        Int.tdiv (resolveOptions d opts).Expiration Second)
    ∧ (∀ j : Nat, 2 ^ j ≤ Int.tdiv (resolveOptions d opts).Expiration Second →
      Int.tdiv (resolveOptions d opts).Expiration Second < 2 ^ (j + 1) →
      Int.tdiv (resolveOptions d opts).Expiration Second + 1 < 2147483648 →
      (Second - Int.tmod (resolveOptions d opts).Expiration Second) * 2 ^ 54 ≤
        (2 ^ (j + 1) + 1) * Second →
      int32Seconds (resolveOptions d opts).Expiration =
        Int.tdiv (resolveOptions d opts).Expiration Second + 1)
    ∧ ((resolveOptions d opts).Expiration < 16777216 * Second →
      int32Seconds (resolveOptions d opts).Expiration =
        Int.tdiv (resolveOptions d opts).Expiration Second)
    ∧ (Int.tmod (resolveOptions d opts).Expiration Second = 0 →
      int32Seconds (resolveOptions d opts).Expiration =
          Int.tdiv (resolveOptions d opts).Expiration Second
        ∧ int32Seconds (resolveOptions d opts).Expiration * Second =
          (resolveOptions d opts).Expiration)
    ∧ ((resolveOptions d opts).Expiration < Second →
      int32Seconds (resolveOptions d opts).Expiration = 0) := by
  refine ⟨fun σ c st log => memcache_recording_set_log c d K V opts st log, ?_, ?_⟩
  · intro hK st
    have hentry := memcache_map_set_entry d st K V opts hK
    refine ⟨hentry, ?_⟩
    generalize ((MemcacheStore.mk mapMemcache d).Set st K V opts).2 = s at hentry ⊢
    simp only [MemcacheStore.GetWithTTL, mapMemcache, hentry]
  generalize (resolveOptions d opts).Expiration = e at h0 h1 ⊢
  have hS : Second = ((1000000000 : Nat) : Int) := rfl
  refine ⟨?_, ?_, ?_, ?_, ?_⟩
  · intro j hj hc
    obtain ⟨sec, nsec, hns, rfl, hd, hm⟩ := duration_parts e h0
    rw [hd] at hj ⊢
    rw [hm] at hc
    have h1n : sec * 1000000000 + nsec < 2147483648 * 1000000000 := by
      have : ((sec * 1000000000 + nsec : Nat) : Int) < 2147483648 * 1000000000 := h1
      omega
    have hjN : sec < 2 ^ (j + 1) := by exact_mod_cast hj
    have hsub : ((1000000000 - nsec : Nat) : Int) = Second - (nsec : Int) := by
      rw [Nat.cast_sub (by omega)]
      rfl
    have hcN : (2 ^ (j + 1) + 1) * 1000000000 < (1000000000 - nsec) * 2 ^ 54 := by
      rw [← hsub, hS] at hc
      exact_mod_cast hc
    by_cases hj30 : j ≤ 30
    · exact int32Seconds_exact sec nsec j hns hjN hj30 hcN
    · have hmono : 2 ^ (30 + 1) ≤ 2 ^ (j + 1) := Nat.pow_le_pow_right (by omega) (by omega)
      exact int32Seconds_exact sec nsec 30 hns (by omega) (by omega) (by omega)
  · intro j hj1 hj2 h31 hc
    obtain ⟨sec, nsec, hns, rfl, hd, hm⟩ := duration_parts e h0
    rw [hd] at hj1 hj2 h31 ⊢
    rw [hm] at hc
    have hj1N : 2 ^ j ≤ sec := by exact_mod_cast hj1
    have hj2N : sec < 2 ^ (j + 1) := by exact_mod_cast hj2
    have h31N : sec + 1 < 2 ^ 31 := by omega
    have hsub : ((1000000000 - nsec : Nat) : Int) = Second - (nsec : Int) := by
      rw [Nat.cast_sub (by omega)]
      rfl
    have hcN : (1000000000 - nsec) * 2 ^ 54 ≤ (2 ^ (j + 1) + 1) * 1000000000 := by
      rw [← hsub, hS] at hc
      exact_mod_cast hc
    have hj30 : j ≤ 30 := by
      by_contra hcj
      have : 2 ^ 31 ≤ 2 ^ j := Nat.pow_le_pow_right (by omega) (by omega)
      omega
    rw [int32Seconds_rounds_up sec nsec j hns hj1N hj2N hj30 h31N hcN]
  · intro h24
    exact int32Seconds_eq_tdiv e h0 h1 (Or.inl h24)
  · intro hm
    have hE := int32Seconds_eq_tdiv e h0 h1 (Or.inr hm)
    refine ⟨hE, ?_⟩
    have := Int.tdiv_add_tmod e Second
    rw [hm] at this
    rw [hE, Int.mul_comm]
    omega
  · intro hlt
    have h24 : e < 16777216 * Second := lt_trans hlt (by decide)
    rw [int32Seconds_eq_tdiv e h0 h1 (Or.inl h24)]
    exact Int.tdiv_eq_zero_of_lt h0 hlt

theorem memcache_expiration_whole_seconds_witness :
    int32Seconds 16777216500000000 = Int.tdiv 16777216500000000 Second
    ∧ ((MemcacheStore.mk mapMemcache {}).GetWithTTL
        ((MemcacheStore.mk mapMemcache {}).Set KV.empty "k" "v"
          [Expiration 16777216500000000]).2 "k").1 =
      (Value.bytes "v", int32Seconds 16777216500000000 * Second, none)
    ∧ int32Seconds 16777216999999999 = Int.tdiv 16777216999999999 Second + 1 :=
  ⟨(memcache_expiration_whole_seconds {} "k" "v" [Expiration 16777216500000000] (by decide)
      (by decide)).2.2.1 24 (by decide) (by decide),
    ((memcache_expiration_whole_seconds {} "k" "v" [Expiration 16777216500000000] (by decide)
      (by decide)).2.1 (by decide) KV.empty).2,
    (memcache_expiration_whole_seconds {} "k" "v" [Expiration 16777216999999999] (by decide)
      (by decide)).2.2.2.1 24 (by decide) (by decide) (by decide) (by decide)⟩

set_option maxRecDepth 4000 in
/-- C26, as the claim states it, fails: a resolved expiration of `2^24`
seconds and 999,999,999 nanoseconds lies between 0 and `2^31` seconds
and has `2^24 = 16777216` whole seconds, but the sum that `Seconds`
forms in `float64` rounds up to `2^24 + 1`, so the item is written with
`Expiration` 16777217 and `GetWithTTL` returns 16777217 seconds.  And
for the key `gocache_tag_t` written with the tag `t` and 5 seconds,
`GetWithTTL` returns the 720 hours of the tag index entry. -/
theorem memcache_expiration_rounds_up :
    (0 : Int) ≤ 16777216999999999
    ∧ (16777216999999999 : Int) < 2147483648 * Second
    ∧ Int.tdiv 16777216999999999 Second = 16777216
    ∧ (resolveOptions {} [Expiration 16777216999999999]).Expiration = 16777216999999999
    ∧ Seconds 16777216999999999 = ⟨16777217 * 2 ^ 28, 28⟩
    ∧ ((MemcacheStore.mk mapMemcache.recording {}).Set (KV.empty, []) "k" "v"
        [Expiration 16777216999999999]).2.2 = [MemcacheCall.Set ⟨"k", "v", 16777217⟩]
    ∧ ((MemcacheStore.mk mapMemcache {}).GetWithTTL
        ((MemcacheStore.mk mapMemcache {}).Set KV.empty "k" "v"
          [Expiration 16777216999999999]).2 "k").1 =
      (Value.bytes "v", 16777217 * Second, none)
    ∧ ((MemcacheStore.mk mapMemcache {}).GetWithTTL
        ((MemcacheStore.mk mapMemcache {}).Set KV.empty "gocache_tag_t" "v"
          [Expiration (5 * Second), Tags ["t"]]).2 "gocache_tag_t").1 =
      (Value.bytes "v,gocache_tag_t", 2592000 * Second, none) := by
  decide

/-! ## The delimited encoding between the tag step and Invalidate -/

theorem splitChars_eq_splitOn (cs : List Char) : splitChars cs = cs.splitOn ',' := by
  induction cs with
  | nil => rfl
  | cons c cs ih =>
    have e : (c :: cs).splitOn ',' =
        if (c == ',') = true then [] :: cs.splitOn ','
        else (cs.splitOn ',').modifyHead (List.cons c) := List.splitOnP_cons _ _ _
    rw [e, ← ih, splitChars]
    by_cases hc : c = ','
    · simp [hc]
    · have hne := splitChars_ne_nil cs
      cases h : splitChars cs with
      | nil => exact absurd h hne
      | cons p ps => simp [hc, List.modifyHead]

theorem joinChars_eq_intercalate (ps : List (List Char)) :
    joinChars ps = List.intercalate [','] ps := by
  induction ps with
  | nil => rfl
  | cons p qs ih =>
    cases qs with
    | nil => simp [joinChars, List.intercalate]
    | cons q qs =>
      rw [joinChars, ih]
      simp [List.intercalate, List.intersperse]

theorem memcache_recording_invalidate_one {σ : Type} (c : MemcacheClientInterface σ)
    (d : Options) (t : String) (st : σ) (log : List MemcacheCall) (item : Item)
    (h : (c.Get st (tagKey t)).1 = (some item, none)) :
    ((MemcacheStore.mk c.recording d).Invalidate (st, log) ⟨[t]⟩).2.2 =
      log ++ MemcacheCall.Get (tagKey t) :: (split item.Value).map MemcacheCall.Delete := by
  rw [memcache_Invalidate_eq, MemcacheStore.invalidateTags]
  have hG : (MemcacheStore.mk c.recording d).Get (st, log) (tagKey t) =
      ((Value.bytes item.Value, none),
        ((c.Get st (tagKey t)).2, log ++ [MemcacheCall.Get (tagKey t)])) := by
    have h1 : (c.Get st (tagKey t)).1.1 = some item := by rw [h]
    have h2 : (c.Get st (tagKey t)).1.2 = none := by rw [h]
    simp only [MemcacheStore.Get, MemcacheClientInterface.recording, h1, h2]
  simp only [hG, ne_eq, not_true_eq_false, if_false, asMembers]
  rw [memcache_recording_deletes]
  simp [MemcacheStore.invalidateTags]

theorem ristretto_recording_invalidate_one {σ : Type} (c : RistrettoClientInterface σ)
    (d : Options) (t : String) (st : σ) (log : List RistrettoCall) (v : Value)
    (h : (c.Get st (tagKey t)).1 = (v, true)) :
    ((RistrettoStore.mk c.recording d).Invalidate (st, log) ⟨[t]⟩).2.2 =
      log ++ RistrettoCall.Get (tagKey t) :: (asMembers v).map RistrettoCall.Del := by
  rw [ristretto_Invalidate_eq, RistrettoStore.invalidateTags]
  have hG : (RistrettoStore.mk c.recording d).Get (st, log) (tagKey t) =
      ((v, none), ((c.Get st (tagKey t)).2, log ++ [RistrettoCall.Get (tagKey t)])) := by
    have h1 : (c.Get st (tagKey t)).1.1 = v := by rw [h]
    have h2 : (c.Get st (tagKey t)).1.2 = true := by rw [h]
    simp only [RistrettoStore.Get, RistrettoClientInterface.recording, h1, h2, if_true]
  simp only [hG, ne_eq, not_true_eq_false, if_false]
  rw [ristretto_recording_deletes]
  simp [RistrettoStore.invalidateTags]

/-- C29. The delimited member-list encoding is lossless on comma-free
keys.  For every non-empty list `keys` of keys none of which contains
`','`, the bytes `join keys` that the memcache and ristretto tag step
writes for the list are parsed back to `keys`, in order, by the
assertion and split of the tag step and of `Invalidate`; so on every
memcache and ristretto client whose read of `gocache_tag_<t>` yields
these bytes, `Invalidate` of `t` calls the client's delete once for
each element of `keys`, in order, and the tag step for a key `K` writes
back `keys` itself when `K` is in it and `keys` followed by `K`
otherwise.  Over a key-value map the list the tag step writes for a
comma-free `K` is the list read from the entry afterwards. -/
theorem delimited_encoding_lossless {σ : Type} (d : Options) (t : String)
    (keys : List String) (hne : keys ≠ []) (h : ∀ k ∈ keys, ',' ∉ k.data) :
    split (join keys) = keys
    ∧ asMembers (Value.bytes (join keys)) = keys
    ∧ (∀ (c : MemcacheClientInterface σ) (st : σ) (log : List MemcacheCall) (e : Int),
      (c.Get st (tagKey t)).1 = (some ⟨tagKey t, join keys, e⟩, none) →
      ((MemcacheStore.mk c.recording d).Invalidate (st, log) ⟨[t]⟩).2.2 =
          log ++ MemcacheCall.Get (tagKey t) :: keys.map MemcacheCall.Delete
        ∧ ∀ K : String, ((MemcacheStore.mk c.recording d).setTag K (st, log) t).2 =
          log ++ [MemcacheCall.Get (tagKey t),
            MemcacheCall.Set ⟨tagKey t, join (if K ∈ keys then keys else keys ++ [K]),
              2592000⟩])
    ∧ (∀ (c : RistrettoClientInterface σ) (st : σ) (log : List RistrettoCall),
      (c.Get st (tagKey t)).1 = (Value.bytes (join keys), true) →
      ((RistrettoStore.mk c.recording d).Invalidate (st, log) ⟨[t]⟩).2.2 =
          log ++ RistrettoCall.Get (tagKey t) :: keys.map RistrettoCall.Del
        ∧ ∀ K : String, ((RistrettoStore.mk c.recording d).setTag K (st, log) t).2 =
          log ++ [RistrettoCall.Get (tagKey t),
            RistrettoCall.SetWithTTL (tagKey t)
              (Value.bytes (join (if K ∈ keys then keys else keys ++ [K]))) 0 (720 * Hour)])
    ∧ (∀ (K : String), ',' ∉ K.data →
      (∀ sm : KV Item, itemMembers sm t = keys →
        itemMembers ((MemcacheStore.mk mapMemcache d).setTag K sm t) t =
          (if K ∈ keys then keys else keys ++ [K]))
      ∧ (∀ sr : KV Value, bytesMembers sr t = keys →
        bytesMembers ((RistrettoStore.mk mapRistretto d).setTag K sr t) t =
          (if K ∈ keys then keys else keys ++ [K]))) := by
  have hs : split (join keys) = keys := split_join keys hne h
  refine ⟨hs, hs, ?_, ?_, ?_⟩
  · intro c st log e hG
    constructor
    · rw [memcache_recording_invalidate_one c d t st log _ hG]
      simp only [hs]
    · intro K
      have h1 : (c.Get st (tagKey t)).1.1 = some ⟨tagKey t, join keys, e⟩ := by rw [hG]
      have h2 : (c.Get st (tagKey t)).1.2 = none := by rw [hG]
      rw [memcache_recording_setTag]
      simp only [MemcacheStore.Get, h1, h2, asMembers, hs, if_true, addMember]
  · intro c st log hG
    constructor
    · rw [ristretto_recording_invalidate_one c d t st log _ hG]
      simp only [asMembers, hs]
    · intro K
      have h1 : (c.Get st (tagKey t)).1.1 = Value.bytes (join keys) := by rw [hG]
      have h2 : (c.Get st (tagKey t)).1.2 = true := by rw [hG]
      rw [ristretto_recording_setTag]
      simp only [RistrettoStore.Get, h1, h2, asMembers, hs, if_true, addMember]
  · intro K hK
    constructor
    · intro sm hm
      rw [memcache_members_setTag d K sm t hK, hm]
      rfl
    · intro sr hr
      rw [ristretto_members_setTag d K sr t hK, hr]
      rfl

theorem delimited_encoding_lossless_witness :
    ((MemcacheStore.mk mapMemcache.recording {}).Invalidate
        (KV.empty.put "gocache_tag_tag1"
          ⟨"gocache_tag_tag1", "a23fdf987h2svc23,jHG2372x38hf74", 0⟩, [])
        ⟨["tag1"]⟩).2.2 =
      [] ++ MemcacheCall.Get (tagKey "tag1") ::
        ["a23fdf987h2svc23", "jHG2372x38hf74"].map MemcacheCall.Delete
    ∧ split (join ["a23fdf987h2svc23", "jHG2372x38hf74"]) =
      ["a23fdf987h2svc23", "jHG2372x38hf74"] :=
  ⟨((delimited_encoding_lossless {} "tag1" ["a23fdf987h2svc23", "jHG2372x38hf74"]
      (by decide) (by decide)).2.2.1 mapMemcache
      (KV.empty.put "gocache_tag_tag1"
        ⟨"gocache_tag_tag1", "a23fdf987h2svc23,jHG2372x38hf74", 0⟩) [] 0 (by decide)).1,
    (delimited_encoding_lossless (σ := Unit) {} "tag1" ["a23fdf987h2svc23", "jHG2372x38hf74"]
      (by decide) (by decide)).1⟩

/-- The by-value embedding of the tag step is what a reader of the
index entry sees of the by-reference one: after one tag step on map
objects, the index entry viewed through the heap is the index entry
the by-value step leaves on the state viewed through the heap. -/
theorem byref_setTag_view_index (d : Options) (K t : String) (st : KV byref.GoValue)
    (h : byref.Heap) :
    (((byref.GoCacheStore.mk byref.mapGoCache d).setTag K (st, h) t).1 (tagKey t)).map
        (byref.view ((byref.GoCacheStore.mk byref.mapGoCache d).setTag K (st, h) t).2) =
      (GoCacheStore.mk mapGoCache d).setTag K (fun k => (st k).map (byref.view h)) t
        (tagKey t) := by
  rw [byref_map_setTag, gocache_map_setTag]
  cases hv : st (tagKey t) with
  | none =>
    simp [keySetMembers, hv, KV.put, byref.view, byref.Heap.insert, byref.Heap.make, asKeySet]
  | some v =>
    cases v with
    | mapRef b =>
      by_cases hm : K ∈ h.maps b
      · simp [keySetMembers, hv, KV.put, byref.view, asKeySet, hm]
      · simp [keySetMembers, hv, KV.put, byref.view, byref.Heap.insert, asKeySet, hm]
    | _ =>
      simp [keySetMembers, hv, KV.put, byref.view, byref.Heap.insert, byref.Heap.make,
        asKeySet]

end store
